import Mathlib

/-!
# Job scheduling simulator (`LP1/JobScheduling.cpp`)

A shallow embedding of the four scheduling routines `FCFS`, `SJF`,
`PriorityScheduling` and `RoundRobin`, of the tables they print and of the menu
loop of `main`.

Modelling conventions.

* `int` is `CInt`: an integer in the range `-2147483648 .. 2147483647`.  The
  result of `+` and `-` is reduced modulo `2^32` into that range (`wrap32`), which
  is what the compiled program does when a sum leaves the range.
* `vector<T>` is a `List T`; `v[i]` is `v.getD i d`, and `v[i] = x` is `v.set i x`.
* `std::sort` is library code.  The C++ standard fixes only its contract (the
  range is permuted into an order sorted with respect to the comparator, which
  has to be a strict weak ordering); the relative order of equivalent elements
  is unspecified.  The routines therefore take an implementation of that
  contract (`StdSort`) as a parameter.
* The `while (!q.empty())` loop of `RoundRobin` may run forever, so the loop
  takes a fuel argument that bounds the number of dequeue operations and returns
  `none` when the fuel does not suffice.  `rrRun` is the same loop seen step by
  step: the state after a given number of passes through its body.
* The routines take `vector<Job> &jobs`; the field `jobs` of an `Output` is that
  vector after the call, and `mainLoop` hands it to the next choice of the menu.
* The namespace `Exact` holds the same loops over unbounded integers.  They are
  not the program: they say what the sums would be without the reduction modulo
  `2^32`, and the theorems about the program are obtained by comparing the two.
-/

namespace JobScheduling

/-! ## The type `int` -/

/-- What a 32-bit two's complement `int` holds after an operation whose exact
result is `x`: the number in `-2^31 .. 2^31 - 1` congruent to `x` modulo `2^32`. -/
def wrap32 (x : Int) : Int := (x + 2147483648) % 4294967296 - 2147483648

/-- A value of the C++ type `int`. -/
structure CInt where
  val : Int
  lo : -2147483648 ≤ val
  hi : val ≤ 2147483647

/-- The `int` obtained from an exact result. -/
def CInt.ofInt (x : Int) : CInt :=
  ⟨wrap32 x, by unfold wrap32; omega, by unfold wrap32; omega⟩

instance : DecidableEq CInt := fun a b =>
  decidable_of_iff (a.val = b.val) (by cases a; cases b; simp)

instance : Repr CInt := ⟨fun a n => reprPrec a.val n⟩

instance (n : Nat) : OfNat CInt n := ⟨CInt.ofInt n⟩

instance : Inhabited CInt := ⟨0⟩

/-- Addition of `int`s. -/
instance : Add CInt := ⟨fun a b => CInt.ofInt (a.val + b.val)⟩

/-- Subtraction of `int`s. -/
instance : Sub CInt := ⟨fun a b => CInt.ofInt (a.val - b.val)⟩

/-- Negation, for writing negative literals. -/
instance : Neg CInt := ⟨fun a => CInt.ofInt (- a.val)⟩

instance : LT CInt := ⟨fun a b => a.val < b.val⟩

instance : LE CInt := ⟨fun a b => a.val ≤ b.val⟩

instance (a b : CInt) : Decidable (a < b) := Int.decLt a.val b.val

instance (a b : CInt) : Decidable (a ≤ b) := Int.decLe a.val b.val

/-! ## Data model -/

/-- Class `Job`: process name, burst time, arrival time, priority (the C++ field
`at` is spelled `at_`, `at` being reserved in Lean). -/
structure Job where
  pname : String
  bt : CInt
  at_ : CInt
  pr : CInt
deriving DecidableEq, Repr

/-- Default constructor `Job()`: empty name, all numbers zero. -/
instance : Inhabited Job := ⟨⟨"", 0, 0, 0⟩⟩

/-- One printed line of `printResultTable`: name, burst, waiting, turnaround. -/
structure Row where
  pname : String
  bt : CInt
  wt : CInt
  tat : CInt
deriving DecidableEq, Repr

/-- Function `printResultTable`: one line per index `i < jobs.size()`, showing
`jobs[i].pname`, `jobs[i].bt`, `wt[i]`, `tat[i]`. -/
def printResultTable (jobs : List Job) (wt tat : List CInt) : List Row :=
  (List.range jobs.length).map fun i =>
    ⟨(jobs.getD i default).pname, (jobs.getD i default).bt, wt.getD i 0, tat.getD i 0⟩

/-- What a scheduling routine leaves behind: the vector `jobs` (passed by
reference, so this is also the caller's vector after the call) and the local
vectors `wt` and `tat` handed to `printResultTable`. -/
structure Output where
  jobs : List Job
  wt : List CInt
  tat : List CInt
deriving DecidableEq, Repr

/-- The table a routine prints. -/
def Output.table (o : Output) : List Row :=
  printResultTable o.jobs o.wt o.tat

/-! ## `std::sort` -/

/-- Comparator of `FCFS`: `a.at < b.at`. -/
def byArrival (a b : Job) : Bool := decide (a.at_ < b.at_)

/-- Comparator of `SJF`: `a.bt < b.bt`. -/
def byBurst (a b : Job) : Bool := decide (a.bt < b.bt)

/-- Comparator of `PriorityScheduling`: `a.pr < b.pr`. -/
def byPriority (a b : Job) : Bool := decide (a.pr < b.pr)

/-- Precondition of `std::sort` on its comparator: a strict weak ordering. -/
structure StrictWeakOrdering (comp : Job → Job → Bool) : Prop where
  irrefl : ∀ a, comp a a = false
  trans : ∀ a b c, comp a b = true → comp b c = true → comp a c = true
  incomp_trans : ∀ a b c, comp a b = false → comp b a = false →
    comp b c = false → comp c b = false → comp a c = false ∧ comp c a = false

/-- The contract of `std::sort(first, last, comp)`: for a strict weak ordering
`comp` the range is rearranged (a permutation) so that no later element is
`comp`-before an earlier one.  Nothing is said about equivalent elements. -/
structure StdSort where
  sort : (Job → Job → Bool) → List Job → List Job
  perm : ∀ comp l, StrictWeakOrdering comp → (sort comp l).Perm l
  sorted : ∀ comp l, StrictWeakOrdering comp →
    (sort comp l).Pairwise (fun a b => comp b a = false)

/-! ## The non-preemptive routines -/

/-- The waiting-time loop shared by `FCFS`, `SJF` and `PriorityScheduling`:
`vector<int> wt(n, 0); for (i = 1; i < n; i++) wt[i] = wt[i-1] + jobs[i-1].bt;` -/
def waitingLoop (jobs : List Job) (n : Nat) : List CInt :=
  (List.range' 1 (n - 1)).foldl
    (fun wt i => wt.set i (wt.getD (i - 1) 0 + (jobs.getD (i - 1) default).bt))
    (List.replicate n 0)

/-- The turnaround loop shared by all four routines:
`vector<int> tat(n, 0); for (i = 0; i < n; i++) tat[i] = jobs[i].bt + wt[i];` -/
def turnaroundLoop (jobs : List Job) (wt : List CInt) (n : Nat) : List CInt :=
  (List.range n).foldl
    (fun tat i => tat.set i ((jobs.getD i default).bt + wt.getD i 0))
    (List.replicate n 0)

/-- Body common to `FCFS`, `SJF` and `PriorityScheduling` once the comparator is
chosen: sort `jobs` in place, fill `wt`, fill `tat`. -/
def nonPreemptive (S : StdSort) (comp : Job → Job → Bool) (jobs : List Job) : Output :=
  let n := jobs.length
  let jobs := S.sort comp jobs
  let wt := waitingLoop jobs n
  let tat := turnaroundLoop jobs wt n
  { jobs := jobs, wt := wt, tat := tat }

/-- Function `FCFS`: sort by arrival time, then the two loops. -/
def FCFS (S : StdSort) (jobs : List Job) : Output :=
  nonPreemptive S byArrival jobs

/-- Function `SJF`: sort by burst time, then the two loops. -/
def SJF (S : StdSort) (jobs : List Job) : Output :=
  nonPreemptive S byBurst jobs

/-- Function `PriorityScheduling`: sort by priority value, then the two loops. -/
def PriorityScheduling (S : StdSort) (jobs : List Job) : Output :=
  nonPreemptive S byPriority jobs

/-! ## Round Robin -/

/-- Local state of `RoundRobin` while the `while` loop runs. -/
structure RRState where
  q : List Nat
  rem_bt : List CInt
  wt : List CInt
  time : CInt
deriving DecidableEq, Repr

/-- State before the `while` loop: `rem_bt[i] = jobs[i].bt` and `q.push(i)` for
`i = 0 .. n-1`, `wt` all zero, `time = 0`. -/
def rrInit (jobs : List Job) : RRState :=
  { q := List.range jobs.length
    rem_bt := jobs.map (fun j => j.bt)
    wt := List.replicate jobs.length 0
    time := 0 }

/-- One pass through the body of the `while` loop, for the dequeued index `i`
and the rest `rest` of the queue. -/
def rrBody (jobs : List Job) (tq : CInt) (s : RRState) (i : Nat) (rest : List Nat) : RRState :=
  if s.rem_bt.getD i 0 > tq then
    { q := rest ++ [i]
      rem_bt := s.rem_bt.set i (s.rem_bt.getD i 0 - tq)
      wt := s.wt
      time := s.time + tq }
  else
    { q := rest
      rem_bt := s.rem_bt.set i 0
      wt := s.wt.set i (s.time + s.rem_bt.getD i 0 - (jobs.getD i default).bt)
      time := s.time + s.rem_bt.getD i 0 }

/-- The loop `while (!q.empty())`, allowed at most `fuel` dequeue operations:
`some` of the state at loop exit, or `none` when the queue is still non-empty
after `fuel` iterations. -/
def rrLoop (jobs : List Job) (tq : CInt) : Nat → RRState → Option RRState
  | fuel, s =>
    match s.q with
    | [] => some s
    | i :: rest =>
      match fuel with
      | 0 => none
      | fuel + 1 => rrLoop jobs tq fuel (rrBody jobs tq s i rest)

/-- Function `RoundRobin`: initialise, run the loop, fill `tat`.  The vector
`jobs` is not written to. -/
def RoundRobin (fuel : Nat) (jobs : List Job) (tq : CInt) : Option Output :=
  match rrLoop jobs tq fuel (rrInit jobs) with
  | none => none
  | some s =>
    some { jobs := jobs, wt := s.wt, tat := turnaroundLoop jobs s.wt jobs.length }

/-- The `while` loop of `RoundRobin` seen step by step: the state after `k`
passes through its body, or the state at loop exit if the queue runs empty
before that. -/
def rrRun (jobs : List Job) (tq : CInt) : Nat → RRState → RRState
  | 0, s => s
  | k + 1, s =>
    match s.q with
    | [] => s
    | i :: rest => rrRun jobs tq k (rrBody jobs tq s i rest)

/-! ## The menu loop of `main` -/

/-- The menu choices of `main` that run a scheduler: `1`, `2`, `3`, and `4`
together with the quantum read after it. -/
inductive Choice where
  | fcfs
  | sjf
  | priority
  | roundRobin (tq : CInt)
deriving DecidableEq, Repr

/-- One pass through the `switch` of `main`: the routine chosen is called on the
vector `jobs` of `main`, which it receives by reference. -/
def runChoice (S : StdSort) (fuel : Nat) (jobs : List Job) : Choice → Option Output
  | Choice.fcfs => some (FCFS S jobs)
  | Choice.sjf => some (SJF S jobs)
  | Choice.priority => some (PriorityScheduling S jobs)
  | Choice.roundRobin tq => RoundRobin fuel jobs tq

/-- The `do ... while` loop of `main` on a sequence of choices made before
`5. Exit`: the tables printed, in order, and the vector `jobs` of `main` at the
end.  Every call works on the vector as the call before it left it. -/
def mainLoop (S : StdSort) (fuel : Nat) : List Job → List Choice →
    Option (List (List Row) × List Job)
  | jobs, [] => some ([], jobs)
  | jobs, c :: cs =>
    match runChoice S fuel jobs c with
    | none => none
    | some o =>
      match mainLoop S fuel o.jobs cs with
      | none => none
      | some (tables, final) => some (o.table :: tables, final)

/-! ## An implementation of the `std::sort` contract -/

/-- Insertion sort that puts an element in front of the first one that is not
`comp`-before it: equivalent elements keep their input order. -/
def insertionSort (comp : Job → Job → Bool) (l : List Job) : List Job :=
  l.insertionSort (fun a b => comp b a = false)

/-- The stable insertion sort meets the contract of `std::sort`. -/
def stableStdSort : StdSort where
  sort := insertionSort
  perm := fun _ l _ => List.perm_insertionSort _ l
  sorted := fun comp l h =>
    have asymm : ∀ a b, comp a b = true → comp b a = false := fun a b hab => by
      cases hba : comp b a with
      | false => rfl
      | true => have := h.trans a b a hab hba; rw [h.irrefl a] at this; cases this
    @List.sorted_insertionSort Job (fun a b => comp b a = false) _
      ⟨fun a b => by
        cases hab : comp a b with
        | false => exact Or.inr rfl
        | true => exact Or.inl (asymm a b hab)⟩
      ⟨fun a b c hab hbc => by
        cases hca : comp c a with
        | false => rfl
        | true =>
          have h1 : comp b c = false := by
            cases hx : comp b c with
            | false => rfl
            | true => rw [h.trans b c a hx hca] at hab; cases hab
          have h2 : comp a b = false := by
            cases hx : comp a b with
            | false => rfl
            | true => rw [h.trans c a b hca hx] at hbc; cases hbc
          have := (h.incomp_trans c b a hbc h1 hab h2).1
          rw [hca] at this; cases this⟩ l

/-! ## Specification vocabulary -/

/-- Sum of the burst times of the first `i` jobs of a vector, as an integer. -/
def burstBefore (jobs : List Job) (i : Nat) : Int :=
  ((jobs.take i).map (fun j => j.bt.val)).sum

/-- Sum of all burst times of a vector, as an integer. -/
def totalBurst (jobs : List Job) : Int :=
  (jobs.map (fun j => j.bt.val)).sum

/-- Sum of the absolute values of all burst times of a vector. -/
def totalAbsBurst (jobs : List Job) : Int :=
  (jobs.map (fun j => |j.bt.val|)).sum

/-- Stability of a reordering with respect to a key: for every key value the
jobs having it come out in the order they went in. -/
def KeepsTies (key : Job → Int) (input output : List Job) : Prop :=
  ∀ k, output.filter (fun j => decide (key j = k)) = input.filter (fun j => decide (key j = k))

/-- The ceiling of `a / q` for a positive `q`. -/
def ceilDiv (a q : Int) : Int := (a + q - 1) / q

/-- Number of times a job whose remaining burst is `r` is still dequeued under a
quantum `tq > 0`: `⌈r / tq⌉`, and once if `r ≤ 0`. -/
def turns (tq r : Int) : Nat := ((r - 1) / tq).toNat + 1

/-- Total waiting time of a sequence of bursts run in that order under the rule
`wt[0] = 0`, `wt[i] = wt[i-1] + bt[i-1]` in exact arithmetic: every burst is
waited for by all the jobs behind it. -/
def waitingCost : List Int → Int
  | [] => 0
  | b :: t => b * t.length + waitingCost t

/-! ## `std::sort` as the GNU C++ library implements it

The routines below follow `bits/stl_algo.h` and `bits/stl_heap.h` of libstdc++:
an introsort (median-of-three quicksort down to ranges of 16 elements, heap sort
when the depth limit runs out) followed by an insertion sort.  The vector is a
list, an iterator is an index into it.  A loop of the library that scans or
sifts takes a fuel argument here; the callers pass the length of the vector,
which no such loop exceeds. -/

namespace Gnu

/-- The call `std::iter_swap(a, b)`. -/
def iterSwap (v : List Job) (a b : Nat) : List Job :=
  (v.set a (v.getD b default)).set b (v.getD a default)

/-- Function `__move_median_to_first(result, a, b, c, comp)`: swaps the median
of `*a`, `*b`, `*c` to `*result`. -/
def moveMedianToFirst (comp : Job → Job → Bool) (v : List Job) (result a b c : Nat) : List Job :=
  if comp (v.getD a default) (v.getD b default) then
    if comp (v.getD b default) (v.getD c default) then iterSwap v result b
    else if comp (v.getD a default) (v.getD c default) then iterSwap v result c
    else iterSwap v result a
  else if comp (v.getD a default) (v.getD c default) then iterSwap v result a
  else if comp (v.getD b default) (v.getD c default) then iterSwap v result c
  else iterSwap v result b

/-- The loop `while (comp(first, pivot)) ++first;` of `__unguarded_partition`,
allowed `fuel` steps. -/
def scanUp (comp : Job → Job → Bool) (v : List Job) (pivot : Nat) : Nat → Nat → Nat
  | 0, first => first
  | fuel + 1, first =>
    if comp (v.getD first default) (v.getD pivot default) then scanUp comp v pivot fuel (first + 1)
    else first

/-- The loop `while (comp(pivot, last)) --last;` of `__unguarded_partition`,
allowed `fuel` steps. -/
def scanDown (comp : Job → Job → Bool) (v : List Job) (pivot : Nat) : Nat → Nat → Nat
  | 0, last => last
  | fuel + 1, last =>
    if comp (v.getD pivot default) (v.getD last default) then scanDown comp v pivot fuel (last - 1)
    else last

/-- Function `__unguarded_partition(first, last, pivot, comp)`, allowed `fuel`
passes through its outer loop: the vector and the cut point returned. -/
def unguardedPartition (comp : Job → Job → Bool) (pivot : Nat) :
    Nat → List Job → Nat → Nat → List Job × Nat
  | 0, v, first, _ => (v, first)
  | fuel + 1, v, first, last =>
    let first1 := scanUp comp v pivot v.length first
    let last1 := scanDown comp v pivot v.length (last - 1)
    if first1 < last1 then
      unguardedPartition comp pivot fuel (iterSwap v first1 last1) (first1 + 1) last1
    else (v, first1)

/-- Function `__unguarded_partition_pivot(first, last, comp)`. -/
def unguardedPartitionPivot (comp : Job → Job → Bool) (v : List Job) (first last : Nat) :
    List Job × Nat :=
  let mid := first + (last - first) / 2
  unguardedPartition comp first v.length
    (moveMedianToFirst comp v first (first + 1) mid (last - 1)) (first + 1) last

/-- Function `__push_heap(first, holeIndex, topIndex, value, comp)`, allowed
`fuel` passes through its loop. -/
def pushHeap (comp : Job → Job → Bool) (first topIndex : Nat) (value : Job) :
    Nat → List Job → Nat → List Job
  | 0, v, holeIndex => v.set (first + holeIndex) value
  | fuel + 1, v, holeIndex =>
    if holeIndex > topIndex ∧ comp (v.getD (first + (holeIndex - 1) / 2) default) value = true then
      pushHeap comp first topIndex value fuel
        (v.set (first + holeIndex) (v.getD (first + (holeIndex - 1) / 2) default))
        ((holeIndex - 1) / 2)
    else v.set (first + holeIndex) value

/-- The loop `while (secondChild < (len - 1) / 2)` of `__adjust_heap`, allowed
`fuel` passes: the vector and the hole index at its end (`secondChild` then
equals the hole index). -/
def siftHole (comp : Job → Job → Bool) (first len : Nat) : Nat → List Job → Nat → List Job × Nat
  | 0, v, holeIndex => (v, holeIndex)
  | fuel + 1, v, holeIndex =>
    if holeIndex < (len - 1) / 2 then
      let right := 2 * (holeIndex + 1)
      let child :=
        if comp (v.getD (first + right) default) (v.getD (first + (right - 1)) default)
        then right - 1 else right
      siftHole comp first len fuel (v.set (first + holeIndex) (v.getD (first + child) default)) child
    else (v, holeIndex)

/-- Function `__adjust_heap(first, holeIndex, len, value, comp)` (called with
`len ≥ 1` only). -/
def adjustHeap (comp : Job → Job → Bool) (v : List Job) (first holeIndex len : Nat)
    (value : Job) : List Job :=
  let r := siftHole comp first len len v holeIndex
  if len % 2 = 0 ∧ 2 ≤ len ∧ r.2 = (len - 2) / 2 then
    pushHeap comp first holeIndex value len
      (r.1.set (first + r.2) (r.1.getD (first + (2 * (r.2 + 1) - 1)) default))
      (2 * (r.2 + 1) - 1)
  else pushHeap comp first holeIndex value len r.1 r.2

/-- Function `__pop_heap(first, last, result, comp)`. -/
def popHeap (comp : Job → Job → Bool) (v : List Job) (first last result : Nat) : List Job :=
  adjustHeap comp (v.set result (v.getD first default)) first 0 (last - first)
    (v.getD result default)

/-- The loop of `__make_heap` from `parent` down to `0`. -/
def makeHeapFrom (comp : Job → Job → Bool) (first len : Nat) : Nat → List Job → List Job
  | 0, v => adjustHeap comp v first 0 len (v.getD first default)
  | parent + 1, v =>
    makeHeapFrom comp first len parent
      (adjustHeap comp v first (parent + 1) len (v.getD (first + (parent + 1)) default))

/-- Function `__make_heap(first, last, comp)`. -/
def makeHeap (comp : Job → Job → Bool) (v : List Job) (first last : Nat) : List Job :=
  if last - first < 2 then v
  else makeHeapFrom comp first (last - first) ((last - first - 2) / 2) v

/-- Function `__sort_heap(first, last, comp)`, as a recursion on `last - first`. -/
def sortHeap (comp : Job → Job → Bool) (first : Nat) : Nat → List Job → List Job
  | 0, v => v
  | 1, v => v
  | len + 1, v => sortHeap comp first len (popHeap comp v first (first + len) (first + len))

/-- Function `__partial_sort(first, middle, last, comp)` as `__introsort_loop`
calls it, with `middle = last`: the loop of `__heap_select` over
`[middle, last)` is empty, leaving `__make_heap` and `__sort_heap`. -/
def partialSort (comp : Job → Job → Bool) (v : List Job) (first last : Nat) : List Job :=
  sortHeap comp first (last - first) (makeHeap comp v first last)

/-- Function `__introsort_loop(first, last, depth_limit, comp)`: every pass
through its loop and every recursive call lowers `depth_limit`. -/
def introsortLoop (comp : Job → Job → Bool) : Nat → List Job → Nat → Nat → List Job
  | 0, v, first, last =>
    if last - first > 16 then partialSort comp v first last else v
  | depth + 1, v, first, last =>
    if last - first > 16 then
      introsortLoop comp depth
        (introsortLoop comp depth (unguardedPartitionPivot comp v first last).1
          (unguardedPartitionPivot comp v first last).2 last)
        first (unguardedPartitionPivot comp v first last).2
    else v

/-- Function `__unguarded_linear_insert`: `val` moves towards the front past
every element it is `comp`-before.  The elements in front of `val` are given
nearest first.  The library calls it only where some element stops the scan; at
the front of the vector `val` is put first. -/
def unguardedLinearInsert (comp : Job → Job → Bool) (val : Job) : List Job → List Job
  | [] => [val]
  | x :: rest =>
    if comp val x then x :: unguardedLinearInsert comp val rest else val :: x :: rest

/-- One pass through the loop of `__insertion_sort`, with `sorted` the range in
front of `val`: `val` goes to the front when it is `comp`-before the first
element, and is inserted by `__unguarded_linear_insert` otherwise. -/
def insertionStep (comp : Job → Job → Bool) (sorted : List Job) (val : Job) : List Job :=
  match sorted with
  | [] => [val]
  | f :: _ =>
    if comp val f then val :: sorted
    else (unguardedLinearInsert comp val sorted.reverse).reverse

/-- Function `__insertion_sort(first, last, comp)` on the range `l`. -/
def insertionSort (comp : Job → Job → Bool) (l : List Job) : List Job :=
  l.foldl (insertionStep comp) []

/-- Function `__unguarded_insertion_sort(first, last, comp)`: the range `rest`
behind the sorted range `sorted`. -/
def unguardedInsertionSort (comp : Job → Job → Bool) (sorted rest : List Job) : List Job :=
  rest.foldl (fun s val => (unguardedLinearInsert comp val s.reverse).reverse) sorted

/-- Function `__final_insertion_sort(first, last, comp)` on the whole vector. -/
def finalInsertionSort (comp : Job → Job → Bool) (v : List Job) : List Job :=
  if v.length > 16 then
    unguardedInsertionSort comp (insertionSort comp (v.take 16)) (v.drop 16)
  else insertionSort comp v

/-- Function `__lg(n)`: the position of the highest bit of `n`. -/
def lg : Nat → Nat → Nat
  | 0, _ => 0
  | fuel + 1, n => if n < 2 then 0 else lg fuel (n / 2) + 1

/-- Function `__sort(first, last, comp)` on the whole vector: what
`std::sort(jobs.begin(), jobs.end(), comp)` does. -/
def sort (comp : Job → Job → Bool) (v : List Job) : List Job :=
  match v with
  | [] => []
  | _ :: _ => finalInsertionSort comp (introsortLoop comp (lg v.length v.length * 2) v 0 v.length)

end Gnu

/-- The GNU `std::sort` as an implementation of the contract `StdSort`.  That
the algorithm meets the contract on every input is not proved in this file:
its result is checked against the contract, and the stable insertion sort stands
in should the check fail.  On a vector of at most 16 elements the check does not
fail (`gnuStdSort_small`), nor does it on the vector `seventeenTies`. -/
def gnuStdSort : StdSort where
  sort := fun comp l =>
    if (Gnu.sort comp l).Perm l ∧ (Gnu.sort comp l).Pairwise (fun a b => comp b a = false)
    then Gnu.sort comp l else insertionSort comp l
  perm := fun comp l h => by
    by_cases hc : (Gnu.sort comp l).Perm l ∧
        (Gnu.sort comp l).Pairwise (fun a b => comp b a = false)
    · simp only [if_pos hc]
      exact hc.1
    · simp only [if_neg hc]
      exact stableStdSort.perm comp l h
  sorted := fun comp l h => by
    by_cases hc : (Gnu.sort comp l).Perm l ∧
        (Gnu.sort comp l).Pairwise (fun a b => comp b a = false)
    · simp only [if_pos hc]
      exact hc.2
    · simp only [if_neg hc]
      exact stableStdSort.sorted comp l h

/-- Seventeen jobs `J0 .. J16` in input order with the same burst time, arrival
time and priority. -/
def seventeenTies : List Job :=
  [⟨"J0", 1, 0, 0⟩, ⟨"J1", 1, 0, 0⟩, ⟨"J2", 1, 0, 0⟩, ⟨"J3", 1, 0, 0⟩, ⟨"J4", 1, 0, 0⟩,
   ⟨"J5", 1, 0, 0⟩, ⟨"J6", 1, 0, 0⟩, ⟨"J7", 1, 0, 0⟩, ⟨"J8", 1, 0, 0⟩, ⟨"J9", 1, 0, 0⟩,
   ⟨"J10", 1, 0, 0⟩, ⟨"J11", 1, 0, 0⟩, ⟨"J12", 1, 0, 0⟩, ⟨"J13", 1, 0, 0⟩, ⟨"J14", 1, 0, 0⟩,
   ⟨"J15", 1, 0, 0⟩, ⟨"J16", 1, 0, 0⟩]

/-! ## The same loops over unbounded integers

Everything in the namespace `Exact` is arithmetic on `Int` without reduction
modulo `2^32`.  These definitions are not the program; they are what the
program is compared with. -/

namespace Exact

/-- A job whose numbers are unbounded integers. -/
structure Job where
  pname : String
  bt : Int
  at_ : Int
  pr : Int
deriving DecidableEq, Repr

instance : Inhabited Job := ⟨⟨"", 0, 0, 0⟩⟩

/-- The vectors `jobs`, `wt`, `tat` with unbounded integers. -/
structure Output where
  jobs : List Job
  wt : List Int
  tat : List Int
deriving DecidableEq, Repr

/-- The waiting-time loop in exact arithmetic. -/
def waitingLoop (jobs : List Job) (n : Nat) : List Int :=
  (List.range' 1 (n - 1)).foldl
    (fun wt i => wt.set i (wt.getD (i - 1) 0 + (jobs.getD (i - 1) default).bt))
    (List.replicate n 0)

/-- The turnaround loop in exact arithmetic. -/
def turnaroundLoop (jobs : List Job) (wt : List Int) (n : Nat) : List Int :=
  (List.range n).foldl
    (fun tat i => tat.set i ((jobs.getD i default).bt + wt.getD i 0))
    (List.replicate n 0)

/-- The state of the Round Robin loop with unbounded integers. -/
structure RRState where
  q : List Nat
  rem_bt : List Int
  wt : List Int
  time : Int
deriving DecidableEq, Repr

/-- The state before the loop. -/
def rrInit (jobs : List Job) : RRState :=
  { q := List.range jobs.length
    rem_bt := jobs.map (fun j => j.bt)
    wt := List.replicate jobs.length 0
    time := 0 }

/-- One pass through the loop body in exact arithmetic. -/
def rrBody (jobs : List Job) (tq : Int) (s : RRState) (i : Nat) (rest : List Nat) : RRState :=
  if s.rem_bt.getD i 0 > tq then
    { q := rest ++ [i]
      rem_bt := s.rem_bt.set i (s.rem_bt.getD i 0 - tq)
      wt := s.wt
      time := s.time + tq }
  else
    { q := rest
      rem_bt := s.rem_bt.set i 0
      wt := s.wt.set i (s.time + s.rem_bt.getD i 0 - (jobs.getD i default).bt)
      time := s.time + s.rem_bt.getD i 0 }

/-- The loop with fuel, in exact arithmetic. -/
def rrLoop (jobs : List Job) (tq : Int) : Nat → RRState → Option RRState
  | fuel, s =>
    match s.q with
    | [] => some s
    | i :: rest =>
      match fuel with
      | 0 => none
      | fuel + 1 => rrLoop jobs tq fuel (rrBody jobs tq s i rest)

/-- Round Robin in exact arithmetic. -/
def RoundRobin (fuel : Nat) (jobs : List Job) (tq : Int) : Option Output :=
  match rrLoop jobs tq fuel (rrInit jobs) with
  | none => none
  | some s =>
    some { jobs := jobs, wt := s.wt, tat := turnaroundLoop jobs s.wt jobs.length }

/-- The loop step by step, in exact arithmetic. -/
def rrRun (jobs : List Job) (tq : Int) : Nat → RRState → RRState
  | 0, s => s
  | k + 1, s =>
    match s.q with
    | [] => s
    | i :: rest => rrRun jobs tq k (rrBody jobs tq s i rest)

/-- Sum of the burst times of the first `i` jobs of a vector. -/
def burstBefore (jobs : List Job) (i : Nat) : Int :=
  ((jobs.take i).map (fun j => j.bt)).sum

/-- Number of dequeue operations the loop still performs from state `s` (for a
quantum `tq > 0`). -/
def dequeuesLeft (tq : Int) (s : RRState) : Nat :=
  (s.q.map (fun i => turns tq (s.rem_bt.getD i 0))).sum

/-- The closed form of the Round Robin waiting time of job `i`: with
`r = ⌈bt[i] / tq⌉` the round in which job `i` finishes, the jobs before `i` have
run `min bt[j] (r * tq)` each and the jobs after `i` have run
`min bt[j] ((r - 1) * tq)` each. -/
def rrClosedForm (jobs : List Job) (tq : Int) (i : Nat) : Int :=
  ((List.range i).map (fun j =>
      min (jobs.getD j default).bt (ceilDiv (jobs.getD i default).bt tq * tq))).sum
  + ((List.range' (i + 1) (jobs.length - (i + 1))).map (fun j =>
      min (jobs.getD j default).bt ((ceilDiv (jobs.getD i default).bt tq - 1) * tq))).sum

/-- Time job `k` has run when job `i` completes, according to the closed form. -/
def rrShare (jobs : List Job) (tq : Int) (i k : Nat) : Int :=
  if k < i then min (jobs.getD k default).bt (ceilDiv (jobs.getD i default).bt tq * tq)
  else if k = i then (jobs.getD i default).bt
  else min (jobs.getD k default).bt ((ceilDiv (jobs.getD i default).bt tq - 1) * tq)

/-- The state of the Round Robin loop in round `r + 1` (rounds counted from 1)
when the jobs of index `< p` have had their turn of that round and the others
have not: every unfinished job has run `r * tq` before its turn of the round,
and the queue holds the unfinished jobs from `p` on followed by the unfinished
jobs before `p`. -/
def roundState (jobs : List Job) (tq : Int) (r p : Nat) : RRState :=
  { q := (List.range' p (jobs.length - p)).filter
        (fun j => decide ((r : Int) * tq < (jobs.getD j default).bt))
      ++ (List.range p).filter
        (fun j => decide ((r : Int) * tq + tq < (jobs.getD j default).bt))
    rem_bt := (List.range jobs.length).map (fun j =>
      if j < p then max ((jobs.getD j default).bt - ((r : Int) * tq + tq)) 0
      else max ((jobs.getD j default).bt - (r : Int) * tq) 0)
    wt := (List.range jobs.length).map (fun j =>
      if j < p then
        (if (jobs.getD j default).bt ≤ (r : Int) * tq + tq then rrClosedForm jobs tq j else 0)
      else
        (if (jobs.getD j default).bt ≤ (r : Int) * tq then rrClosedForm jobs tq j else 0))
    time := ((List.range jobs.length).map (fun j =>
      if j < p then min (jobs.getD j default).bt ((r : Int) * tq + tq)
      else min (jobs.getD j default).bt ((r : Int) * tq))).sum }

end Exact

/-! ## Comparing the program with exact arithmetic -/

/-- A job with its numbers read as unbounded integers. -/
def toExact (j : Job) : Exact.Job :=
  ⟨j.pname, j.bt.val, j.at_.val, j.pr.val⟩

/-- The program's loop state `s` and the exact state `z` agree: same queue, same
remaining bursts, and the clock and the waiting times of `s` are those of `z`
reduced modulo `2^32`. -/
def Sim (s : RRState) (z : Exact.RRState) : Prop :=
  z.q = s.q ∧ z.rem_bt = s.rem_bt.map CInt.val ∧ s.wt = z.wt.map CInt.ofInt ∧
    s.time = CInt.ofInt z.time

/-! # Facts about the loops over unbounded integers -/

namespace Exact

/-! ## Vector lemmas -/

theorem getD_set_eq {α : Type} (l : List α) (i : Nat) (v d : α) (h : i < l.length) :
    (l.set i v).getD i d = v := by
  simp [List.getD_eq_getElem?_getD, List.getElem?_set, h]

theorem getD_set_ne {α : Type} (l : List α) (i j : Nat) (v d : α) (h : i ≠ j) :
    (l.set i v).getD j d = l.getD j d := by
  simp [List.getD_eq_getElem?_getD, List.getElem?_set, h]

theorem getD_replicate_zero (n i : Nat) : (List.replicate n (0 : Int)).getD i 0 = 0 := by
  by_cases h : i < n <;> simp [List.getD_eq_getElem?_getD, List.getElem?_replicate, h]

/-- A vector is determined by its length and its entries. -/
theorem eq_map_range_of_getD (l : List Int) (n : Nat) (f : Nat → Int) (hlen : l.length = n)
    (h : ∀ i, i < n → l.getD i 0 = f i) : l = (List.range n).map f := by
  apply List.ext_getElem
  · simp [hlen]
  · intro i h1 h2
    have := h i (by omega)
    simp only [List.getD_eq_getElem?_getD, List.getElem?_eq_getElem h1, Option.getD_some] at this
    simp [this]

theorem burstBefore_zero (jobs : List Job) : burstBefore jobs 0 = 0 := by
  simp [burstBefore]

theorem burstBefore_succ (jobs : List Job) (i : Nat) :
    burstBefore jobs (i + 1) = burstBefore jobs i + (jobs.getD i default).bt := by
  induction jobs generalizing i with
  | nil => simp [burstBefore]; rfl
  | cons a l ih =>
    cases i with
    | zero => simp [burstBefore]
    | succ k =>
      have h := ih k
      simp only [burstBefore, List.take_succ_cons, List.map_cons, List.sum_cons,
        List.getD_cons_succ] at h ⊢
      rw [h]; ring

/-! ## The two loops over `wt` and `tat` -/

/-- State of `wt` after the iterations `i = 1 .. k` of the waiting-time loop. -/
theorem waitingLoop_upto (jobs : List Job) (n k : Nat) :
    ((List.range' 1 k).foldl
      (fun wt i => wt.set i (wt.getD (i - 1) 0 + (jobs.getD (i - 1) default).bt))
      (List.replicate n 0)).length = n ∧
    ∀ i, i < n → i ≤ k → ((List.range' 1 k).foldl
      (fun wt i => wt.set i (wt.getD (i - 1) 0 + (jobs.getD (i - 1) default).bt))
      (List.replicate n 0)).getD i 0 = burstBefore jobs i := by
  induction k with
  | zero =>
    simp only [List.range'_zero, List.foldl_nil, List.length_replicate, true_and]
    intro i hi hk
    have : i = 0 := by omega
    subst this
    rw [getD_replicate_zero, burstBefore_zero]
  | succ k ih =>
    obtain ⟨hlen, hval⟩ := ih
    simp only [List.range'_1_concat, List.foldl_append, List.foldl_cons, List.foldl_nil]
    refine ⟨by simpa using hlen, ?_⟩
    intro i hi hk
    by_cases hik : 1 + k = i
    · subst hik
      rw [getD_set_eq _ _ _ _ (by omega), Nat.add_sub_cancel_left, hval k (by omega) (le_refl _),
        Nat.add_comm 1 k, burstBefore_succ]
    · rw [getD_set_ne _ _ _ _ _ hik]
      exact hval i hi (by omega)

theorem waitingLoop_length (jobs : List Job) (n : Nat) : (waitingLoop jobs n).length = n :=
  (waitingLoop_upto jobs n (n - 1)).1

theorem waitingLoop_getD (jobs : List Job) (n i : Nat) (h : i < n) :
    (waitingLoop jobs n).getD i 0 = burstBefore jobs i :=
  (waitingLoop_upto jobs n (n - 1)).2 i h (by omega)

theorem waitingLoop_eq (jobs : List Job) (n : Nat) :
    waitingLoop jobs n = (List.range n).map (burstBefore jobs) :=
  eq_map_range_of_getD _ n _ (waitingLoop_length jobs n) (waitingLoop_getD jobs n)

/-- State of `tat` after the iterations `i = 0 .. k-1` of the turnaround loop. -/
theorem turnaroundLoop_upto (jobs : List Job) (wt : List Int) (n k : Nat) :
    ((List.range k).foldl
      (fun tat i => tat.set i ((jobs.getD i default).bt + wt.getD i 0))
      (List.replicate n 0)).length = n ∧
    ∀ i, i < n → i < k → ((List.range k).foldl
      (fun tat i => tat.set i ((jobs.getD i default).bt + wt.getD i 0))
      (List.replicate n 0)).getD i 0 = (jobs.getD i default).bt + wt.getD i 0 := by
  induction k with
  | zero => simp
  | succ k ih =>
    obtain ⟨hlen, hval⟩ := ih
    simp only [List.range_succ, List.foldl_append, List.foldl_cons, List.foldl_nil]
    refine ⟨by simpa using hlen, ?_⟩
    intro i hi hk
    by_cases hik : k = i
    · subst hik
      rw [getD_set_eq _ _ _ _ (by omega)]
    · rw [getD_set_ne _ _ _ _ _ hik]
      exact hval i hi (by omega)

theorem turnaroundLoop_length (jobs : List Job) (wt : List Int) (n : Nat) :
    (turnaroundLoop jobs wt n).length = n :=
  (turnaroundLoop_upto jobs wt n n).1

theorem turnaroundLoop_getD (jobs : List Job) (wt : List Int) (n i : Nat) (h : i < n) :
    (turnaroundLoop jobs wt n).getD i 0 = (jobs.getD i default).bt + wt.getD i 0 :=
  (turnaroundLoop_upto jobs wt n n).2 i h h

/-! ## Facts about the Round Robin loop -/

theorem rrLoop_nil (jobs : List Job) (tq : Int) (fuel : Nat) (s : RRState) (h : s.q = []) :
    rrLoop jobs tq fuel s = some s := by
  unfold rrLoop
  simp only [h]

theorem rrLoop_zero_cons (jobs : List Job) (tq : Int) (s : RRState) (i : Nat) (rest : List Nat)
    (h : s.q = i :: rest) : rrLoop jobs tq 0 s = none := by
  unfold rrLoop
  simp only [h]

theorem rrLoop_succ_cons (jobs : List Job) (tq : Int) (fuel : Nat) (s : RRState) (i : Nat)
    (rest : List Nat) (h : s.q = i :: rest) :
    rrLoop jobs tq (fuel + 1) s = rrLoop jobs tq fuel (rrBody jobs tq s i rest) := by
  conv_lhs => unfold rrLoop
  simp only [h]

/-- A property kept by every pass through the loop body holds at loop exit,
where the queue is empty. -/
theorem rrLoop_invariant (jobs : List Job) (tq : Int) (Inv : RRState → Prop)
    (hstep : ∀ s i rest, s.q = i :: rest → Inv s → Inv (rrBody jobs tq s i rest))
    (fuel : Nat) (s s' : RRState) (hs : Inv s) (h : rrLoop jobs tq fuel s = some s') :
    Inv s' ∧ s'.q = [] := by
  induction fuel generalizing s with
  | zero =>
    cases hq : s.q with
    | nil =>
      rw [rrLoop_nil _ _ _ _ hq] at h
      cases h
      exact ⟨hs, hq⟩
    | cons i rest => rw [rrLoop_zero_cons _ _ _ _ _ hq] at h; cases h
  | succ fuel ih =>
    cases hq : s.q with
    | nil =>
      rw [rrLoop_nil _ _ _ _ hq] at h
      cases h
      exact ⟨hs, hq⟩
    | cons i rest =>
      rw [rrLoop_succ_cons _ _ _ _ _ _ hq] at h
      exact ih _ (hstep s i rest hq hs) h

/-- The loop body never changes the size of `wt` or `rem_bt`. -/
theorem rrBody_lengths (jobs : List Job) (tq : Int) (s : RRState) (i : Nat) (rest : List Nat) :
    (rrBody jobs tq s i rest).wt.length = s.wt.length ∧
    (rrBody jobs tq s i rest).rem_bt.length = s.rem_bt.length := by
  unfold rrBody
  split <;> simp

/-- What `RoundRobin` returns when its loop finishes. -/
theorem RoundRobin_some (fuel : Nat) (jobs : List Job) (tq : Int) (o : Output)
    (h : RoundRobin fuel jobs tq = some o) :
    ∃ s, rrLoop jobs tq fuel (rrInit jobs) = some s ∧ o.jobs = jobs ∧ o.wt = s.wt ∧
      o.tat = turnaroundLoop jobs s.wt jobs.length := by
  unfold RoundRobin at h
  cases hl : rrLoop jobs tq fuel (rrInit jobs) with
  | none => rw [hl] at h; cases h
  | some s =>
    rw [hl] at h
    simp only [Option.some.injEq] at h
    subst h
    exact ⟨s, rfl, rfl, rfl, rfl⟩

/-! ## Entries of the job vector -/

theorem getD_mem_of_lt (jobs : List Job) (i : Nat) (h : i < jobs.length) :
    jobs.getD i default ∈ jobs := by
  rw [List.getD_eq_getElem _ _ h]
  exact List.getElem_mem h

theorem getD_map_bt (jobs : List Job) (i : Nat) :
    (jobs.map (fun j => j.bt)).getD i 0 = (jobs.getD i default).bt := by
  by_cases h : i < jobs.length
  · simp [List.getD_eq_getElem?_getD, List.getElem?_eq_getElem, h]
  · simp only [not_lt] at h
    simp [List.getD_eq_getElem?_getD, List.getElem?_eq_none, h]
    rfl

/-! ## Round Robin: counting the dequeue operations -/

theorem ceilDiv_spec (a q : Int) (hq : 0 < q) :
    (ceilDiv a q - 1) * q < a ∧ a ≤ ceilDiv a q * q := by
  unfold ceilDiv
  have h1 := Int.ediv_mul_le (a + q - 1) (ne_of_gt hq)
  have h2 := Int.lt_ediv_add_one_mul_self (a + q - 1) hq
  constructor
  · nlinarith
  · nlinarith

theorem turns_of_le (tq r : Int) (hq : 0 < tq) (h : r ≤ tq) : turns tq r = 1 := by
  unfold turns
  have : (r - 1) / tq < 1 := Int.ediv_lt_of_lt_mul hq (by omega)
  omega

theorem turns_of_gt (tq r : Int) (hq : 0 < tq) (h : tq < r) :
    turns tq (r - tq) + 1 = turns tq r := by
  unfold turns
  have h1 : (r - tq - 1) / tq = (r - 1) / tq - 1 := by
    rw [show r - tq - 1 = (r - 1) + (-1) * tq by ring, Int.add_mul_ediv_right _ _ (ne_of_gt hq)]
    ring
  have h2 : 1 ≤ (r - 1) / tq := Int.le_ediv_of_mul_le hq (by omega)
  rw [h1]
  omega

theorem map_turns_set (tq : Int) (l : List Int) (i : Nat) (v : Int) (rest : List Nat)
    (h : i ∉ rest) :
    rest.map (fun j => turns tq ((l.set i v).getD j 0)) = rest.map (fun j => turns tq (l.getD j 0)) := by
  apply List.map_congr_left
  intro j hj
  rw [getD_set_ne _ _ _ _ _ (by rintro rfl; exact h hj)]

/-- Every pass through the loop body is one of the dequeue operations counted by
`dequeuesLeft`. -/
theorem dequeuesLeft_rrBody (jobs : List Job) (tq : Int) (hq : 0 < tq) (s : RRState) (i : Nat)
    (rest : List Nat) (hs : s.q = i :: rest) (hnd : s.q.Nodup) (hi : i < s.rem_bt.length) :
    dequeuesLeft tq (rrBody jobs tq s i rest) + 1 = dequeuesLeft tq s := by
  rw [hs, List.nodup_cons] at hnd
  unfold dequeuesLeft rrBody
  rw [hs]
  split
  · rename_i hgt
    simp only [List.map_append, List.map_cons, List.map_nil, List.sum_append, List.sum_cons,
      List.sum_nil, add_zero]
    rw [map_turns_set tq _ i _ rest hnd.1, getD_set_eq _ _ _ _ hi,
      ← turns_of_gt tq _ hq hgt]
    omega
  · rename_i hle
    simp only [List.map_cons, List.sum_cons]
    rw [map_turns_set tq _ i _ rest hnd.1, turns_of_le tq _ hq (by omega)]
    omega

/-- The loop body keeps the queue free of repetitions and within the vectors. -/
theorem rrBody_queue (jobs : List Job) (tq : Int) (s : RRState) (i : Nat) (rest : List Nat)
    (hs : s.q = i :: rest) (hnd : s.q.Nodup) (hb : ∀ j ∈ s.q, j < s.rem_bt.length) :
    (rrBody jobs tq s i rest).q.Nodup ∧
    ∀ j ∈ (rrBody jobs tq s i rest).q, j < (rrBody jobs tq s i rest).rem_bt.length := by
  rw [hs] at hnd hb
  rw [List.nodup_cons] at hnd
  unfold rrBody
  split
  · refine ⟨?_, ?_⟩
    · simp only
      rw [List.nodup_append]
      refine ⟨hnd.2, List.nodup_singleton i, ?_⟩
      intro a ha hai
      rw [List.mem_singleton] at hai
      subst hai
      exact hnd.1 ha
    · intro j hj
      simp only [List.mem_append, List.mem_singleton, List.length_set] at hj ⊢
      rcases hj with hj | hj
      · exact hb j (List.mem_cons_of_mem _ hj)
      · subst hj
        exact hb j (List.mem_cons_self _ _)
  · refine ⟨hnd.2, ?_⟩
    intro j hj
    simp only [List.length_set] at hj ⊢
    exact hb j (List.mem_cons_of_mem _ hj)

/-- For a positive quantum the loop finishes exactly when the fuel covers the
dequeue operations still to come. -/
theorem rrLoop_isSome_iff (jobs : List Job) (tq : Int) (hq : 0 < tq) (fuel : Nat) (s : RRState)
    (hnd : s.q.Nodup) (hb : ∀ j ∈ s.q, j < s.rem_bt.length) :
    (rrLoop jobs tq fuel s).isSome ↔ dequeuesLeft tq s ≤ fuel := by
  induction fuel generalizing s with
  | zero =>
    cases hs : s.q with
    | nil => rw [rrLoop_nil _ _ _ _ hs]; simp [dequeuesLeft, hs]
    | cons i rest =>
      rw [rrLoop_zero_cons _ _ _ _ _ hs]
      have := dequeuesLeft_rrBody jobs tq hq s i rest hs hnd (hb i (by rw [hs]; simp))
      simp only [Option.isSome_none, Bool.false_eq_true, false_iff]
      omega
  | succ fuel ih =>
    cases hs : s.q with
    | nil => rw [rrLoop_nil _ _ _ _ hs]; simp [dequeuesLeft, hs]
    | cons i rest =>
      rw [rrLoop_succ_cons _ _ _ _ _ _ hs]
      have h1 := dequeuesLeft_rrBody jobs tq hq s i rest hs hnd (hb i (by rw [hs]; simp))
      have h2 := rrBody_queue jobs tq s i rest hs hnd hb
      rw [ih _ h2.1 h2.2]
      omega

theorem map_getD_range (jobs : List Job) (f : Int → Nat) :
    (List.range jobs.length).map (fun i => f ((jobs.map (fun j => j.bt)).getD i 0))
      = jobs.map (fun j => f j.bt) := by
  apply List.ext_getElem
  · simp
  · intro i h1 h2
    simp only [List.length_map, List.length_range] at h1
    simp [List.getD_eq_getElem?_getD, List.getElem?_eq_getElem, h1]

/-- Number of dequeue operations of a whole run: the sum of `⌈bt / tq⌉`. -/
theorem dequeuesLeft_rrInit (jobs : List Job) (tq : Int) :
    dequeuesLeft tq (rrInit jobs) = (jobs.map (fun j => turns tq j.bt)).sum := by
  unfold dequeuesLeft rrInit
  simp only
  rw [map_getD_range jobs (turns tq)]

/-- For a positive quantum `RoundRobin` returns a table exactly when the fuel
covers the `⌈bt / tq⌉` dequeue operations of every job. -/
theorem RoundRobin_isSome_iff (jobs : List Job) (tq : Int) (hq : 0 < tq) (fuel : Nat) :
    (RoundRobin fuel jobs tq).isSome ↔ (jobs.map (fun j => turns tq j.bt)).sum ≤ fuel := by
  rw [← dequeuesLeft_rrInit, ← rrLoop_isSome_iff jobs tq hq fuel (rrInit jobs)
    (by simp [rrInit, List.nodup_range]) (by simp [rrInit])]
  unfold RoundRobin
  cases rrLoop jobs tq fuel (rrInit jobs) <;> rfl

/-- The sum of `⌈bt / tq⌉` over jobs with positive bursts is at most
`⌈B / tq⌉ + n`. -/
theorem sum_turns_le (jobs : List Job) (tq : Int) (hq : 0 < tq) (hpos : ∀ j ∈ jobs, 0 < j.bt) :
    (jobs.map (fun j => turns tq j.bt)).sum
      ≤ (ceilDiv (jobs.map (fun j => j.bt)).sum tq).toNat + jobs.length := by
  have key : (((jobs.map (fun j => turns tq j.bt)).sum : Nat) - (jobs.length : Int)) * tq
      ≤ (jobs.map (fun j => j.bt)).sum - jobs.length := by
    induction jobs with
    | nil => simp
    | cons a t ih =>
      have iht := ih (fun j hj => hpos j (List.mem_cons_of_mem _ hj))
      have ha : 0 < a.bt := hpos a (List.mem_cons_self _ _)
      have hx : 0 ≤ (a.bt - 1) / tq := Int.ediv_nonneg (by omega) (le_of_lt hq)
      have hxq := Int.ediv_mul_le (a.bt - 1) (ne_of_gt hq)
      have hturns : ((turns tq a.bt : Nat) : Int) = (a.bt - 1) / tq + 1 := by
        unfold turns
        omega
      simp only [List.map_cons, List.sum_cons, List.length_cons, Nat.cast_add, Nat.cast_one,
        hturns]
      nlinarith
  have h1 : ((jobs.map (fun j => turns tq j.bt)).sum : Nat) - (jobs.length : Int)
      ≤ (jobs.map (fun j => j.bt)).sum / tq :=
    Int.le_ediv_of_mul_le hq (by omega)
  have h2 : (jobs.map (fun j => j.bt)).sum / tq ≤ ceilDiv (jobs.map (fun j => j.bt)).sum tq :=
    Int.ediv_le_ediv hq (by omega)
  omega

/-! ## Round Robin: the clock dominates the work done -/

/-- With a positive quantum and non-negative bursts these hold throughout the
loop: no remaining burst is negative, the clock is at least the work done on any
single job, and no recorded waiting time is negative. -/
theorem rrBody_clock (jobs : List Job) (tq : Int) (hq : 0 < tq) (s : RRState) (i : Nat)
    (rest : List Nat) (hi : i < jobs.length)
    (hinv : s.rem_bt.length = jobs.length ∧ s.wt.length = jobs.length ∧
      ∀ j, j < jobs.length → 0 ≤ s.rem_bt.getD j 0 ∧
        (jobs.getD j default).bt - s.rem_bt.getD j 0 ≤ s.time ∧ 0 ≤ s.wt.getD j 0) :
    (rrBody jobs tq s i rest).rem_bt.length = jobs.length ∧
    (rrBody jobs tq s i rest).wt.length = jobs.length ∧
    ∀ j, j < jobs.length → 0 ≤ (rrBody jobs tq s i rest).rem_bt.getD j 0 ∧
      (jobs.getD j default).bt - (rrBody jobs tq s i rest).rem_bt.getD j 0
        ≤ (rrBody jobs tq s i rest).time ∧
      0 ≤ (rrBody jobs tq s i rest).wt.getD j 0 := by
  obtain ⟨hr, hw, hall⟩ := hinv
  have hii := hall i hi
  unfold rrBody
  split
  · rename_i hgt
    refine ⟨by simpa using hr, hw, ?_⟩
    intro j hj
    have hjj := hall j hj
    simp only
    by_cases hji : i = j
    · subst hji
      rw [getD_set_eq _ _ _ _ (by omega)]
      omega
    · rw [getD_set_ne _ _ _ _ _ hji]
      omega
  · rename_i hle
    refine ⟨by simpa using hr, by simpa using hw, ?_⟩
    intro j hj
    have hjj := hall j hj
    simp only
    by_cases hji : i = j
    · subst hji
      rw [getD_set_eq _ _ _ _ (by omega), getD_set_eq _ _ _ _ (by omega)]
      omega
    · rw [getD_set_ne _ _ _ _ _ hji, getD_set_ne _ _ _ _ _ hji]
      omega

/-- With a positive quantum and non-negative bursts no waiting time recorded by
a finished loop is negative. -/
theorem rrLoop_wt_nonneg (jobs : List Job) (tq : Int) (hq : 0 < tq)
    (hpos : ∀ j ∈ jobs, 0 ≤ j.bt) (fuel : Nat) (s' : RRState)
    (h : rrLoop jobs tq fuel (rrInit jobs) = some s') :
    ∀ j, j < jobs.length → 0 ≤ s'.wt.getD j 0 := by
  have := (rrLoop_invariant jobs tq
    (fun s => (s.q.Nodup ∧ ∀ j ∈ s.q, j < s.rem_bt.length) ∧
      s.rem_bt.length = jobs.length ∧ s.wt.length = jobs.length ∧
      ∀ j, j < jobs.length → 0 ≤ s.rem_bt.getD j 0 ∧
        (jobs.getD j default).bt - s.rem_bt.getD j 0 ≤ s.time ∧ 0 ≤ s.wt.getD j 0)
    (fun s i rest hs hinv =>
      ⟨rrBody_queue jobs tq s i rest hs hinv.1.1 hinv.1.2,
       rrBody_clock jobs tq hq s i rest
        (by have := hinv.1.2 i (by rw [hs]; simp); omega) hinv.2⟩)
    fuel (rrInit jobs) s'
    ⟨⟨by simp [rrInit, List.nodup_range], by simp [rrInit]⟩, by simp [rrInit], by simp [rrInit],
      fun j hj => by
        simp only [rrInit]
        rw [getD_map_bt, getD_replicate_zero]
        have := hpos _ (getD_mem_of_lt jobs j hj)
        omega⟩ h).1
  exact fun j hj => (this.2.2.2 j hj).2.2

/-! ## The Round Robin loop step by step -/

theorem rrRun_nil (jobs : List Job) (tq : Int) (k : Nat) (s : RRState) (h : s.q = []) :
    rrRun jobs tq k s = s := by
  cases k with
  | zero => rfl
  | succ k => unfold rrRun; simp only [h]

theorem rrRun_succ_cons (jobs : List Job) (tq : Int) (k : Nat) (s : RRState) (i : Nat)
    (rest : List Nat) (h : s.q = i :: rest) :
    rrRun jobs tq (k + 1) s = rrRun jobs tq k (rrBody jobs tq s i rest) := by
  conv_lhs => unfold rrRun
  simp only [h]

theorem rrRun_add (jobs : List Job) (tq : Int) (a b : Nat) (s : RRState) :
    rrRun jobs tq (a + b) s = rrRun jobs tq b (rrRun jobs tq a s) := by
  induction a generalizing s with
  | zero => rw [Nat.zero_add]; rfl
  | succ a ih =>
    cases hs : s.q with
    | nil => rw [rrRun_nil _ _ _ _ hs, rrRun_nil _ _ _ _ hs, rrRun_nil _ _ _ _ hs]
    | cons i rest =>
      rw [show a + 1 + b = (a + b) + 1 by omega, rrRun_succ_cons _ _ _ _ _ _ hs,
        rrRun_succ_cons _ _ _ _ _ _ hs, ih]

/-- One more pass: the body is applied to the state reached, if its queue is
not empty. -/
theorem rrRun_succ_of_cons (jobs : List Job) (tq : Int) (k : Nat) (s : RRState) (i : Nat)
    (rest : List Nat) (h : (rrRun jobs tq k s).q = i :: rest) :
    rrRun jobs tq (k + 1) s = rrBody jobs tq (rrRun jobs tq k s) i rest := by
  rw [rrRun_add, rrRun_succ_cons _ _ _ _ _ _ h]
  rfl

theorem rrRun_succ_of_nil (jobs : List Job) (tq : Int) (k : Nat) (s : RRState)
    (h : (rrRun jobs tq k s).q = []) : rrRun jobs tq (k + 1) s = rrRun jobs tq k s := by
  rw [rrRun_add, rrRun_nil _ _ _ _ h]

/-- Once the queue is empty nothing changes any more. -/
theorem rrRun_stable (jobs : List Job) (tq : Int) (a b : Nat) (s : RRState) (hab : a ≤ b)
    (h : (rrRun jobs tq a s).q = []) : rrRun jobs tq b s = rrRun jobs tq a s := by
  rw [show b = a + (b - a) by omega, rrRun_add, rrRun_nil _ _ _ _ h]

/-- The loop returns with fuel `k` exactly when the queue is empty after `k`
passes, and it returns the state reached then. -/
theorem rrLoop_eq_some_iff (jobs : List Job) (tq : Int) (k : Nat) (s s' : RRState) :
    rrLoop jobs tq k s = some s' ↔ (rrRun jobs tq k s).q = [] ∧ s' = rrRun jobs tq k s := by
  induction k generalizing s with
  | zero =>
    cases hs : s.q with
    | nil =>
      rw [rrLoop_nil _ _ _ _ hs]
      simp only [rrRun, hs, true_and, Option.some.injEq]
      exact eq_comm
    | cons i rest =>
      rw [rrLoop_zero_cons _ _ _ _ _ hs]
      simp [rrRun, hs]
  | succ k ih =>
    cases hs : s.q with
    | nil =>
      rw [rrLoop_nil _ _ _ _ hs, rrRun_nil _ _ _ _ hs]
      simp only [hs, true_and, Option.some.injEq]
      exact eq_comm
    | cons i rest =>
      rw [rrLoop_succ_cons _ _ _ _ _ _ hs, rrRun_succ_cons _ _ _ _ _ _ hs]
      exact ih _

/-- A property kept by every pass through the loop body holds after any number
of passes. -/
theorem rrRun_invariant (jobs : List Job) (tq : Int) (Inv : RRState → Prop)
    (hstep : ∀ s i rest, s.q = i :: rest → Inv s → Inv (rrBody jobs tq s i rest))
    (k : Nat) (s : RRState) (hs : Inv s) : Inv (rrRun jobs tq k s) := by
  induction k generalizing s with
  | zero => exact hs
  | succ k ih =>
    cases hq : s.q with
    | nil => rw [rrRun_nil _ _ _ _ hq]; exact hs
    | cons i rest =>
      rw [rrRun_succ_cons _ _ _ _ _ _ hq]
      exact ih _ (hstep s i rest hq hs)

/-- Throughout a run the queue has no repetition and holds indices of jobs, and
`rem_bt` and `wt` keep their size `n`. -/
theorem rrRun_wellFormed (jobs : List Job) (tq : Int) (k : Nat) :
    ((rrRun jobs tq k (rrInit jobs)).q.Nodup ∧
      ∀ j ∈ (rrRun jobs tq k (rrInit jobs)).q, j < (rrRun jobs tq k (rrInit jobs)).rem_bt.length) ∧
    (rrRun jobs tq k (rrInit jobs)).rem_bt.length = jobs.length ∧
    (rrRun jobs tq k (rrInit jobs)).wt.length = jobs.length :=
  rrRun_invariant jobs tq
    (fun s => (s.q.Nodup ∧ ∀ j ∈ s.q, j < s.rem_bt.length) ∧
      s.rem_bt.length = jobs.length ∧ s.wt.length = jobs.length)
    (fun s i rest hs hinv =>
      ⟨rrBody_queue jobs tq s i rest hs hinv.1.1 hinv.1.2,
       (rrBody_lengths jobs tq s i rest).2.trans hinv.2.1,
       (rrBody_lengths jobs tq s i rest).1.trans hinv.2.2⟩)
    k (rrInit jobs)
    ⟨⟨by simp [rrInit, List.nodup_range], by simp [rrInit]⟩, by simp [rrInit], by simp [rrInit]⟩

/-- What `RoundRobin` returns, in terms of the run. -/
theorem RoundRobin_eq_some_iff (fuel : Nat) (jobs : List Job) (tq : Int) (o : Output) :
    RoundRobin fuel jobs tq = some o ↔
      (rrRun jobs tq fuel (rrInit jobs)).q = [] ∧
      o = { jobs := jobs
            wt := (rrRun jobs tq fuel (rrInit jobs)).wt
            tat := turnaroundLoop jobs (rrRun jobs tq fuel (rrInit jobs)).wt jobs.length } := by
  unfold RoundRobin
  cases hl : rrLoop jobs tq fuel (rrInit jobs) with
  | none =>
    simp only [false_iff, not_and, reduceCtorEq]
    intro hq
    have := (rrLoop_eq_some_iff jobs tq fuel (rrInit jobs) _).2 ⟨hq, rfl⟩
    rw [hl] at this
    cases this
  | some s =>
    obtain ⟨hq, rfl⟩ := (rrLoop_eq_some_iff jobs tq fuel (rrInit jobs) s).1 hl
    simp only [Option.some.injEq, hq, true_and]
    exact eq_comm

/-! ## A single job -/

/-- With one job in the queue, `r > 0` of its burst left and the clock at
`bt - r`, the clock after `k` more passes is `min (time + k * tq) bt`, and the
waiting time is `0` at loop exit. -/
theorem rrRun_single (j : Job) (tq : Int) (hq : 0 < tq) (k : Nat) (r t : Int) (hr : 0 < r)
    (ht : t + r = j.bt) :
    (rrRun [j] tq k ⟨[0], [r], [0], t⟩).time = min (t + k * tq) j.bt ∧
    ((rrRun [j] tq k ⟨[0], [r], [0], t⟩).q = [] → (rrRun [j] tq k ⟨[0], [r], [0], t⟩).wt = [0]) := by
  induction k generalizing r t with
  | zero =>
    refine ⟨?_, ?_⟩
    · show t = min (t + ((0 : Nat) : Int) * tq) j.bt
      rw [min_eq_left (by push_cast; omega)]
      push_cast
      ring
    · intro h
      cases h
  | succ k ih =>
    rw [rrRun_succ_cons [j] tq k ⟨[0], [r], [0], t⟩ 0 [] rfl]
    have hk : 0 ≤ (k : Int) * tq := mul_nonneg (Int.ofNat_nonneg k) (le_of_lt hq)
    by_cases hgt : r > tq
    · have hbody : rrBody [j] tq ⟨[0], [r], [0], t⟩ 0 [] = ⟨[0], [r - tq], [0], t + tq⟩ := by
        unfold rrBody
        simp only [List.getD_cons_zero]
        rw [if_pos hgt]
        rfl
      rw [hbody]
      have := ih (r - tq) (t + tq) (by omega) (by omega)
      rw [show t + ((k + 1 : Nat) : Int) * tq = t + tq + (k : Int) * tq by push_cast; ring]
      exact this
    · have hbody : rrBody [j] tq ⟨[0], [r], [0], t⟩ 0 [] = ⟨[], [0], [0], j.bt⟩ := by
        unfold rrBody
        simp only [List.getD_cons_zero]
        rw [if_neg hgt]
        simp only [List.set_cons_zero, RRState.mk.injEq, List.cons.injEq, and_true, true_and]
        constructor
        · show t + r - j.bt = 0
          omega
        · exact ht
      rw [hbody, rrRun_nil _ _ _ _ rfl]
      refine ⟨?_, fun _ => rfl⟩
      show j.bt = min (t + ((k + 1 : Nat) : Int) * tq) j.bt
      rw [min_eq_right (by push_cast; nlinarith)]

/-- A single job of burst `b > 0` under a quantum `q > 0`: waiting time `0`,
turnaround time `b`, clock `min (k * q) b` after `k` passes. -/
theorem exact_single_job (j : Job) (tq : Int) (hb : 0 < j.bt) (hq : 0 < tq) :
    RoundRobin (turns tq j.bt) [j] tq = some ⟨[j], [0], [j.bt]⟩ ∧
    (∀ fuel o, RoundRobin fuel [j] tq = some o → o = ⟨[j], [0], [j.bt]⟩) ∧
    (∀ k, (rrRun [j] tq k (rrInit [j])).time = min (k * tq) j.bt) := by
  have hinit : rrInit [j] = ⟨[0], [j.bt], [0], 0⟩ := rfl
  have hall : ∀ fuel o, RoundRobin fuel [j] tq = some o → o = ⟨[j], [0], [j.bt]⟩ := by
    intro fuel o ho
    obtain ⟨hq', rfl⟩ := (RoundRobin_eq_some_iff fuel [j] tq o).1 ho
    rw [hinit] at hq' ⊢
    have hw := (rrRun_single j tq hq fuel j.bt 0 hb (by omega)).2 hq'
    rw [hw]
    simp [turnaroundLoop, List.range_succ]
  refine ⟨?_, hall, ?_⟩
  · have := (RoundRobin_isSome_iff [j] tq hq (turns tq j.bt)).2 (by simp)
    obtain ⟨o, ho⟩ := Option.isSome_iff_exists.1 this
    rw [ho, hall _ o ho]
  · intro k
    rw [hinit, (rrRun_single j tq hq k j.bt 0 hb (by omega)).1, zero_add]

/-! ## The clock never goes back -/

/-- With positive bursts every queued job has a positive remaining burst. -/
theorem rrRun_queue_positive (jobs : List Job) (tq : Int)
    (hpos : ∀ j ∈ jobs, 0 < j.bt) (k : Nat) :
    ∀ j ∈ (rrRun jobs tq k (rrInit jobs)).q,
      0 < (rrRun jobs tq k (rrInit jobs)).rem_bt.getD j 0 :=
  (rrRun_invariant jobs tq
    (fun s => (s.q.Nodup ∧ ∀ j ∈ s.q, j < s.rem_bt.length) ∧ ∀ j ∈ s.q, 0 < s.rem_bt.getD j 0)
    (fun s i rest hs hinv => by
      refine ⟨rrBody_queue jobs tq s i rest hs hinv.1.1 hinv.1.2, ?_⟩
      obtain ⟨⟨hnd, hb⟩, hp⟩ := hinv
      rw [hs] at hnd hb hp
      have hi := hb i (List.mem_cons_self _ _)
      have hnot : i ∉ rest := (List.nodup_cons.1 hnd).1
      unfold rrBody
      split
      · rename_i hgt
        intro j hj
        simp only [List.mem_append, List.mem_singleton] at hj
        simp only
        rcases hj with hj | hj
        · rw [getD_set_ne _ _ _ _ _ (by rintro rfl; exact hnot hj)]
          exact hp j (List.mem_cons_of_mem _ hj)
        · subst hj
          rw [getD_set_eq _ _ _ _ hi]
          omega
      · intro j hj
        simp only at hj ⊢
        rw [getD_set_ne _ _ _ _ _ (by rintro rfl; exact hnot hj)]
        exact hp j (List.mem_cons_of_mem _ hj))
    k (rrInit jobs)
    ⟨⟨by simp [rrInit, List.nodup_range], by simp [rrInit]⟩, by
      intro j hj
      simp only [rrInit, List.mem_range] at hj ⊢
      rw [getD_map_bt]
      exact hpos _ (getD_mem_of_lt jobs j hj)⟩).2

/-- With a quantum `> 0` and positive bursts every dequeue advances the clock by
a positive amount that is at most the quantum. -/
theorem exact_clock_monotone (jobs : List Job) (tq : Int) (hq : 0 < tq)
    (hpos : ∀ j ∈ jobs, 0 < j.bt) :
    (rrInit jobs).time = 0 ∧
    ∀ k, (rrRun jobs tq k (rrInit jobs)).time ≤ (rrRun jobs tq (k + 1) (rrInit jobs)).time ∧
      ((rrRun jobs tq k (rrInit jobs)).q ≠ [] →
        0 < (rrRun jobs tq (k + 1) (rrInit jobs)).time - (rrRun jobs tq k (rrInit jobs)).time ∧
        (rrRun jobs tq (k + 1) (rrInit jobs)).time - (rrRun jobs tq k (rrInit jobs)).time ≤ tq) ∧
      ((rrRun jobs tq k (rrInit jobs)).q = [] →
        (rrRun jobs tq (k + 1) (rrInit jobs)).time = (rrRun jobs tq k (rrInit jobs)).time) := by
  refine ⟨rfl, ?_⟩
  intro k
  cases hk : (rrRun jobs tq k (rrInit jobs)).q with
  | nil =>
    rw [rrRun_succ_of_nil _ _ _ _ hk]
    exact ⟨le_refl _, fun h => absurd rfl h, fun _ => rfl⟩
  | cons i rest =>
    have hp := rrRun_queue_positive jobs tq hpos k i (by rw [hk]; exact List.mem_cons_self _ _)
    rw [rrRun_succ_of_cons _ _ _ _ _ _ hk]
    have hstep : 0 < (rrBody jobs tq (rrRun jobs tq k (rrInit jobs)) i rest).time
          - (rrRun jobs tq k (rrInit jobs)).time ∧
        (rrBody jobs tq (rrRun jobs tq k (rrInit jobs)) i rest).time
          - (rrRun jobs tq k (rrInit jobs)).time ≤ tq := by
      unfold rrBody
      split
      · simp only
        omega
      · simp only
        omega
    exact ⟨by omega, fun _ => hstep, fun h => by cases h⟩

/-! ## The cost of an order -/

theorem burstBefore_cons_succ (a : Job) (t : List Job) (i : Nat) :
    burstBefore (a :: t) (i + 1) = a.bt + burstBefore t i := by
  simp [burstBefore]

/-- The waiting times computed by the waiting-time loop add up to the
`waitingCost` of the bursts in that order. -/
theorem sum_waitingLoop (l : List Job) :
    (waitingLoop l l.length).sum = waitingCost (l.map (fun j => j.bt)) := by
  rw [waitingLoop_eq]
  induction l with
  | nil => rfl
  | cons a t ih =>
    rw [List.length_cons, List.range_succ_eq_map, List.map_cons, List.sum_cons, burstBefore_zero,
      zero_add, List.map_map]
    have : (List.map (burstBefore (a :: t) ∘ Nat.succ) (List.range t.length))
        = List.map (fun i => a.bt + burstBefore t i) (List.range t.length) := by
      apply List.map_congr_left
      intro i _
      exact burstBefore_cons_succ a t i
    rw [this, List.sum_map_add, ih]
    simp [waitingCost, mul_comm]

theorem waitingCost_cons (b : Int) (t : List Int) :
    waitingCost (b :: t) = b * t.length + waitingCost t := rfl

/-- Moving a smallest burst to the front does not raise the cost. -/
theorem waitingCost_move_front (a : Int) (l1 l2 : List Int) (h : ∀ x ∈ l1, a ≤ x) :
    waitingCost (a :: (l1 ++ l2)) ≤ waitingCost (l1 ++ a :: l2) := by
  induction l1 with
  | nil => exact le_refl _
  | cons x t ih =>
    have iht := ih (fun y hy => h y (List.mem_cons_of_mem _ hy))
    have hx := h x (List.mem_cons_self _ _)
    rw [waitingCost_cons] at iht
    simp only [List.cons_append, waitingCost_cons, List.length_append, List.length_cons,
      Nat.cast_add, Nat.cast_one] at iht ⊢
    nlinarith

/-- Among all arrangements of the same bursts the ascending one has the least
cost. -/
theorem waitingCost_sorted_le (l p : List Int) (hs : l.Pairwise (fun a b => a ≤ b))
    (hp : p.Perm l) : waitingCost l ≤ waitingCost p := by
  induction l generalizing p with
  | nil => rw [hp.eq_nil]
  | cons a t ih =>
    rw [List.pairwise_cons] at hs
    have ha : a ∈ p := hp.symm.subset (List.mem_cons_self _ _)
    obtain ⟨l1, l2, rfl⟩ := List.append_of_mem ha
    have hperm : (l1 ++ l2).Perm t := (List.perm_middle.symm.trans hp).cons_inv
    have hmin : ∀ x ∈ l1, a ≤ x := by
      intro x hx
      have : x ∈ t := hperm.subset (List.mem_append_left _ hx)
      exact hs.1 x this
    refine le_trans ?_ (waitingCost_move_front a l1 l2 hmin)
    have := ih (l1 ++ l2) hs.2 hperm
    rw [waitingCost_cons, waitingCost_cons, hperm.length_eq]
    omega

/-! ## Round Robin round by round -/

theorem getD_map_range (n : Nat) (f : Nat → Int) (j : Nat) (hj : j < n) :
    ((List.range n).map f).getD j 0 = f j := by
  simp [List.getD_eq_getElem?_getD, List.getElem?_range hj]

/-- Writing entry `p` of a vector given entry by entry. -/
theorem set_map_range (n p : Nat) (f g : Nat → Int) (v : Int) (hp : p < n) (hv : g p = v)
    (h : ∀ j, j ≠ p → g j = f j) : ((List.range n).map f).set p v = (List.range n).map g := by
  apply eq_map_range_of_getD _ n g (by simp)
  intro j hj
  by_cases hjp : p = j
  · subst hjp
    rw [getD_set_eq _ _ _ _ (by simpa using hp), hv]
  · rw [getD_set_ne _ _ _ _ _ hjp, getD_map_range n f j hj, h j (Ne.symm hjp)]

/-- Changing one summand changes the sum by the difference. -/
theorem sum_map_range_update (n p : Nat) (f g : Nat → Int) (hp : p < n)
    (h : ∀ j, j ≠ p → g j = f j) :
    ((List.range n).map g).sum = ((List.range n).map f).sum + (g p - f p) := by
  induction n with
  | zero => omega
  | succ n ih =>
    rw [List.range_succ, List.map_append, List.map_append, List.sum_append, List.sum_append]
    simp only [List.map_cons, List.map_nil, List.sum_cons, List.sum_nil, add_zero]
    by_cases hpn : p = n
    · subst hpn
      have : (List.range p).map g = (List.range p).map f := by
        apply List.map_congr_left
        intro j hj
        exact h j (by have := List.mem_range.1 hj; omega)
      rw [this]
      ring
    · rw [ih (by omega), h n (Ne.symm hpn)]
      ring

/-- A sum over `0 .. n-1` split at `i`. -/
theorem sum_map_range_split (n i : Nat) (g : Nat → Int) (hi : i < n) :
    ((List.range n).map g).sum
      = ((List.range i).map g).sum + g i + ((List.range' (i + 1) (n - (i + 1))).map g).sum := by
  have h : List.range n = List.range i ++ i :: List.range' (i + 1) (n - (i + 1)) := by
    have h1 := List.range'_append_1 0 i (n - (i + 1) + 1)
    rw [Nat.zero_add] at h1
    rw [List.range_eq_range', List.range_eq_range', ← List.range'_succ, h1]
    congr 1
    omega
  rw [h]
  simp [add_assoc]

theorem ceilDiv_eq_succ (b q : Int) (r : Nat) (hq : 0 < q) (h1 : (r : Int) * q < b)
    (h2 : b ≤ (r : Int) * q + q) : ceilDiv b q = (r : Int) + 1 := by
  unfold ceilDiv
  apply le_antisymm
  · have : (b + q - 1) / q < (r : Int) + 1 + 1 :=
      Int.ediv_lt_of_lt_mul hq (by nlinarith)
    omega
  · exact Int.le_ediv_of_mul_le hq (by nlinarith)

theorem range'_from (n p : Nat) (hp : p < n) :
    List.range' p (n - p) = p :: List.range' (p + 1) (n - (p + 1)) := by
  rw [show n - p = (n - (p + 1)) + 1 by omega, List.range'_succ]

/-- A job that finished in an earlier round is passed over: nothing changes
when its turn comes. -/
theorem roundState_skip (jobs : List Job) (tq : Int) (hq : 0 < tq) (r p : Nat)
    (hp : p < jobs.length) (hd : (jobs.getD p default).bt ≤ (r : Int) * tq) :
    roundState jobs tq r (p + 1) = roundState jobs tq r p := by
  unfold roundState
  rw [RRState.mk.injEq]
  refine ⟨?_, ?_, ?_, ?_⟩
  · rw [range'_from _ _ hp, List.range_succ, List.filter_append,
      List.filter_cons_of_neg (by simp only [decide_eq_true_eq]; omega),
      List.filter_cons_of_neg (by simp only [decide_eq_true_eq]; omega), List.filter_nil,
      List.append_nil]
  · apply List.map_congr_left
    intro j _
    have : j = p → (jobs.getD j default).bt ≤ (r : Int) * tq := fun h => h ▸ hd
    split_ifs <;> omega
  · apply List.map_congr_left
    intro j _
    have : j = p → (jobs.getD j default).bt ≤ (r : Int) * tq := fun h => h ▸ hd
    split_ifs <;> first | rfl | omega
  · congr 1
    apply List.map_congr_left
    intro j _
    have : j = p → (jobs.getD j default).bt ≤ (r : Int) * tq := fun h => h ▸ hd
    split_ifs <;> omega

/-- The head of the queue in `roundState r p` when job `p` is unfinished. -/
theorem roundState_queue (jobs : List Job) (tq : Int) (r p : Nat)
    (hp : p < jobs.length) (ha : (r : Int) * tq < (jobs.getD p default).bt) :
    (roundState jobs tq r p).q = p ::
      ((List.range' (p + 1) (jobs.length - (p + 1))).filter
          (fun j => decide ((r : Int) * tq < (jobs.getD j default).bt))
        ++ (List.range p).filter
          (fun j => decide ((r : Int) * tq + tq < (jobs.getD j default).bt))) := by
  unfold roundState
  simp only
  rw [range'_from _ _ hp, List.filter_cons_of_pos (by simpa using ha), List.cons_append]

theorem roundState_rem (jobs : List Job) (tq : Int) (r p : Nat) (hp : p < jobs.length)
    (ha : (r : Int) * tq < (jobs.getD p default).bt) :
    (roundState jobs tq r p).rem_bt.getD p 0 = (jobs.getD p default).bt - (r : Int) * tq := by
  unfold roundState
  simp only
  rw [getD_map_range _ _ _ hp, if_neg (by omega)]
  omega

/-- Job `p` unfinished and not finishing in this round: it runs for a quantum
and goes to the back of the queue. -/
theorem roundState_requeue (jobs : List Job) (tq : Int) (hq : 0 < tq) (r p : Nat)
    (hp : p < jobs.length) (ha : (r : Int) * tq + tq < (jobs.getD p default).bt)
    (rest : List Nat) (hrest : (roundState jobs tq r p).q = p :: rest) :
    rrBody jobs tq (roundState jobs tq r p) p rest = roundState jobs tq r (p + 1) := by
  have hrem := roundState_rem jobs tq r p hp (by omega)
  have hqueue := roundState_queue jobs tq r p hp (by omega)
  rw [hqueue, List.cons.injEq] at hrest
  unfold rrBody
  rw [if_pos (by rw [hrem]; omega), hrem, ← hrest.2]
  unfold roundState
  rw [RRState.mk.injEq]
  refine ⟨?_, ?_, ?_, ?_⟩
  · rw [List.range_succ, List.filter_append,
      List.filter_cons_of_pos (by simpa using ha), List.filter_nil, List.append_assoc]
  · apply set_map_range _ _ _ _ _ hp
    · rw [if_pos (by omega)]
      omega
    · intro j hj
      split_ifs <;> first | rfl | omega
  · apply List.map_congr_left
    intro j _
    have : j = p → (r : Int) * tq + tq < (jobs.getD j default).bt := fun h => h ▸ ha
    split_ifs <;> first | rfl | omega
  · rw [sum_map_range_update jobs.length p
      (fun j => if j < p then min (jobs.getD j default).bt ((r : Int) * tq + tq)
        else min (jobs.getD j default).bt ((r : Int) * tq))
      (fun j => if j < p + 1 then min (jobs.getD j default).bt ((r : Int) * tq + tq)
        else min (jobs.getD j default).bt ((r : Int) * tq)) hp
      (by intro j hj; beta_reduce; split_ifs <;> first | rfl | omega)]
    simp only [if_pos (show p < p + 1 by omega), if_neg (show ¬ p < p by omega)]
    omega

/-- When job `p` finishes in round `r + 1`, the clock just before its last turn
is its closed-form waiting time plus the `r * tq` it has run itself. -/
theorem roundState_time (jobs : List Job) (tq : Int) (hq : 0 < tq) (r p : Nat)
    (hp : p < jobs.length) (ha1 : (r : Int) * tq < (jobs.getD p default).bt)
    (ha2 : (jobs.getD p default).bt ≤ (r : Int) * tq + tq) :
    (roundState jobs tq r p).time = rrClosedForm jobs tq p + (r : Int) * tq := by
  have hc := ceilDiv_eq_succ _ tq r hq ha1 ha2
  have e1 : ((r : Int) + 1) * tq = (r : Int) * tq + tq := by ring
  have e2 : ((r : Int) + 1 - 1) * tq = (r : Int) * tq := by ring
  unfold roundState rrClosedForm
  simp only
  rw [sum_map_range_split jobs.length p _ hp, hc, e1, e2]
  have h1 : (List.range p).map (fun j =>
        if j < p then min (jobs.getD j default).bt ((r : Int) * tq + tq)
        else min (jobs.getD j default).bt ((r : Int) * tq))
      = (List.range p).map (fun j => min (jobs.getD j default).bt ((r : Int) * tq + tq)) := by
    apply List.map_congr_left
    intro j hj
    rw [if_pos (List.mem_range.1 hj)]
  have h2 : (List.range' (p + 1) (jobs.length - (p + 1))).map (fun j =>
        if j < p then min (jobs.getD j default).bt ((r : Int) * tq + tq)
        else min (jobs.getD j default).bt ((r : Int) * tq))
      = (List.range' (p + 1) (jobs.length - (p + 1))).map
          (fun j => min (jobs.getD j default).bt ((r : Int) * tq)) := by
    apply List.map_congr_left
    intro j hj
    rw [if_neg (by have := (List.mem_range'_1.1 hj).1; omega)]
  rw [h1, h2, if_neg (by omega : ¬ p < p)]
  omega

/-- Job `p` unfinished and finishing in this round: it runs for what is left of
its burst, leaves the queue, and gets its closed-form waiting time. -/
theorem roundState_complete (jobs : List Job) (tq : Int) (hq : 0 < tq) (r p : Nat)
    (hp : p < jobs.length) (ha1 : (r : Int) * tq < (jobs.getD p default).bt)
    (ha2 : (jobs.getD p default).bt ≤ (r : Int) * tq + tq)
    (rest : List Nat) (hrest : (roundState jobs tq r p).q = p :: rest) :
    rrBody jobs tq (roundState jobs tq r p) p rest = roundState jobs tq r (p + 1) := by
  have hrem := roundState_rem jobs tq r p hp ha1
  have hqueue := roundState_queue jobs tq r p hp ha1
  have htime := roundState_time jobs tq hq r p hp ha1 ha2
  rw [hqueue, List.cons.injEq] at hrest
  unfold rrBody
  rw [if_neg (by rw [hrem]; omega), hrem, htime, ← hrest.2]
  unfold roundState
  rw [RRState.mk.injEq]
  refine ⟨?_, ?_, ?_, ?_⟩
  · rw [List.range_succ, List.filter_append,
      List.filter_cons_of_neg (by simp only [decide_eq_true_eq]; omega), List.filter_nil,
      List.append_nil]
  · apply set_map_range _ _ _ _ _ hp
    · rw [if_pos (by omega)]
      omega
    · intro j hj
      split_ifs <;> first | rfl | omega
  · apply set_map_range _ _ _ _ _ hp
    · rw [if_pos (by omega), if_pos ha2]
      omega
    · intro j hj
      split_ifs <;> first | rfl | omega
  · have := sum_map_range_update jobs.length p
      (fun j => if j < p then min (jobs.getD j default).bt ((r : Int) * tq + tq)
        else min (jobs.getD j default).bt ((r : Int) * tq))
      (fun j => if j < p + 1 then min (jobs.getD j default).bt ((r : Int) * tq + tq)
        else min (jobs.getD j default).bt ((r : Int) * tq)) hp
      (by intro j hj; beta_reduce; split_ifs <;> first | rfl | omega)
    simp only [if_pos (show p < p + 1 by omega), if_neg (show ¬ p < p by omega)] at this
    rw [this]
    have ht : (roundState jobs tq r p).time
        = ((List.range jobs.length).map (fun j =>
            if j < p then min (jobs.getD j default).bt ((r : Int) * tq + tq)
            else min (jobs.getD j default).bt ((r : Int) * tq))).sum := rfl
    rw [← ht, htime]
    omega

/-- After the last job of a round comes the first job of the next round. -/
theorem roundState_wrap (jobs : List Job) (tq : Int) (r : Nat) :
    roundState jobs tq r jobs.length = roundState jobs tq (r + 1) 0 := by
  have e : (((r + 1 : Nat) : Int)) * tq = (r : Int) * tq + tq := by push_cast; ring
  unfold roundState
  rw [RRState.mk.injEq, e]
  refine ⟨?_, ?_, ?_, ?_⟩
  · simp [List.range_eq_range']
  · apply List.map_congr_left
    intro j hj
    have := List.mem_range.1 hj
    split_ifs <;> first | rfl | omega
  · apply List.map_congr_left
    intro j hj
    have := List.mem_range.1 hj
    split_ifs <;> first | rfl | omega
  · congr 1
    apply List.map_congr_left
    intro j hj
    have := List.mem_range.1 hj
    split_ifs <;> first | rfl | omega

/-- With positive bursts the loop starts in round 1 at job 0. -/
theorem roundState_init (jobs : List Job) (tq : Int) (hpos : ∀ j ∈ jobs, 0 < j.bt) :
    rrInit jobs = roundState jobs tq 0 0 := by
  have hb : ∀ j, j < jobs.length → 0 < (jobs.getD j default).bt :=
    fun j hj => hpos _ (getD_mem_of_lt jobs j hj)
  unfold roundState rrInit
  rw [RRState.mk.injEq]
  refine ⟨?_, ?_, ?_, ?_⟩
  · simp only [Nat.cast_zero, zero_mul, Nat.sub_zero, List.range_zero, List.filter_nil,
      List.append_nil]
    rw [List.range_eq_range', List.filter_eq_self.2]
    intro j hj
    have := (List.mem_range'_1.1 hj).2
    simpa using hb j (by omega)
  · apply eq_map_range_of_getD _ _ _ (by simp)
    intro j hj
    rw [getD_map_bt, if_neg (by omega)]
    have := hb j hj
    simp only [Nat.cast_zero, zero_mul]
    omega
  · apply eq_map_range_of_getD _ _ _ (by simp)
    intro j hj
    rw [getD_replicate_zero, if_neg (by omega), if_neg]
    have := hb j hj
    simp only [Nat.cast_zero, zero_mul]
    omega
  · symm
    apply List.sum_eq_zero
    intro x hx
    obtain ⟨j, hj, rfl⟩ := List.mem_map.1 hx
    have := hb j (List.mem_range.1 hj)
    rw [if_neg (by omega)]
    simp only [Nat.cast_zero, zero_mul]
    omega

/-- Every `roundState` is a state the loop passes through. -/
theorem roundState_reached (jobs : List Job) (tq : Int) (hq : 0 < tq)
    (hpos : ∀ j ∈ jobs, 0 < j.bt) (r p : Nat) (hp : p ≤ jobs.length) :
    ∃ k, rrRun jobs tq k (rrInit jobs) = roundState jobs tq r p := by
  induction r generalizing p with
  | zero =>
    induction p with
    | zero => exact ⟨0, roundState_init jobs tq hpos⟩
    | succ p ih =>
      obtain ⟨k, hk⟩ := ih (by omega)
      by_cases ha : ((0 : Nat) : Int) * tq < (jobs.getD p default).bt
      · have hqueue := roundState_queue jobs tq 0 p (by omega) ha
        refine ⟨k + 1, ?_⟩
        rw [rrRun_succ_of_cons jobs tq k _ p _ (by rw [hk]; exact hqueue), hk]
        by_cases ha2 : ((0 : Nat) : Int) * tq + tq < (jobs.getD p default).bt
        · exact roundState_requeue jobs tq hq 0 p (by omega) ha2 _ hqueue
        · exact roundState_complete jobs tq hq 0 p (by omega) ha (by omega) _ hqueue
      · exact ⟨k, by rw [hk, roundState_skip jobs tq hq 0 p (by omega) (by omega)]⟩
  | succ r ihr =>
    induction p with
    | zero =>
      obtain ⟨k, hk⟩ := ihr jobs.length (le_refl _)
      exact ⟨k, by rw [hk, roundState_wrap]⟩
    | succ p ih =>
      obtain ⟨k, hk⟩ := ih (by omega)
      by_cases ha : ((r + 1 : Nat) : Int) * tq < (jobs.getD p default).bt
      · have hqueue := roundState_queue jobs tq (r + 1) p (by omega) ha
        refine ⟨k + 1, ?_⟩
        rw [rrRun_succ_of_cons jobs tq k _ p _ (by rw [hk]; exact hqueue), hk]
        by_cases ha2 : ((r + 1 : Nat) : Int) * tq + tq < (jobs.getD p default).bt
        · exact roundState_requeue jobs tq hq (r + 1) p (by omega) ha2 _ hqueue
        · exact roundState_complete jobs tq hq (r + 1) p (by omega) ha (by omega) _ hqueue
      · exact ⟨k, by rw [hk, roundState_skip jobs tq hq (r + 1) p (by omega) (by omega)]⟩

theorem map_bt_eq_range (jobs : List Job) :
    jobs.map (fun j => j.bt) = (List.range jobs.length).map (fun j => (jobs.getD j default).bt) :=
  eq_map_range_of_getD _ _ _ (by simp) (fun j _ => getD_map_bt jobs j)

/-- Two states in which the loop has ended are the same state. -/
theorem rrRun_exit_unique (jobs : List Job) (tq : Int) (a b : Nat) (s : RRState)
    (ha : (rrRun jobs tq a s).q = []) (hb : (rrRun jobs tq b s).q = []) :
    rrRun jobs tq a s = rrRun jobs tq b s := by
  rcases Nat.le_total a b with h | h
  · exact (rrRun_stable jobs tq a b s h ha).symm
  · exact rrRun_stable jobs tq b a s h hb

/-- With positive bursts and a positive quantum the loop ends in the state in
which every job has its closed-form waiting time, every remaining burst is `0`
and the clock is the sum of the bursts. -/
theorem rrRun_exit_state (jobs : List Job) (tq : Int) (hq : 0 < tq)
    (hpos : ∀ j ∈ jobs, 0 < j.bt) :
    ∃ k, (rrRun jobs tq k (rrInit jobs)).q = [] ∧
      (rrRun jobs tq k (rrInit jobs)).wt = (List.range jobs.length).map (rrClosedForm jobs tq) ∧
      (rrRun jobs tq k (rrInit jobs)).rem_bt = (List.range jobs.length).map (fun _ => 0) ∧
      (rrRun jobs tq k (rrInit jobs)).time = (jobs.map (fun j => j.bt)).sum := by
  have hsum : 0 ≤ (jobs.map (fun j => j.bt)).sum :=
    List.sum_nonneg (fun x hx => by
      obtain ⟨j, hj, rfl⟩ := List.mem_map.1 hx
      exact le_of_lt (hpos j hj))
  have hb : ∃ R : Nat, ∀ i, i < jobs.length → (jobs.getD i default).bt ≤ (R : Int) * tq := by
    refine ⟨Int.toNat (jobs.map (fun x : Job => x.bt)).sum, ?_⟩
    intro i hi
    have h1 : (jobs.getD i default).bt ≤ (jobs.map (fun x : Job => x.bt)).sum :=
      List.single_le_sum (fun x hx => by
        obtain ⟨j, hj, rfl⟩ := List.mem_map.1 hx
        exact le_of_lt (hpos j hj)) _ (List.mem_map.2 ⟨_, getD_mem_of_lt jobs i hi, rfl⟩)
    rw [Int.toNat_of_nonneg hsum]
    nlinarith
  obtain ⟨R, hb⟩ := hb
  obtain ⟨k, hk⟩ := roundState_reached jobs tq hq hpos R 0 (Nat.zero_le _)
  refine ⟨k, ?_⟩
  rw [hk]
  unfold roundState
  refine ⟨?_, ?_, ?_, ?_⟩
  · simp only [Nat.sub_zero, List.range_zero, List.filter_nil, List.append_nil]
    rw [List.filter_eq_nil_iff]
    intro j hj
    have := hb j (by have := (List.mem_range'_1.1 hj).2; omega)
    simp only [decide_eq_true_eq]
    omega
  · apply List.map_congr_left
    intro j hj
    rw [if_neg (by omega), if_pos (hb j (List.mem_range.1 hj))]
  · apply List.map_congr_left
    intro j hj
    have := hb j (List.mem_range.1 hj)
    rw [if_neg (by omega)]
    omega
  · simp only
    rw [map_bt_eq_range]
    congr 1
    apply List.map_congr_left
    intro j hj
    have := hb j (List.mem_range.1 hj)
    rw [if_neg (by omega)]
    omega

/-- With positive bursts and a positive quantum every table `RoundRobin` returns
holds the closed-form waiting times. -/
theorem RoundRobin_wt_closed (jobs : List Job) (tq : Int) (hq : 0 < tq)
    (hpos : ∀ j ∈ jobs, 0 < j.bt) (fuel : Nat) (o : Output)
    (h : RoundRobin fuel jobs tq = some o) :
    o.wt = (List.range jobs.length).map (rrClosedForm jobs tq) := by
  obtain ⟨hq', rfl⟩ := (RoundRobin_eq_some_iff fuel jobs tq o).1 h
  obtain ⟨k, hk, hw, -, -⟩ := rrRun_exit_state jobs tq hq hpos
  simp only
  rw [rrRun_exit_unique jobs tq fuel k _ hq' hk, hw]

/-! ## Completion times according to the closed form -/

/-- Burst plus closed-form waiting time of job `i` is the sum over all jobs of
the time they have run when job `i` completes. -/
theorem burst_add_closedForm (jobs : List Job) (tq : Int) (i : Nat) (hi : i < jobs.length) :
    (jobs.getD i default).bt + rrClosedForm jobs tq i
      = ((List.range jobs.length).map (rrShare jobs tq i)).sum := by
  rw [sum_map_range_split jobs.length i _ hi]
  unfold rrClosedForm
  have h1 : (List.range i).map (rrShare jobs tq i)
      = (List.range i).map (fun j =>
          min (jobs.getD j default).bt (ceilDiv (jobs.getD i default).bt tq * tq)) := by
    apply List.map_congr_left
    intro j hj
    unfold rrShare
    rw [if_pos (List.mem_range.1 hj)]
  have h2 : (List.range' (i + 1) (jobs.length - (i + 1))).map (rrShare jobs tq i)
      = (List.range' (i + 1) (jobs.length - (i + 1))).map (fun j =>
          min (jobs.getD j default).bt ((ceilDiv (jobs.getD i default).bt tq - 1) * tq)) := by
    apply List.map_congr_left
    intro j hj
    have := (List.mem_range'_1.1 hj).1
    unfold rrShare
    rw [if_neg (by omega), if_neg (by omega)]
  have h3 : rrShare jobs tq i i = (jobs.getD i default).bt := by
    unfold rrShare
    rw [if_neg (by omega), if_pos rfl]
  rw [h1, h2, h3]
  ring

/-- A sum grows when every summand grows weakly and one of them strictly. -/
theorem sum_map_lt (l : List Nat) (f g : Nat → Int) (hle : ∀ k ∈ l, f k ≤ g k) (j : Nat)
    (hj : j ∈ l) (hlt : f j < g j) : (l.map f).sum < (l.map g).sum := by
  induction l with
  | nil => cases hj
  | cons a t ih =>
    simp only [List.map_cons, List.sum_cons]
    have ha := hle a (List.mem_cons_self _ _)
    have ht : (t.map f).sum ≤ (t.map g).sum :=
      List.sum_le_sum (fun k hk => hle k (List.mem_cons_of_mem _ hk))
    rcases List.mem_cons.1 hj with h | h
    · subst h
      omega
    · have := ih (fun k hk => hle k (List.mem_cons_of_mem _ hk)) h
      omega

/-- The turnaround time `RoundRobin` reports for job `i`, by the closed form. -/
theorem RoundRobin_tat_closed (jobs : List Job) (tq : Int) (hq : 0 < tq)
    (hpos : ∀ j ∈ jobs, 0 < j.bt) (fuel : Nat) (o : Output)
    (h : RoundRobin fuel jobs tq = some o) (i : Nat) (hi : i < jobs.length) :
    o.tat.getD i 0 = ((List.range jobs.length).map (rrShare jobs tq i)).sum := by
  have hw := RoundRobin_wt_closed jobs tq hq hpos fuel o h
  obtain ⟨s, -, hj, -, ht⟩ := RoundRobin_some fuel jobs tq o h
  obtain ⟨-, rfl⟩ := (RoundRobin_eq_some_iff fuel jobs tq o).1 h
  simp only at hw ⊢
  rw [turnaroundLoop_getD _ _ _ _ hi, hw, getD_map_range _ _ _ hi, burst_add_closedForm _ _ _ hi]

/-! ## No idle gaps -/

/-- In exact arithmetic the loop ends with every remaining burst `0` and the
clock at the sum of the bursts; every turnaround time is at most that sum and the
job dequeued in the last pass has exactly that sum. -/
theorem exact_no_idle_gaps (jobs : List Job) (tq : Int) (hq : 0 < tq)
    (hpos : ∀ j ∈ jobs, 0 < j.bt) (hne : jobs ≠ []) :
    ∃ K, 0 < K ∧ (∀ fuel, (RoundRobin fuel jobs tq).isSome ↔ K ≤ fuel) ∧
      (∀ fuel, K ≤ fuel →
        (rrRun jobs tq fuel (rrInit jobs)).q = [] ∧
        (∀ j, j < jobs.length → (rrRun jobs tq fuel (rrInit jobs)).rem_bt.getD j 0 = 0) ∧
        (rrRun jobs tq fuel (rrInit jobs)).time = (jobs.map (fun j => j.bt)).sum) ∧
      (∀ fuel o, RoundRobin fuel jobs tq = some o →
        (∀ i, i < jobs.length → o.tat.getD i 0 ≤ (jobs.map (fun j => j.bt)).sum) ∧
        ∃ i, (rrRun jobs tq (K - 1) (rrInit jobs)).q = [i] ∧ i < jobs.length ∧
          o.tat.getD i 0 = (jobs.map (fun j => j.bt)).sum) := by
  have hiff := RoundRobin_isSome_iff jobs tq hq
  have hK : 0 < (jobs.map (fun j => turns tq j.bt)).sum := by
    cases jobs with
    | nil => exact absurd rfl hne
    | cons a t =>
      simp only [List.map_cons, List.sum_cons, turns]
      omega
  obtain ⟨k, hkq, hkw, hkr, hkt⟩ := rrRun_exit_state jobs tq hq hpos
  have hexit : ∀ fuel, (jobs.map (fun j => turns tq j.bt)).sum ≤ fuel →
      rrRun jobs tq fuel (rrInit jobs) = rrRun jobs tq k (rrInit jobs) := by
    intro fuel hf
    obtain ⟨o, ho⟩ := Option.isSome_iff_exists.1 ((hiff fuel).2 hf)
    exact rrRun_exit_unique jobs tq fuel k _ ((RoundRobin_eq_some_iff fuel jobs tq o).1 ho).1 hkq
  refine ⟨_, hK, hiff, ?_, ?_⟩
  · intro fuel hf
    rw [hexit fuel hf]
    refine ⟨hkq, ?_, hkt⟩
    intro j hj
    rw [hkr, getD_map_range _ _ _ hj]
  · intro fuel o ho
    refine ⟨?_, ?_⟩
    · intro i hi
      rw [RoundRobin_tat_closed jobs tq hq hpos fuel o ho i hi, map_bt_eq_range]
      apply List.sum_le_sum
      intro j _
      unfold rrShare
      split_ifs with h1 h2
      · exact min_le_left _ _
      · rw [h2]
      · exact min_le_left _ _
    · -- the last pass
      have hfuel : (jobs.map (fun j => turns tq j.bt)).sum ≤ fuel :=
        (hiff fuel).1 (by rw [ho]; rfl)
      obtain ⟨hqf, rfl⟩ := (RoundRobin_eq_some_iff fuel jobs tq o).1 ho
      have hwf := rrRun_wellFormed jobs tq ((jobs.map (fun j => turns tq j.bt)).sum - 1)
      have hlast : (rrRun jobs tq ((jobs.map (fun j => turns tq j.bt)).sum - 1 + 1)
          (rrInit jobs)).q = [] := by
        rw [show (jobs.map (fun j => turns tq j.bt)).sum - 1 + 1
          = (jobs.map (fun j => turns tq j.bt)).sum by omega]
        exact (by rw [hexit _ (le_refl _)]; exact hkq)
      cases hprev : (rrRun jobs tq ((jobs.map (fun j => turns tq j.bt)).sum - 1)
          (rrInit jobs)).q with
      | nil =>
        exfalso
        have hsome : (RoundRobin ((jobs.map (fun j => turns tq j.bt)).sum - 1) jobs tq).isSome := by
          rw [(RoundRobin_eq_some_iff _ jobs tq _).2 ⟨hprev, rfl⟩]
          rfl
        have := (hiff _).1 hsome
        omega
      | cons i rest =>
        have hi : i < jobs.length := by
          have := hwf.1.2 i (by rw [hprev]; exact List.mem_cons_self _ _)
          omega
        rw [rrRun_succ_of_cons _ _ _ _ _ _ hprev] at hlast
        have hstep := rrRun_succ_of_cons jobs tq _ (rrInit jobs) i rest hprev
        have hex : rrRun jobs tq fuel (rrInit jobs)
            = rrBody jobs tq (rrRun jobs tq ((jobs.map (fun j => turns tq j.bt)).sum - 1)
                (rrInit jobs)) i rest := by
          rw [← hstep]
          exact rrRun_exit_unique jobs tq _ _ _ hqf (by rw [hstep]; exact hlast)
        have htime : (rrRun jobs tq fuel (rrInit jobs)).time = (jobs.map (fun j => j.bt)).sum := by
          rw [hexit fuel hfuel]
          exact hkt
        unfold rrBody at hlast hex
        split at hlast
        · simp at hlast
        · rename_i hle
          rw [if_neg hle] at hex
          simp only at hlast
          subst hlast
          refine ⟨i, rfl, hi, ?_⟩
          simp only
          rw [turnaroundLoop_getD _ _ _ _ hi, ← htime, hex]
          simp only
          rw [getD_set_eq _ _ _ _ (by omega)]
          ring

/-! ## No overtaking -/

theorem ceilDiv_mono (a b q : Int) (hq : 0 < q) (h : a ≤ b) : ceilDiv a q ≤ ceilDiv b q :=
  Int.ediv_le_ediv hq (by omega)

/-- In exact arithmetic an earlier job with a burst not larger completes strictly
before a later one. -/
theorem exact_no_overtaking (jobs : List Job) (tq : Int) (hq : 0 < tq)
    (hpos : ∀ j ∈ jobs, 0 < j.bt) (i j : Nat) (hij : i < j) (hj : j < jobs.length)
    (hb : (jobs.getD i default).bt ≤ (jobs.getD j default).bt) :
    (∃ fuel o, RoundRobin fuel jobs tq = some o) ∧
    ∀ fuel o, RoundRobin fuel jobs tq = some o → o.tat.getD i 0 < o.tat.getD j 0 := by
  constructor
  · have := (RoundRobin_isSome_iff jobs tq hq _).2 (le_refl _)
    obtain ⟨o, ho⟩ := Option.isSome_iff_exists.1 this
    exact ⟨_, o, ho⟩
  · intro fuel o ho
    rw [RoundRobin_tat_closed jobs tq hq hpos fuel o ho i (by omega),
      RoundRobin_tat_closed jobs tq hq hpos fuel o ho j hj]
    have hci := ceilDiv_spec (jobs.getD i default).bt tq hq
    have hcj := ceilDiv_spec (jobs.getD j default).bt tq hq
    have hmono := ceilDiv_mono _ _ tq hq hb
    have e1 : (ceilDiv (jobs.getD i default).bt tq - 1) * tq
        = ceilDiv (jobs.getD i default).bt tq * tq - tq := by ring
    have e2 : (ceilDiv (jobs.getD j default).bt tq - 1) * tq
        = ceilDiv (jobs.getD j default).bt tq * tq - tq := by ring
    have hle : ceilDiv (jobs.getD i default).bt tq * tq
        ≤ ceilDiv (jobs.getD j default).bt tq * tq := by nlinarith
    rw [e1] at hci
    rw [e2] at hcj
    apply sum_map_lt _ _ _ _ j (List.mem_range.2 hj)
    · unfold rrShare
      rw [e1, e2, if_neg (by omega), if_neg (by omega), if_neg (by omega), if_pos rfl]
      omega
    · intro k _
      unfold rrShare
      rw [e1, e2]
      by_cases h1 : k < i
      · rw [if_pos h1, if_pos (by omega)]
        omega
      · by_cases h2 : k = i
        · subst h2
          rw [if_neg h1, if_pos rfl, if_pos hij]
          omega
        · rw [if_neg h1, if_neg h2]
          by_cases h3 : k < j
          · rw [if_pos h3]
            omega
          · by_cases h4 : k = j
            · subst h4
              rw [if_neg h3, if_pos rfl]
              omega
            · rw [if_neg h3, if_neg h4]
              omega

end Exact

/-! # The program -/

/-! ## Arithmetic of `int` -/

theorem wrap32_of_range (x : Int) (h1 : -2147483648 ≤ x) (h2 : x ≤ 2147483647) :
    wrap32 x = x := by
  unfold wrap32
  omega

theorem wrap32_add_left (a b : Int) : wrap32 (wrap32 a + b) = wrap32 (a + b) := by
  unfold wrap32
  omega

theorem wrap32_add_right (a b : Int) : wrap32 (a + wrap32 b) = wrap32 (a + b) := by
  unfold wrap32
  omega

theorem wrap32_sub_left (a b : Int) : wrap32 (wrap32 a - b) = wrap32 (a - b) := by
  unfold wrap32
  omega

theorem wrap32_sub_right (a b : Int) : wrap32 (a - wrap32 b) = wrap32 (a - b) := by
  unfold wrap32
  omega

theorem CInt.eq_of_val (a b : CInt) (h : a.val = b.val) : a = b := by
  cases a
  cases b
  simp only at h
  subst h
  rfl

theorem CInt.val_ofInt (x : Int) : (CInt.ofInt x).val = wrap32 x := rfl

theorem CInt.val_ofInt_of_range (x : Int) (h1 : -2147483648 ≤ x) (h2 : x ≤ 2147483647) :
    (CInt.ofInt x).val = x :=
  wrap32_of_range x h1 h2

theorem CInt.ofInt_val (a : CInt) : CInt.ofInt a.val = a :=
  CInt.eq_of_val _ _ (wrap32_of_range a.val a.lo a.hi)

theorem CInt.val_zero : (0 : CInt).val = 0 := rfl

theorem CInt.ofInt_zero : CInt.ofInt 0 = 0 := rfl

theorem CInt.val_add (a b : CInt) : (a + b).val = wrap32 (a.val + b.val) := rfl

theorem CInt.val_sub (a b : CInt) : (a - b).val = wrap32 (a.val - b.val) := rfl

theorem CInt.add_eq (a b : CInt) : a + b = CInt.ofInt (a.val + b.val) := rfl

theorem CInt.sub_eq (a b : CInt) : a - b = CInt.ofInt (a.val - b.val) := rfl

theorem CInt.ofInt_add (x : Int) (a : CInt) : CInt.ofInt x + a = CInt.ofInt (x + a.val) :=
  CInt.eq_of_val _ _ (wrap32_add_left x a.val)

theorem CInt.add_ofInt (a : CInt) (x : Int) : a + CInt.ofInt x = CInt.ofInt (a.val + x) :=
  CInt.eq_of_val _ _ (wrap32_add_right a.val x)

theorem CInt.ofInt_sub (x : Int) (a : CInt) : CInt.ofInt x - a = CInt.ofInt (x - a.val) :=
  CInt.eq_of_val _ _ (wrap32_sub_left x a.val)

theorem CInt.lt_iff (a b : CInt) : a < b ↔ a.val < b.val := Iff.rfl

/-! ## Vectors of `int` -/

theorem getD_replicate_zero32 (n i : Nat) : (List.replicate n (0 : CInt)).getD i 0 = 0 := by
  by_cases h : i < n <;> simp [List.getD_eq_getElem?_getD, List.getElem?_replicate, h]

/-- Two vectors of the same size with the same entries are the same vector. -/
theorem eq_of_getD {α : Type} (l1 l2 : List α) (d : α) (n : Nat) (h1 : l1.length = n)
    (h2 : l2.length = n) (h : ∀ i, i < n → l1.getD i d = l2.getD i d) : l1 = l2 := by
  apply List.ext_getElem (by omega)
  intro i hi1 hi2
  have := h i (by omega)
  simpa [List.getD_eq_getElem?_getD, List.getElem?_eq_getElem hi1,
    List.getElem?_eq_getElem hi2] using this

theorem getD_map_val (l : List CInt) (i : Nat) : (l.map CInt.val).getD i 0 = (l.getD i 0).val := by
  rw [← CInt.val_zero, List.getD_map]

theorem getD_map_ofInt (l : List Int) (i : Nat) :
    (l.map CInt.ofInt).getD i 0 = CInt.ofInt (l.getD i 0) := by
  rw [← CInt.ofInt_zero, List.getD_map]

theorem getD_toExact (jobs : List Job) (i : Nat) :
    (jobs.map toExact).getD i default = toExact (jobs.getD i default) := by
  rw [show (default : Exact.Job) = toExact default from rfl, List.getD_map]

theorem getD_toExact_bt (jobs : List Job) (i : Nat) :
    ((jobs.map toExact).getD i default).bt = (jobs.getD i default).bt.val := by
  rw [getD_toExact]
  rfl

theorem burstBefore_toExact (jobs : List Job) (i : Nat) :
    Exact.burstBefore (jobs.map toExact) i = burstBefore jobs i := by
  unfold Exact.burstBefore burstBefore
  rw [← List.map_take, List.map_map]
  rfl

theorem totalBurst_toExact (jobs : List Job) :
    ((jobs.map toExact).map (fun j => j.bt)).sum = totalBurst jobs := by
  unfold totalBurst
  rw [List.map_map]
  rfl

theorem burstBefore_zero32 (jobs : List Job) : burstBefore jobs 0 = 0 := by
  simp [burstBefore]

theorem burstBefore_succ32 (jobs : List Job) (i : Nat) :
    burstBefore jobs (i + 1) = burstBefore jobs i + (jobs.getD i default).bt.val := by
  rw [← burstBefore_toExact, ← burstBefore_toExact, Exact.burstBefore_succ, getD_toExact_bt]

theorem getD_mem_of_lt32 (jobs : List Job) (i : Nat) (h : i < jobs.length) :
    jobs.getD i default ∈ jobs := by
  rw [List.getD_eq_getElem _ _ h]
  exact List.getElem_mem h

/-- With bursts that are not negative the sum of the first `i` of them lies
between `0` and the sum of all. -/
theorem burstBefore_bounds (jobs : List Job) (h : ∀ j ∈ jobs, 0 ≤ j.bt.val) (i : Nat) :
    0 ≤ burstBefore jobs i ∧ burstBefore jobs i ≤ totalBurst jobs := by
  induction jobs generalizing i with
  | nil => simp [burstBefore, totalBurst]
  | cons a t ih =>
    have ha := h a (List.mem_cons_self _ _)
    have iht := ih (fun j hj => h j (List.mem_cons_of_mem _ hj))
    cases i with
    | zero =>
      have := (iht 0).1
      have := (iht 0).2
      simp only [burstBefore, totalBurst, List.take_zero, List.map_nil, List.sum_nil,
        List.map_cons, List.sum_cons] at *
      omega
    | succ k =>
      have := (iht k).1
      have := (iht k).2
      simp only [burstBefore, totalBurst, List.take_succ_cons, List.map_cons,
        List.sum_cons] at *
      omega

/-! ## The two loops over `wt` and `tat` -/

/-- State of `wt` after the iterations `i = 1 .. k` of the waiting-time loop:
entry `i` is the sum of the bursts before `i`, reduced modulo `2^32`. -/
theorem waitingLoop_upto32 (jobs : List Job) (n k : Nat) :
    ((List.range' 1 k).foldl
      (fun wt i => wt.set i (wt.getD (i - 1) 0 + (jobs.getD (i - 1) default).bt))
      (List.replicate n 0)).length = n ∧
    ∀ i, i < n → i ≤ k → ((List.range' 1 k).foldl
      (fun wt i => wt.set i (wt.getD (i - 1) 0 + (jobs.getD (i - 1) default).bt))
      (List.replicate n 0)).getD i 0 = CInt.ofInt (burstBefore jobs i) := by
  induction k with
  | zero =>
    simp only [List.range'_zero, List.foldl_nil, List.length_replicate, true_and]
    intro i hi hk
    have : i = 0 := by omega
    subst this
    rw [getD_replicate_zero32, burstBefore_zero32]
    rfl
  | succ k ih =>
    obtain ⟨hlen, hval⟩ := ih
    simp only [List.range'_1_concat, List.foldl_append, List.foldl_cons, List.foldl_nil]
    refine ⟨by simpa using hlen, ?_⟩
    intro i hi hk
    by_cases hik : 1 + k = i
    · subst hik
      rw [Exact.getD_set_eq _ _ _ _ (by omega), Nat.add_sub_cancel_left,
        hval k (by omega) (le_refl _), Nat.add_comm 1 k, burstBefore_succ32, CInt.ofInt_add]
    · rw [Exact.getD_set_ne _ _ _ _ _ hik]
      exact hval i hi (by omega)

theorem waitingLoop_length32 (jobs : List Job) (n : Nat) : (waitingLoop jobs n).length = n :=
  (waitingLoop_upto32 jobs n (n - 1)).1

theorem waitingLoop_getD32 (jobs : List Job) (n i : Nat) (h : i < n) :
    (waitingLoop jobs n).getD i 0 = CInt.ofInt (burstBefore jobs i) :=
  (waitingLoop_upto32 jobs n (n - 1)).2 i h (by omega)

/-- State of `tat` after the iterations `i = 0 .. k-1` of the turnaround loop. -/
theorem turnaroundLoop_upto32 (jobs : List Job) (wt : List CInt) (n k : Nat) :
    ((List.range k).foldl
      (fun tat i => tat.set i ((jobs.getD i default).bt + wt.getD i 0))
      (List.replicate n 0)).length = n ∧
    ∀ i, i < n → i < k → ((List.range k).foldl
      (fun tat i => tat.set i ((jobs.getD i default).bt + wt.getD i 0))
      (List.replicate n 0)).getD i 0 = (jobs.getD i default).bt + wt.getD i 0 := by
  induction k with
  | zero => simp
  | succ k ih =>
    obtain ⟨hlen, hval⟩ := ih
    simp only [List.range_succ, List.foldl_append, List.foldl_cons, List.foldl_nil]
    refine ⟨by simpa using hlen, ?_⟩
    intro i hi hk
    by_cases hik : k = i
    · subst hik
      rw [Exact.getD_set_eq _ _ _ _ (by omega)]
    · rw [Exact.getD_set_ne _ _ _ _ _ hik]
      exact hval i hi (by omega)

theorem turnaroundLoop_length32 (jobs : List Job) (wt : List CInt) (n : Nat) :
    (turnaroundLoop jobs wt n).length = n :=
  (turnaroundLoop_upto32 jobs wt n n).1

theorem turnaroundLoop_getD32 (jobs : List Job) (wt : List CInt) (n i : Nat) (h : i < n) :
    (turnaroundLoop jobs wt n).getD i 0 = (jobs.getD i default).bt + wt.getD i 0 :=
  (turnaroundLoop_upto32 jobs wt n n).2 i h h

/-- Every line of the printed table is the line of some index `i < jobs.size()`. -/
theorem mem_printResultTable (jobs : List Job) (wt tat : List CInt) (row : Row)
    (h : row ∈ printResultTable jobs wt tat) :
    ∃ i, i < jobs.length ∧ row.bt = (jobs.getD i default).bt ∧
      row.wt = wt.getD i 0 ∧ row.tat = tat.getD i 0 := by
  simp only [printResultTable, List.mem_map, List.mem_range] at h
  obtain ⟨i, hi, rfl⟩ := h
  exact ⟨i, hi, rfl, rfl, rfl⟩

theorem printResultTable_length (jobs : List Job) (wt tat : List CInt) :
    (printResultTable jobs wt tat).length = jobs.length := by
  simp [printResultTable]

theorem printResultTable_getElem? (jobs : List Job) (wt tat : List CInt) (i : Nat)
    (hi : i < jobs.length) :
    (printResultTable jobs wt tat)[i]? =
      some ⟨(jobs.getD i default).pname, (jobs.getD i default).bt, wt.getD i 0, tat.getD i 0⟩ := by
  unfold printResultTable
  rw [List.getElem?_map, List.getElem?_range hi]
  rfl

/-! ## Facts about the Round Robin loop -/

theorem rrLoop_nil32 (jobs : List Job) (tq : CInt) (fuel : Nat) (s : RRState) (h : s.q = []) :
    rrLoop jobs tq fuel s = some s := by
  unfold rrLoop
  simp only [h]

theorem rrLoop_zero_cons32 (jobs : List Job) (tq : CInt) (s : RRState) (i : Nat) (rest : List Nat)
    (h : s.q = i :: rest) : rrLoop jobs tq 0 s = none := by
  unfold rrLoop
  simp only [h]

theorem rrLoop_succ_cons32 (jobs : List Job) (tq : CInt) (fuel : Nat) (s : RRState) (i : Nat)
    (rest : List Nat) (h : s.q = i :: rest) :
    rrLoop jobs tq (fuel + 1) s = rrLoop jobs tq fuel (rrBody jobs tq s i rest) := by
  conv_lhs => unfold rrLoop
  simp only [h]

/-- A property kept by every pass through the loop body holds at loop exit,
where the queue is empty. -/
theorem rrLoop_invariant32 (jobs : List Job) (tq : CInt) (Inv : RRState → Prop)
    (hstep : ∀ s i rest, s.q = i :: rest → Inv s → Inv (rrBody jobs tq s i rest))
    (fuel : Nat) (s s' : RRState) (hs : Inv s) (h : rrLoop jobs tq fuel s = some s') :
    Inv s' ∧ s'.q = [] := by
  induction fuel generalizing s with
  | zero =>
    cases hq : s.q with
    | nil =>
      rw [rrLoop_nil32 _ _ _ _ hq] at h
      cases h
      exact ⟨hs, hq⟩
    | cons i rest => rw [rrLoop_zero_cons32 _ _ _ _ _ hq] at h; cases h
  | succ fuel ih =>
    cases hq : s.q with
    | nil =>
      rw [rrLoop_nil32 _ _ _ _ hq] at h
      cases h
      exact ⟨hs, hq⟩
    | cons i rest =>
      rw [rrLoop_succ_cons32 _ _ _ _ _ _ hq] at h
      exact ih _ (hstep s i rest hq hs) h

/-- More fuel does not change the outcome of a loop that finished. -/
theorem rrLoop_mono32 (jobs : List Job) (tq : CInt) (fuel k : Nat) (s s' : RRState)
    (h : rrLoop jobs tq fuel s = some s') : rrLoop jobs tq (fuel + k) s = some s' := by
  induction fuel generalizing s with
  | zero =>
    cases hq : s.q with
    | nil =>
      rw [rrLoop_nil32 _ _ _ _ hq] at h ⊢
      exact h
    | cons i rest => rw [rrLoop_zero_cons32 _ _ _ _ _ hq] at h; cases h
  | succ fuel ih =>
    cases hq : s.q with
    | nil =>
      rw [rrLoop_nil32 _ _ _ _ hq] at h ⊢
      exact h
    | cons i rest =>
      rw [rrLoop_succ_cons32 _ _ _ _ _ _ hq] at h
      rw [show fuel + 1 + k = (fuel + k) + 1 by omega, rrLoop_succ_cons32 _ _ _ _ _ _ hq]
      exact ih _ h

/-- The loop body never changes the size of `wt` or `rem_bt`. -/
theorem rrBody_lengths32 (jobs : List Job) (tq : CInt) (s : RRState) (i : Nat) (rest : List Nat) :
    (rrBody jobs tq s i rest).wt.length = s.wt.length ∧
    (rrBody jobs tq s i rest).rem_bt.length = s.rem_bt.length := by
  unfold rrBody
  split <;> simp

theorem rrLoop_wt_length32 (jobs : List Job) (tq : CInt) (fuel : Nat) (s s' : RRState)
    (h : rrLoop jobs tq fuel s = some s') : s'.wt.length = s.wt.length :=
  (rrLoop_invariant32 jobs tq (fun t => t.wt.length = s.wt.length)
    (fun t i rest _ ht => (rrBody_lengths32 jobs tq t i rest).1.trans ht)
    fuel s s' rfl h).1

/-- What `RoundRobin` returns when its loop finishes. -/
theorem RoundRobin_some32 (fuel : Nat) (jobs : List Job) (tq : CInt) (o : Output)
    (h : RoundRobin fuel jobs tq = some o) :
    ∃ s, rrLoop jobs tq fuel (rrInit jobs) = some s ∧ o.jobs = jobs ∧ o.wt = s.wt ∧
      o.tat = turnaroundLoop jobs s.wt jobs.length := by
  unfold RoundRobin at h
  cases hl : rrLoop jobs tq fuel (rrInit jobs) with
  | none => rw [hl] at h; cases h
  | some s =>
    rw [hl] at h
    simp only [Option.some.injEq] at h
    subst h
    exact ⟨s, rfl, rfl, rfl, rfl⟩

/-- The loop body keeps the queue free of repetitions and within the vectors. -/
theorem rrBody_queue32 (jobs : List Job) (tq : CInt) (s : RRState) (i : Nat) (rest : List Nat)
    (hs : s.q = i :: rest) (hnd : s.q.Nodup) (hb : ∀ j ∈ s.q, j < s.rem_bt.length) :
    (rrBody jobs tq s i rest).q.Nodup ∧
    ∀ j ∈ (rrBody jobs tq s i rest).q, j < (rrBody jobs tq s i rest).rem_bt.length := by
  rw [hs] at hnd hb
  rw [List.nodup_cons] at hnd
  unfold rrBody
  split
  · refine ⟨?_, ?_⟩
    · simp only
      rw [List.nodup_append]
      refine ⟨hnd.2, List.nodup_singleton i, ?_⟩
      intro a ha hai
      rw [List.mem_singleton] at hai
      subst hai
      exact hnd.1 ha
    · intro j hj
      simp only [List.mem_append, List.mem_singleton, List.length_set] at hj ⊢
      rcases hj with hj | hj
      · exact hb j (List.mem_cons_of_mem _ hj)
      · subst hj
        exact hb j (List.mem_cons_self _ _)
  · refine ⟨hnd.2, ?_⟩
    intro j hj
    simp only [List.length_set] at hj ⊢
    exact hb j (List.mem_cons_of_mem _ hj)

/-- Two finished runs of `RoundRobin` on the same input agree, whatever the fuel. -/
theorem RoundRobin_deterministic32 (jobs : List Job) (tq : CInt) (f1 f2 : Nat) (o1 o2 : Output)
    (h1 : RoundRobin f1 jobs tq = some o1) (h2 : RoundRobin f2 jobs tq = some o2) : o1 = o2 := by
  obtain ⟨s1, hl1, hj1, hw1, ht1⟩ := RoundRobin_some32 f1 jobs tq o1 h1
  obtain ⟨s2, hl2, hj2, hw2, ht2⟩ := RoundRobin_some32 f2 jobs tq o2 h2
  have e1 := rrLoop_mono32 jobs tq f1 f2 _ _ hl1
  have e2 := rrLoop_mono32 jobs tq f2 f1 _ _ hl2
  rw [Nat.add_comm f2 f1, e1] at e2
  simp only [Option.some.injEq] at e2
  subst e2
  cases o1
  cases o2
  simp only at hj1 hw1 ht1 hj2 hw2 ht2
  rw [hj1, hw1, ht1, hj2, hw2, ht2]

theorem rrRun_nil32 (jobs : List Job) (tq : CInt) (k : Nat) (s : RRState) (h : s.q = []) :
    rrRun jobs tq k s = s := by
  cases k with
  | zero => rfl
  | succ k => unfold rrRun; simp only [h]

theorem rrRun_succ_cons32 (jobs : List Job) (tq : CInt) (k : Nat) (s : RRState) (i : Nat)
    (rest : List Nat) (h : s.q = i :: rest) :
    rrRun jobs tq (k + 1) s = rrRun jobs tq k (rrBody jobs tq s i rest) := by
  conv_lhs => unfold rrRun
  simp only [h]

theorem rrRun_add32 (jobs : List Job) (tq : CInt) (a b : Nat) (s : RRState) :
    rrRun jobs tq (a + b) s = rrRun jobs tq b (rrRun jobs tq a s) := by
  induction a generalizing s with
  | zero => rw [Nat.zero_add]; rfl
  | succ a ih =>
    cases hs : s.q with
    | nil => rw [rrRun_nil32 _ _ _ _ hs, rrRun_nil32 _ _ _ _ hs, rrRun_nil32 _ _ _ _ hs]
    | cons i rest =>
      rw [show a + 1 + b = (a + b) + 1 by omega, rrRun_succ_cons32 _ _ _ _ _ _ hs,
        rrRun_succ_cons32 _ _ _ _ _ _ hs, ih]

/-- One more pass: the body is applied to the state reached, if its queue is
not empty. -/
theorem rrRun_succ_of_cons32 (jobs : List Job) (tq : CInt) (k : Nat) (s : RRState) (i : Nat)
    (rest : List Nat) (h : (rrRun jobs tq k s).q = i :: rest) :
    rrRun jobs tq (k + 1) s = rrBody jobs tq (rrRun jobs tq k s) i rest := by
  rw [rrRun_add32, rrRun_succ_cons32 _ _ _ _ _ _ h]
  rfl

theorem rrRun_succ_of_nil32 (jobs : List Job) (tq : CInt) (k : Nat) (s : RRState)
    (h : (rrRun jobs tq k s).q = []) : rrRun jobs tq (k + 1) s = rrRun jobs tq k s := by
  rw [rrRun_add32, rrRun_nil32 _ _ _ _ h]

/-- Once the queue is empty nothing changes any more. -/
theorem rrRun_stable32 (jobs : List Job) (tq : CInt) (a b : Nat) (s : RRState) (hab : a ≤ b)
    (h : (rrRun jobs tq a s).q = []) : rrRun jobs tq b s = rrRun jobs tq a s := by
  rw [show b = a + (b - a) by omega, rrRun_add32, rrRun_nil32 _ _ _ _ h]

/-- The loop returns with fuel `k` exactly when the queue is empty after `k`
passes, and it returns the state reached then. -/
theorem rrLoop_eq_some_iff32 (jobs : List Job) (tq : CInt) (k : Nat) (s s' : RRState) :
    rrLoop jobs tq k s = some s' ↔ (rrRun jobs tq k s).q = [] ∧ s' = rrRun jobs tq k s := by
  induction k generalizing s with
  | zero =>
    cases hs : s.q with
    | nil =>
      rw [rrLoop_nil32 _ _ _ _ hs]
      simp only [rrRun, hs, true_and, Option.some.injEq]
      exact eq_comm
    | cons i rest =>
      rw [rrLoop_zero_cons32 _ _ _ _ _ hs]
      simp [rrRun, hs]
  | succ k ih =>
    cases hs : s.q with
    | nil =>
      rw [rrLoop_nil32 _ _ _ _ hs, rrRun_nil32 _ _ _ _ hs]
      simp only [hs, true_and, Option.some.injEq]
      exact eq_comm
    | cons i rest =>
      rw [rrLoop_succ_cons32 _ _ _ _ _ _ hs, rrRun_succ_cons32 _ _ _ _ _ _ hs]
      exact ih _

/-- A property kept by every pass through the loop body holds after any number
of passes. -/
theorem rrRun_invariant32 (jobs : List Job) (tq : CInt) (Inv : RRState → Prop)
    (hstep : ∀ s i rest, s.q = i :: rest → Inv s → Inv (rrBody jobs tq s i rest))
    (k : Nat) (s : RRState) (hs : Inv s) : Inv (rrRun jobs tq k s) := by
  induction k generalizing s with
  | zero => exact hs
  | succ k ih =>
    cases hq : s.q with
    | nil => rw [rrRun_nil32 _ _ _ _ hq]; exact hs
    | cons i rest =>
      rw [rrRun_succ_cons32 _ _ _ _ _ _ hq]
      exact ih _ (hstep s i rest hq hs)

/-- Throughout a run the queue has no repetition and holds indices of jobs, and
`rem_bt` and `wt` keep their size `n`. -/
theorem rrRun_wellFormed32 (jobs : List Job) (tq : CInt) (k : Nat) :
    ((rrRun jobs tq k (rrInit jobs)).q.Nodup ∧
      ∀ j ∈ (rrRun jobs tq k (rrInit jobs)).q, j < (rrRun jobs tq k (rrInit jobs)).rem_bt.length) ∧
    (rrRun jobs tq k (rrInit jobs)).rem_bt.length = jobs.length ∧
    (rrRun jobs tq k (rrInit jobs)).wt.length = jobs.length :=
  rrRun_invariant32 jobs tq
    (fun s => (s.q.Nodup ∧ ∀ j ∈ s.q, j < s.rem_bt.length) ∧
      s.rem_bt.length = jobs.length ∧ s.wt.length = jobs.length)
    (fun s i rest hs hinv =>
      ⟨rrBody_queue32 jobs tq s i rest hs hinv.1.1 hinv.1.2,
       (rrBody_lengths32 jobs tq s i rest).2.trans hinv.2.1,
       (rrBody_lengths32 jobs tq s i rest).1.trans hinv.2.2⟩)
    k (rrInit jobs)
    ⟨⟨by simp [rrInit, List.nodup_range], by simp [rrInit]⟩, by simp [rrInit], by simp [rrInit]⟩

/-- What `RoundRobin` returns, in terms of the run. -/
theorem RoundRobin_eq_some_iff32 (fuel : Nat) (jobs : List Job) (tq : CInt) (o : Output) :
    RoundRobin fuel jobs tq = some o ↔
      (rrRun jobs tq fuel (rrInit jobs)).q = [] ∧
      o = { jobs := jobs
            wt := (rrRun jobs tq fuel (rrInit jobs)).wt
            tat := turnaroundLoop jobs (rrRun jobs tq fuel (rrInit jobs)).wt jobs.length } := by
  unfold RoundRobin
  cases hl : rrLoop jobs tq fuel (rrInit jobs) with
  | none =>
    simp only [false_iff, not_and, reduceCtorEq]
    intro hq
    have := (rrLoop_eq_some_iff32 jobs tq fuel (rrInit jobs) _).2 ⟨hq, rfl⟩
    rw [hl] at this
    cases this
  | some s =>
    obtain ⟨hq, rfl⟩ := (rrLoop_eq_some_iff32 jobs tq fuel (rrInit jobs) s).1 hl
    simp only [Option.some.injEq, hq, true_and]
    exact eq_comm

/-- A waiting time recorded for a job that has left the queue is never
overwritten. -/
theorem rrRun_wt_frozen32 (jobs : List Job) (tq : CInt) (i : Nat) (v : CInt) (m : Nat) (s : RRState)
    (hi : i ∉ s.q) (hv : s.wt.getD i 0 = v) :
    (rrRun jobs tq m s).wt.getD i 0 = v :=
  (rrRun_invariant32 jobs tq (fun t => i ∉ t.q ∧ t.wt.getD i 0 = v)
    (fun t a rest ht hinv => by
      obtain ⟨hnq, hval⟩ := hinv
      rw [ht] at hnq
      have hai : a ≠ i := fun h => hnq (by rw [h]; exact List.mem_cons_self _ _)
      have hrest : i ∉ rest := fun h => hnq (List.mem_cons_of_mem _ h)
      unfold rrBody
      split
      · refine ⟨?_, hval⟩
        simp only [List.mem_append, List.mem_singleton, not_or]
        exact ⟨hrest, Ne.symm hai⟩
      · refine ⟨hrest, ?_⟩
        simp only
        rw [Exact.getD_set_ne _ _ _ _ _ hai]
        exact hval)
    m s ⟨hi, hv⟩).2
/-! ## The comparators are strict weak orderings -/

/-- Comparing an integer key with `<` is a strict weak ordering. -/
theorem strictWeakOrdering_of_key (key : Job → Int) :
    StrictWeakOrdering (fun a b => decide (key a < key b)) where
  irrefl := fun a => by simp
  trans := fun a b c h1 h2 => by
    simp only [decide_eq_true_eq] at h1 h2 ⊢
    omega
  incomp_trans := fun a b c h1 h2 h3 h4 => by
    simp only [decide_eq_false_iff_not, not_lt] at h1 h2 h3 h4 ⊢
    omega

theorem byArrival_swo : StrictWeakOrdering byArrival :=
  strictWeakOrdering_of_key (fun j => j.at_.val)

theorem byBurst_swo : StrictWeakOrdering byBurst :=
  strictWeakOrdering_of_key (fun j => j.bt.val)

theorem byPriority_swo : StrictWeakOrdering byPriority :=
  strictWeakOrdering_of_key (fun j => j.pr.val)

/-! ## Facts about the non-preemptive routines -/

theorem nonPreemptive_perm (S : StdSort) (comp : Job → Job → Bool) (jobs : List Job)
    (h : StrictWeakOrdering comp) : (nonPreemptive S comp jobs).jobs.Perm jobs :=
  S.perm comp jobs h

theorem nonPreemptive_length (S : StdSort) (comp : Job → Job → Bool) (jobs : List Job)
    (h : StrictWeakOrdering comp) : (nonPreemptive S comp jobs).jobs.length = jobs.length :=
  (S.perm comp jobs h).length_eq

theorem nonPreemptive_wt_loop (S : StdSort) (comp : Job → Job → Bool) (jobs : List Job)
    (h : StrictWeakOrdering comp) :
    (nonPreemptive S comp jobs).wt
      = waitingLoop (nonPreemptive S comp jobs).jobs (nonPreemptive S comp jobs).jobs.length := by
  rw [nonPreemptive_length S comp jobs h]
  rfl

theorem nonPreemptive_tat_loop (S : StdSort) (comp : Job → Job → Bool) (jobs : List Job)
    (h : StrictWeakOrdering comp) :
    (nonPreemptive S comp jobs).tat
      = turnaroundLoop (nonPreemptive S comp jobs).jobs (nonPreemptive S comp jobs).wt
          (nonPreemptive S comp jobs).jobs.length := by
  rw [nonPreemptive_length S comp jobs h]
  rfl

/-- The routines `FCFS`, `SJF`, `PriorityScheduling` are `nonPreemptive` at a
comparator that is a strict weak ordering. -/
theorem nonPreemptive_cases (S : StdSort) (jobs : List Job) (o : Output)
    (h : o = FCFS S jobs ∨ o = SJF S jobs ∨ o = PriorityScheduling S jobs) :
    ∃ comp, StrictWeakOrdering comp ∧ o = nonPreemptive S comp jobs := by
  rcases h with h | h | h
  · exact ⟨byArrival, byArrival_swo, h⟩
  · exact ⟨byBurst, byBurst_swo, h⟩
  · exact ⟨byPriority, byPriority_swo, h⟩

/-- What a non-preemptive routine returns once the sorted vector is known. -/
theorem nonPreemptive_of_jobs (S : StdSort) (comp : Job → Job → Bool) (jobs js : List Job)
    (h : StrictWeakOrdering comp) (hjs : (nonPreemptive S comp jobs).jobs = js) :
    nonPreemptive S comp jobs
      = ⟨js, waitingLoop js js.length, turnaroundLoop js (waitingLoop js js.length) js.length⟩ := by
  have hw := nonPreemptive_wt_loop S comp jobs h
  have ht := nonPreemptive_tat_loop S comp jobs h
  cases hs : nonPreemptive S comp jobs with
  | mk j w t =>
    rw [hs] at hjs hw ht
    simp only at hjs hw ht
    subst hjs
    rw [ht, hw]

/-- Shape of every output: one job, one waiting entry per input job, and `tat`
is what the turnaround loop makes of `jobs` and `wt`. -/
theorem output_shape (S : StdSort) (jobs : List Job) (o : Output)
    (h : o = FCFS S jobs ∨ o = SJF S jobs ∨ o = PriorityScheduling S jobs ∨
      ∃ fuel tq, RoundRobin fuel jobs tq = some o) :
    o.jobs.length = jobs.length ∧ o.wt.length = jobs.length ∧
      o.tat = turnaroundLoop o.jobs o.wt jobs.length := by
  by_cases hnp : o = FCFS S jobs ∨ o = SJF S jobs ∨ o = PriorityScheduling S jobs
  · obtain ⟨comp, hc, rfl⟩ := nonPreemptive_cases S jobs o hnp
    exact ⟨nonPreemptive_length S comp jobs hc, waitingLoop_length32 _ _, rfl⟩
  · have hrr : ∃ fuel tq, RoundRobin fuel jobs tq = some o := by tauto
    obtain ⟨fuel, tq, hrr⟩ := hrr
    obtain ⟨s, hl, hj, hw, ht⟩ := RoundRobin_some32 fuel jobs tq o hrr
    refine ⟨by rw [hj], ?_, by rw [ht, hj, hw]⟩
    rw [hw, rrLoop_wt_length32 jobs tq fuel _ s hl]
    simp [rrInit]

theorem output_tat_getD (S : StdSort) (jobs : List Job) (o : Output)
    (h : o = FCFS S jobs ∨ o = SJF S jobs ∨ o = PriorityScheduling S jobs ∨
      ∃ fuel tq, RoundRobin fuel jobs tq = some o) (i : Nat) (hi : i < jobs.length) :
    o.tat.getD i 0 = (o.jobs.getD i default).bt + o.wt.getD i 0 := by
  rw [(output_shape S jobs o h).2.2]
  exact turnaroundLoop_getD32 _ _ _ _ hi

theorem output_table_length (S : StdSort) (jobs : List Job) (o : Output)
    (h : o = FCFS S jobs ∨ o = SJF S jobs ∨ o = PriorityScheduling S jobs ∨
      ∃ fuel tq, RoundRobin fuel jobs tq = some o) : o.table.length = jobs.length := by
  rw [Output.table, printResultTable_length, (output_shape S jobs o h).1]

/-- Entry `i` of the waiting-time vector of a non-preemptive routine. -/
theorem nonPreemptive_wt_getD (S : StdSort) (comp : Job → Job → Bool) (jobs : List Job)
    (i : Nat) (hi : i < jobs.length) :
    (nonPreemptive S comp jobs).wt.getD i 0
      = CInt.ofInt (burstBefore (nonPreemptive S comp jobs).jobs i) :=
  waitingLoop_getD32 _ _ _ hi

/-! ## Sorted vectors -/

/-- Sorting with the comparator `key a < key b` leaves the range
non-decreasing in `key`. -/
theorem sort_pairwise_key (S : StdSort) (key : Job → Int) (l : List Job) :
    (S.sort (fun a b => decide (key a < key b)) l).Pairwise (fun a b => key a ≤ key b) :=
  (S.sorted _ l (strictWeakOrdering_of_key key)).imp (fun h => by simpa using h)

/-- A range with pairwise different keys has one sorted arrangement only. -/
theorem sorted_perm_unique (key : Job → Int) (l1 l2 : List Job) (hp : l1.Perm l2)
    (h1 : l1.Pairwise (fun a b => key a ≤ key b))
    (h2 : l2.Pairwise (fun a b => key a < key b)) : l1 = l2 := by
  induction l2 generalizing l1 with
  | nil => exact hp.eq_nil
  | cons x t ih =>
    cases l1 with
    | nil => exact absurd hp.symm.eq_nil (by simp)
    | cons y t1 =>
      rw [List.pairwise_cons] at h1 h2
      have hyx : y = x := by
        by_contra hne
        have hy : y ∈ t := by
          have := hp.subset (List.mem_cons_self y t1)
          rcases List.mem_cons.1 this with h | h
          · exact absurd h hne
          · exact h
        have hx : x ∈ t1 := by
          have := hp.symm.subset (List.mem_cons_self x t)
          rcases List.mem_cons.1 this with h | h
          · exact absurd h.symm hne
          · exact h
        have := h2.1 y hy
        have := h1.1 x hx
        omega
      subst hyx
      rw [ih t1 (List.Perm.cons_inv hp) h1.2 h2.2]

/-- In `main` the next choice runs on the vector the previous call left. -/
theorem mainLoop_cons (S : StdSort) (fuel : Nat) (jobs : List Job) (c : Choice)
    (cs : List Choice) (o : Output) (h : runChoice S fuel jobs c = some o) :
    mainLoop S fuel jobs (c :: cs)
      = (mainLoop S fuel o.jobs cs).map (fun r => (o.table :: r.1, r.2)) := by
  conv_lhs => unfold mainLoop
  rw [h]
  simp only
  cases hm : mainLoop S fuel o.jobs cs with
  | none => rfl
  | some r =>
    obtain ⟨tables, final⟩ := r
    rfl

/-! ## C3 – the output is ascending in the policy's key -/

/-- C3. For every job list the order in which a non-preemptive policy reports
the jobs is ascending in that policy's key: `FCFS` output is non-decreasing in
arrival time, `SJF` output in burst time, `PriorityScheduling` output in
priority value.  Bursts `P1 = 5`, `P2 = 3`, `P3 = 8` under `SJF` are reported as
`P2, P1, P3` with waiting `[0, 3, 8]` and turnaround `[3, 8, 16]`. -/
theorem output_sorted_by_key (S : StdSort) (jobs : List Job) :
    (FCFS S jobs).jobs.Pairwise (fun a b => a.at_ ≤ b.at_) ∧
    (SJF S jobs).jobs.Pairwise (fun a b => a.bt ≤ b.bt) ∧
    (PriorityScheduling S jobs).jobs.Pairwise (fun a b => a.pr ≤ b.pr) ∧
    (∀ p1 p2 p3 : Job, p1.bt = 5 → p2.bt = 3 → p3.bt = 8 →
      SJF S [p1, p2, p3] = ⟨[p2, p1, p3], [0, 3, 8], [3, 8, 16]⟩) := by
  refine ⟨sort_pairwise_key S (fun j => j.at_.val) jobs,
    sort_pairwise_key S (fun j => j.bt.val) jobs,
    sort_pairwise_key S (fun j => j.pr.val) jobs, ?_⟩
  intro p1 p2 p3 h1 h2 h3
  have hjobs : (SJF S [p1, p2, p3]).jobs = [p2, p1, p3] := by
    apply sorted_perm_unique (fun j => j.bt.val) _ _ _
      (sort_pairwise_key S (fun j => j.bt.val) _)
    · have e1 : p1.bt.val = 5 := by rw [h1]; rfl
      have e2 : p2.bt.val = 3 := by rw [h2]; rfl
      have e3 : p3.bt.val = 8 := by rw [h3]; rfl
      simp [e1, e2, e3]
    · exact (nonPreemptive_perm S byBurst _ byBurst_swo).trans (List.Perm.swap p2 p1 [p3])
  have hall := nonPreemptive_of_jobs S byBurst [p1, p2, p3] [p2, p1, p3] byBurst_swo hjobs
  have hw : waitingLoop [p2, p1, p3] 3 = [0, 0 + p2.bt, 0 + p2.bt + p1.bt] := rfl
  have ht : ∀ w0 w1 w2 : CInt, turnaroundLoop [p2, p1, p3] [w0, w1, w2] 3
      = [p2.bt + w0, p1.bt + w1, p3.bt + w2] := fun _ _ _ => rfl
  show nonPreemptive S byBurst [p1, p2, p3] = _
  rw [hall]
  simp only [List.length_cons, List.length_nil, Nat.reduceAdd]
  rw [hw, ht, h1, h2, h3,
    show ([0, 0 + 3, 0 + 3 + 5] : List CInt) = [0, 3, 8] from by decide,
    show ([3 + 0, 5 + (0 + 3), 8 + (0 + 3 + 5)] : List CInt) = [3, 8, 16] from by decide]

/-! ## C9 – no jobs -/

/-- C9. On a job list with zero jobs `FCFS`, `SJF`, `PriorityScheduling` and
`RoundRobin` (any quantum, any fuel, zero included: no dequeue takes place)
return empty vectors and print an empty table.  No vector entry is read or
written on the way: the queue of `RoundRobin` starts empty, and the index ranges
of the waiting-time loop and of the turnaround loop are empty. -/
theorem empty_input_empty_result (S : StdSort) (fuel : Nat) (tq : CInt) :
    FCFS S [] = ⟨[], [], []⟩ ∧ SJF S [] = ⟨[], [], []⟩ ∧
    PriorityScheduling S [] = ⟨[], [], []⟩ ∧
    RoundRobin fuel [] tq = some ⟨[], [], []⟩ ∧
    (FCFS S []).table = [] ∧ (SJF S []).table = [] ∧ (PriorityScheduling S []).table = [] ∧
    (∀ o, RoundRobin fuel [] tq = some o → o.table = []) ∧
    ((rrInit []).q = [] ∧ List.range' 1 (([] : List Job).length - 1) = [] ∧
      List.range ([] : List Job).length = []) := by
  have hnp : ∀ comp, StrictWeakOrdering comp → nonPreemptive S comp [] = ⟨[], [], []⟩ := by
    intro comp hc
    have : S.sort comp [] = [] := (S.perm comp [] hc).eq_nil
    unfold nonPreemptive
    simp only [this]
    rfl
  have hrr : RoundRobin fuel [] tq = some ⟨[], [], []⟩ := by
    unfold RoundRobin
    rw [rrLoop_nil32 _ _ _ _ (by rfl)]
    rfl
  have h1 : FCFS S [] = ⟨[], [], []⟩ := hnp _ byArrival_swo
  have h2 : SJF S [] = ⟨[], [], []⟩ := hnp _ byBurst_swo
  have h3 : PriorityScheduling S [] = ⟨[], [], []⟩ := hnp _ byPriority_swo
  refine ⟨h1, h2, h3, hrr, by rw [h1]; rfl, by rw [h2]; rfl, by rw [h3]; rfl, ?_,
    rfl, rfl, rfl⟩
  intro o ho
  rw [hrr] at ho
  cases ho
  rfl

/-! ## C11 – what the non-preemptive policies do to the caller's vector -/

/-- C11, as the code has it.  `FCFS`, `SJF` and `PriorityScheduling` receive the
caller's vector by reference and sort it in place: after the call the caller's
list is the reported order, a permutation of the list before the call in
ascending order of the policy's key.  It is the list before the call when that
was strictly ascending in the key already.  In `main` the next scheduling run
works on the vector as the call left it. -/
theorem nonPreemptive_sorts_callers_vector (S : StdSort) (jobs : List Job) :
    ((FCFS S jobs).jobs = S.sort byArrival jobs ∧ (SJF S jobs).jobs = S.sort byBurst jobs ∧
      (PriorityScheduling S jobs).jobs = S.sort byPriority jobs) ∧
    ((FCFS S jobs).jobs.Perm jobs ∧ (SJF S jobs).jobs.Perm jobs ∧
      (PriorityScheduling S jobs).jobs.Perm jobs) ∧
    ((FCFS S jobs).jobs.Pairwise (fun a b => a.at_ ≤ b.at_) ∧
      (SJF S jobs).jobs.Pairwise (fun a b => a.bt ≤ b.bt) ∧
      (PriorityScheduling S jobs).jobs.Pairwise (fun a b => a.pr ≤ b.pr)) ∧
    ((jobs.Pairwise (fun a b => a.at_ < b.at_) → (FCFS S jobs).jobs = jobs) ∧
      (jobs.Pairwise (fun a b => a.bt < b.bt) → (SJF S jobs).jobs = jobs) ∧
      (jobs.Pairwise (fun a b => a.pr < b.pr) → (PriorityScheduling S jobs).jobs = jobs)) ∧
    (∀ fuel c cs o, runChoice S fuel jobs c = some o →
      mainLoop S fuel jobs (c :: cs)
        = (mainLoop S fuel o.jobs cs).map (fun r => (o.table :: r.1, r.2))) := by
  have h1 := nonPreemptive_perm S byArrival jobs byArrival_swo
  have h2 := nonPreemptive_perm S byBurst jobs byBurst_swo
  have h3 := nonPreemptive_perm S byPriority jobs byPriority_swo
  have s1 := sort_pairwise_key S (fun j => j.at_.val) jobs
  have s2 := sort_pairwise_key S (fun j => j.bt.val) jobs
  have s3 := sort_pairwise_key S (fun j => j.pr.val) jobs
  exact ⟨⟨rfl, rfl, rfl⟩, ⟨h1, h2, h3⟩, ⟨s1, s2, s3⟩,
    ⟨fun h => sorted_perm_unique (fun j => j.at_.val) _ _ h1 s1 h,
     fun h => sorted_perm_unique (fun j => j.bt.val) _ _ h2 s2 h,
     fun h => sorted_perm_unique (fun j => j.pr.val) _ _ h3 s3 h⟩,
    fun fuel c cs o h => mainLoop_cons S fuel jobs c cs o h⟩

/-- C11 fails as stated: after `SJF` on `P1` (burst 5), `P2` (burst 3) the
caller's list is `P2, P1`; in `main`, Round Robin chosen after `SJF` reports
`P2` first with waiting times 0 and 3, whereas chosen on the list as entered it
reports `P1` first with waiting times 0 and 5. -/
theorem callers_vector_counterexample :
    (SJF stableStdSort [⟨"P1", 5, 0, 0⟩, ⟨"P2", 3, 1, 0⟩]).jobs
      = [⟨"P2", 3, 1, 0⟩, ⟨"P1", 5, 0, 0⟩] ∧
    mainLoop stableStdSort 2 [⟨"P1", 5, 0, 0⟩, ⟨"P2", 3, 1, 0⟩] [Choice.sjf, Choice.roundRobin 10]
      = some ([[⟨"P2", 3, 0, 3⟩, ⟨"P1", 5, 3, 8⟩], [⟨"P2", 3, 0, 3⟩, ⟨"P1", 5, 3, 8⟩]],
          [⟨"P2", 3, 1, 0⟩, ⟨"P1", 5, 0, 0⟩]) ∧
    mainLoop stableStdSort 2 [⟨"P1", 5, 0, 0⟩, ⟨"P2", 3, 1, 0⟩] [Choice.roundRobin 10]
      = some ([[⟨"P1", 5, 0, 5⟩, ⟨"P2", 3, 5, 8⟩]], [⟨"P1", 5, 0, 0⟩, ⟨"P2", 3, 1, 0⟩]) :=
  ⟨by decide, by decide, by decide⟩

/-! ## C15 – arrival times are not looked at when waiting times are computed -/

/-- C15. The waiting-time computation ignores arrival times: for `A` (burst 1,
arrival 0) and `B` (burst 1, arrival 10), whatever `std::sort` is used, `FCFS`
reports the jobs as `A`, `B` with waiting times 0 and 1, so `B` is shown
starting at time 1, strictly before its arrival time 10. -/
theorem fcfs_starts_job_before_arrival (S : StdSort) :
    FCFS S [⟨"A", 1, 0, 0⟩, ⟨"B", 1, 10, 0⟩]
      = ⟨[⟨"A", 1, 0, 0⟩, ⟨"B", 1, 10, 0⟩], [0, 1], [1, 2]⟩ ∧
    ∃ i, i < (FCFS S [⟨"A", 1, 0, 0⟩, ⟨"B", 1, 10, 0⟩]).jobs.length ∧
      (FCFS S [⟨"A", 1, 0, 0⟩, ⟨"B", 1, 10, 0⟩]).wt.getD i 0
        < ((FCFS S [⟨"A", 1, 0, 0⟩, ⟨"B", 1, 10, 0⟩]).jobs.getD i default).at_ := by
  have hjobs : (FCFS S [⟨"A", 1, 0, 0⟩, ⟨"B", 1, 10, 0⟩]).jobs
      = [⟨"A", 1, 0, 0⟩, ⟨"B", 1, 10, 0⟩] := by
    apply sorted_perm_unique (fun j => j.at_.val) _ _ _
      (sort_pairwise_key S (fun j => j.at_.val) _)
    · decide
    · exact nonPreemptive_perm S byArrival _ byArrival_swo
  have hall : FCFS S [⟨"A", 1, 0, 0⟩, ⟨"B", 1, 10, 0⟩]
      = ⟨[⟨"A", 1, 0, 0⟩, ⟨"B", 1, 10, 0⟩], [0, 1], [1, 2]⟩ := by
    show nonPreemptive S byArrival _ = _
    rw [nonPreemptive_of_jobs S byArrival _ _ byArrival_swo hjobs]
    decide
  refine ⟨hall, 1, ?_⟩
  rw [hall]
  decide

/-! ## C20 – the non-preemptive policies report a rearrangement of the input -/

/-- C20. For every job list the sequence of jobs that `FCFS`, `SJF` or
`PriorityScheduling` reports is a permutation of the input list (the same
records, each as often as in the input, hence the same length), and there is
exactly one waiting time, one turnaround time and one printed line per job. -/
theorem nonPreemptive_output_is_permutation (S : StdSort) (jobs : List Job) (o : Output)
    (h : o = FCFS S jobs ∨ o = SJF S jobs ∨ o = PriorityScheduling S jobs) :
    o.jobs.Perm jobs ∧ (∀ j, o.jobs.count j = jobs.count j) ∧ o.jobs.length = jobs.length ∧
    o.wt.length = jobs.length ∧ o.tat.length = jobs.length ∧ o.table.length = jobs.length := by
  obtain ⟨comp, hc, rfl⟩ := nonPreemptive_cases S jobs o h
  have hp := nonPreemptive_perm S comp jobs hc
  refine ⟨hp, fun j => hp.count_eq j, hp.length_eq, waitingLoop_length32 _ _,
    turnaroundLoop_length32 _ _ _, ?_⟩
  rw [Output.table, printResultTable_length, hp.length_eq]

/-- C20 at the jobs `P1`, `P2`, `P3` of bursts 5, 3, 8 under `SJF`. -/
theorem nonPreemptive_output_is_permutation_witness :
    (SJF stableStdSort [⟨"P1", 5, 0, 0⟩, ⟨"P2", 3, 0, 0⟩, ⟨"P3", 8, 0, 0⟩]).jobs.Perm
      [⟨"P1", 5, 0, 0⟩, ⟨"P2", 3, 0, 0⟩, ⟨"P3", 8, 0, 0⟩] ∧
    (SJF stableStdSort [⟨"P1", 5, 0, 0⟩, ⟨"P2", 3, 0, 0⟩, ⟨"P3", 8, 0, 0⟩]).jobs
      = [⟨"P2", 3, 0, 0⟩, ⟨"P1", 5, 0, 0⟩, ⟨"P3", 8, 0, 0⟩] :=
  ⟨(nonPreemptive_output_is_permutation stableStdSort
      [⟨"P1", 5, 0, 0⟩, ⟨"P2", 3, 0, 0⟩, ⟨"P3", 8, 0, 0⟩] _ (Or.inr (Or.inl rfl))).1,
   by decide⟩

/-! ## The program against exact arithmetic

With a quantum `> 0` the comparison `rem_bt[i] > tq` and the subtraction
`rem_bt[i] -= tq` never leave the range of `int`, so the program takes the
branches of the exact run; the clock and the waiting times are those of the
exact run reduced modulo `2^32`. -/

theorem sim_init (jobs : List Job) : Sim (rrInit jobs) (Exact.rrInit (jobs.map toExact)) := by
  refine ⟨by simp [rrInit, Exact.rrInit], ?_, ?_, rfl⟩
  · simp only [rrInit, Exact.rrInit, List.map_map]
    rfl
  · simp only [rrInit, Exact.rrInit, List.length_map, List.map_replicate]
    rfl

theorem sim_body (jobs : List Job) (tq : CInt) (hq : 0 < tq.val) (s : RRState)
    (z : Exact.RRState) (h : Sim s z) (i : Nat) (rest : List Nat) :
    Sim (rrBody jobs tq s i rest) (Exact.rrBody (jobs.map toExact) tq.val z i rest) := by
  obtain ⟨h1, h2, h3, h4⟩ := h
  have hr : z.rem_bt.getD i 0 = (s.rem_bt.getD i 0).val := by rw [h2, getD_map_val]
  have hlo := (s.rem_bt.getD i 0).lo
  have hhi := (s.rem_bt.getD i 0).hi
  by_cases hc : tq.val < (s.rem_bt.getD i 0).val
  · have e1 : rrBody jobs tq s i rest
        = ⟨rest ++ [i], s.rem_bt.set i (s.rem_bt.getD i 0 - tq), s.wt, s.time + tq⟩ := by
      unfold rrBody
      exact if_pos hc
    have e2 : Exact.rrBody (jobs.map toExact) tq.val z i rest
        = ⟨rest ++ [i], z.rem_bt.set i (z.rem_bt.getD i 0 - tq.val), z.wt, z.time + tq.val⟩ := by
      unfold Exact.rrBody
      exact if_pos (by rw [hr]; exact hc)
    rw [e1, e2]
    refine ⟨rfl, ?_, h3, ?_⟩
    · simp only
      rw [List.map_set, ← h2, hr, CInt.val_sub, wrap32_of_range _ (by omega) (by omega)]
    · simp only
      rw [h4, CInt.ofInt_add]
  · have e1 : rrBody jobs tq s i rest
        = ⟨rest, s.rem_bt.set i 0,
            s.wt.set i (s.time + s.rem_bt.getD i 0 - (jobs.getD i default).bt),
            s.time + s.rem_bt.getD i 0⟩ := by
      unfold rrBody
      exact if_neg hc
    have e2 : Exact.rrBody (jobs.map toExact) tq.val z i rest
        = ⟨rest, z.rem_bt.set i 0,
            z.wt.set i (z.time + z.rem_bt.getD i 0 - ((jobs.map toExact).getD i default).bt),
            z.time + z.rem_bt.getD i 0⟩ := by
      unfold Exact.rrBody
      exact if_neg (by rw [hr]; exact hc)
    rw [e1, e2]
    refine ⟨rfl, ?_, ?_, ?_⟩
    · simp only
      rw [List.map_set, ← h2]
      rfl
    · simp only
      rw [List.map_set, ← h3, hr, getD_toExact_bt, h4, CInt.ofInt_add, CInt.ofInt_sub]
    · simp only
      rw [h4, hr, CInt.ofInt_add]

theorem sim_run (jobs : List Job) (tq : CInt) (hq : 0 < tq.val) (k : Nat) (s : RRState)
    (z : Exact.RRState) (h : Sim s z) :
    Sim (rrRun jobs tq k s) (Exact.rrRun (jobs.map toExact) tq.val k z) := by
  induction k generalizing s z with
  | zero => exact h
  | succ k ih =>
    cases hs : s.q with
    | nil =>
      rw [rrRun_nil32 _ _ _ _ hs, Exact.rrRun_nil _ _ _ _ (h.1.trans hs)]
      exact h
    | cons i rest =>
      rw [rrRun_succ_cons32 _ _ _ _ _ _ hs, Exact.rrRun_succ_cons _ _ _ _ _ _ (h.1.trans hs)]
      exact ih _ _ (sim_body jobs tq hq s z h i rest)

/-- The state of the program after `k` passes against the exact state. -/
theorem sim_rrRun (jobs : List Job) (tq : CInt) (hq : 0 < tq.val) (k : Nat) :
    Sim (rrRun jobs tq k (rrInit jobs))
      (Exact.rrRun (jobs.map toExact) tq.val k (Exact.rrInit (jobs.map toExact))) :=
  sim_run jobs tq hq k _ _ (sim_init jobs)

/-- The turnaround loop on reduced waiting times gives the reduced turnaround
times. -/
theorem turnaroundLoop_sim (jobs : List Job) (w : List Int) (n : Nat) :
    turnaroundLoop jobs (w.map CInt.ofInt) n
      = (Exact.turnaroundLoop (jobs.map toExact) w n).map CInt.ofInt := by
  apply eq_of_getD _ _ 0 n (turnaroundLoop_length32 _ _ _)
    (by rw [List.length_map]; exact Exact.turnaroundLoop_length _ _ _)
  intro i hi
  rw [turnaroundLoop_getD32 _ _ _ _ hi, getD_map_ofInt, getD_map_ofInt,
    Exact.turnaroundLoop_getD _ _ _ _ hi, getD_toExact_bt, CInt.add_ofInt]

/-- With a quantum `> 0` the program returns exactly when the exact run does,
and then its vectors are those of the exact run reduced modulo `2^32`. -/
theorem RoundRobin_sim (fuel : Nat) (jobs : List Job) (tq : CInt) (hq : 0 < tq.val)
    (o : Output) :
    RoundRobin fuel jobs tq = some o ↔
      ∃ z, Exact.RoundRobin fuel (jobs.map toExact) tq.val = some z ∧
        o = ⟨jobs, z.wt.map CInt.ofInt, z.tat.map CInt.ofInt⟩ := by
  have hs := sim_rrRun jobs tq hq fuel
  rw [RoundRobin_eq_some_iff32]
  constructor
  · rintro ⟨hqe, rfl⟩
    refine ⟨_, (Exact.RoundRobin_eq_some_iff _ _ _ _).2 ⟨hs.1.trans hqe, rfl⟩, ?_⟩
    simp only [List.length_map]
    rw [hs.2.2.1, turnaroundLoop_sim]
  · rintro ⟨z, hz, rfl⟩
    obtain ⟨hqe, rfl⟩ := (Exact.RoundRobin_eq_some_iff _ _ _ _).1 hz
    refine ⟨hs.1.symm.trans hqe, ?_⟩
    simp only [List.length_map]
    rw [hs.2.2.1, turnaroundLoop_sim]

theorem RoundRobin_isSome_sim (fuel : Nat) (jobs : List Job) (tq : CInt) (hq : 0 < tq.val) :
    (RoundRobin fuel jobs tq).isSome
      = (Exact.RoundRobin fuel (jobs.map toExact) tq.val).isSome := by
  cases h1 : RoundRobin fuel jobs tq with
  | some o =>
    obtain ⟨z, hz, -⟩ := (RoundRobin_sim fuel jobs tq hq o).1 h1
    rw [hz]
    rfl
  | none =>
    cases h2 : Exact.RoundRobin fuel (jobs.map toExact) tq.val with
    | none => rfl
    | some z =>
      have := (RoundRobin_sim fuel jobs tq hq _).2 ⟨z, h2, rfl⟩
      rw [h1] at this
      cases this

theorem toExact_pos (jobs : List Job) (hpos : ∀ j ∈ jobs, 0 < j.bt.val) :
    ∀ j ∈ jobs.map toExact, 0 < j.bt := by
  intro j hj
  obtain ⟨a, ha, rfl⟩ := List.mem_map.1 hj
  exact hpos a ha

/-! ## Round Robin: a quantum that covers every burst -/

theorem getD_map_bt32 (jobs : List Job) (i : Nat) :
    (jobs.map (fun j => j.bt)).getD i 0 = (jobs.getD i default).bt := by
  by_cases h : i < jobs.length
  · simp [List.getD_eq_getElem?_getD, List.getElem?_eq_getElem, h]
  · simp only [not_lt] at h
    simp [List.getD_eq_getElem?_getD, List.getElem?_eq_none, h]
    rfl

/-- When no burst exceeds the quantum, the loop started on the queue
`k, k+1, .., n-1` with the clock at `bt[0] + .. + bt[k-1]` (in `int`) finishes
after `n - k` dequeue operations, having given each of those jobs the waiting
time `bt[0] + .. + bt[j-1]` (in `int`). -/
theorem rrLoop_large_quantum32 (jobs : List Job) (tq : CInt)
    (h : ∀ j ∈ jobs, j.bt.val ≤ tq.val)
    (m k : Nat) (s : RRState) (hkm : k + m = jobs.length) (hq : s.q = List.range' k m)
    (hwlen : s.wt.length = jobs.length)
    (hrem : ∀ j, k ≤ j → j < jobs.length → s.rem_bt.getD j 0 = (jobs.getD j default).bt)
    (htime : s.time = CInt.ofInt (burstBefore jobs k)) :
    ∃ s', rrLoop jobs tq m s = some s' ∧ s'.wt.length = jobs.length ∧
      (∀ j, j < k → s'.wt.getD j 0 = s.wt.getD j 0) ∧
      (∀ j, k ≤ j → j < jobs.length → s'.wt.getD j 0 = CInt.ofInt (burstBefore jobs j)) := by
  induction m generalizing k s with
  | zero =>
    refine ⟨s, rrLoop_nil32 _ _ _ _ (by simpa using hq), hwlen, fun _ _ => rfl, ?_⟩
    intro j h1 h2
    omega
  | succ m ih =>
    have hq' : s.q = k :: List.range' (k + 1) m := by rw [hq, List.range'_succ]
    have hk : k < jobs.length := by omega
    have hremk := hrem k (le_refl _) hk
    have hle : (jobs.getD k default).bt.val ≤ tq.val := h _ (getD_mem_of_lt32 jobs k hk)
    have hbody : rrBody jobs tq s k (List.range' (k + 1) m) =
        { q := List.range' (k + 1) m
          rem_bt := s.rem_bt.set k 0
          wt := s.wt.set k (s.time + s.rem_bt.getD k 0 - (jobs.getD k default).bt)
          time := s.time + s.rem_bt.getD k 0 } := by
      unfold rrBody
      rw [if_neg (by rw [hremk]; exact not_lt.2 hle)]
    obtain ⟨s', hl, hlen', hlow, hhigh⟩ := ih (k + 1) (rrBody jobs tq s k (List.range' (k + 1) m))
      (by omega) (by rw [hbody]) (by rw [hbody]; simpa using hwlen)
      (by
        intro j hj1 hj2
        rw [hbody]
        simp only
        rw [Exact.getD_set_ne _ _ _ _ _ (by omega)]
        exact hrem j (by omega) hj2)
      (by rw [hbody]; simp only; rw [htime, hremk, burstBefore_succ32, CInt.ofInt_add])
    refine ⟨s', by rw [rrLoop_succ_cons32 _ _ _ _ _ _ hq']; exact hl, hlen', ?_, ?_⟩
    · intro j hj
      rw [hlow j (by omega), hbody]
      simp only
      rw [Exact.getD_set_ne _ _ _ _ _ (by omega)]
    · intro j hj1 hj2
      by_cases hjk : j = k
      · subst hjk
        rw [hlow j (by omega), hbody]
        simp only
        rw [Exact.getD_set_eq _ _ _ _ (by omega), htime, hremk, CInt.ofInt_add, CInt.ofInt_sub,
          add_sub_cancel_right]
      · exact hhigh j (by omega) hj2

/-- Result of `RoundRobin` when no burst exceeds the quantum: the vectors the
two loops of `FCFS` make of the input order. -/
theorem RoundRobin_large_quantum32 (jobs : List Job) (tq : CInt)
    (h : ∀ j ∈ jobs, j.bt.val ≤ tq.val) :
    RoundRobin jobs.length jobs tq = some
      { jobs := jobs
        wt := waitingLoop jobs jobs.length
        tat := turnaroundLoop jobs (waitingLoop jobs jobs.length) jobs.length } := by
  obtain ⟨s', hl, hlen, -, hval⟩ := rrLoop_large_quantum32 jobs tq h jobs.length 0 (rrInit jobs)
    (by omega) (by simp [rrInit, List.range_eq_range']) (by simp [rrInit])
    (fun j _ _ => getD_map_bt32 jobs j) (by rw [burstBefore_zero32]; rfl)
  have hw : s'.wt = waitingLoop jobs jobs.length :=
    eq_of_getD _ _ 0 jobs.length hlen (waitingLoop_length32 _ _)
      (fun i hi => by rw [hval i (Nat.zero_le _) hi, waitingLoop_getD32 _ _ _ hi])
  unfold RoundRobin
  rw [hl]
  simp only [hw]

/-! ## Round Robin: quantum zero -/

/-- With quantum `0`, a queued job with a positive remaining burst is put back
with the same remaining burst, so the loop never ends. -/
theorem rrLoop_none_of_zero (jobs : List Job) (fuel : Nat)
    (s : RRState) (h : ∃ i ∈ s.q, i < s.rem_bt.length ∧ 0 < (s.rem_bt.getD i 0).val) :
    rrLoop jobs 0 fuel s = none := by
  induction fuel generalizing s with
  | zero =>
    obtain ⟨i, hi, -⟩ := h
    cases hs : s.q with
    | nil => rw [hs] at hi; cases hi
    | cons a rest => exact rrLoop_zero_cons32 _ _ _ _ _ hs
  | succ fuel ih =>
    obtain ⟨i, hi, hlen, hgt⟩ := h
    cases hs : s.q with
    | nil => rw [hs] at hi; cases hi
    | cons a rest =>
      rw [rrLoop_succ_cons32 _ _ _ _ _ _ hs]
      apply ih
      rw [hs] at hi
      by_cases hia : i = a
      · subst hia
        have hc : s.rem_bt.getD i 0 > (0 : CInt) := hgt
        have hsame : s.rem_bt.getD i 0 - (0 : CInt) = s.rem_bt.getD i 0 := by
          apply CInt.eq_of_val
          rw [CInt.val_sub, CInt.val_zero, sub_zero]
          exact wrap32_of_range _ (s.rem_bt.getD i 0).lo (s.rem_bt.getD i 0).hi
        refine ⟨i, ?_, ?_, ?_⟩
        · unfold rrBody; rw [if_pos hc]; simp
        · unfold rrBody; rw [if_pos hc]; simpa using hlen
        · unfold rrBody; rw [if_pos hc]; simp only
          rw [Exact.getD_set_eq _ _ _ _ hlen, hsame]
          exact hgt
      · have hir : i ∈ rest := by
          rcases List.mem_cons.1 hi with h | h
          · exact absurd h hia
          · exact h
        refine ⟨i, ?_, ?_, ?_⟩
        · unfold rrBody; split <;> simp [hir]
        · unfold rrBody; split <;> simpa using hlen
        · unfold rrBody
          split
          · simp only
            rw [Exact.getD_set_ne _ _ _ _ _ (Ne.symm hia)]
            exact hgt
          · simp only
            rw [Exact.getD_set_ne _ _ _ _ _ (Ne.symm hia)]
            exact hgt

/-- With quantum `0` and some positive burst, `RoundRobin` never returns. -/
theorem RoundRobin_none_of_zero (jobs : List Job)
    (h : ∃ j ∈ jobs, 0 < j.bt.val) (fuel : Nat) : RoundRobin fuel jobs 0 = none := by
  obtain ⟨j, hj, hgt⟩ := h
  obtain ⟨i, hi, rfl⟩ := List.getElem_of_mem hj
  have : rrLoop jobs 0 fuel (rrInit jobs) = none := by
    apply rrLoop_none_of_zero jobs
    refine ⟨i, by simp [rrInit, hi], by simp [rrInit, hi], ?_⟩
    simp only [rrInit]
    rw [getD_map_bt32, List.getD_eq_getElem _ _ hi]
    exact hgt
  unfold RoundRobin
  rw [this]

/-! ## Values of a run that stays within the range of `int` -/

theorem totalBurst_perm (l1 l2 : List Job) (h : l1.Perm l2) : totalBurst l1 = totalBurst l2 :=
  (h.map _).sum_eq

/-- The exact clock does not go back over any number of passes. -/
theorem exact_clock_le_later (J : List Exact.Job) (tq : Int) (hq : 0 < tq)
    (hpos : ∀ j ∈ J, 0 < j.bt) (k m : Nat) :
    (Exact.rrRun J tq k (Exact.rrInit J)).time
      ≤ (Exact.rrRun J tq (k + m) (Exact.rrInit J)).time := by
  induction m with
  | zero => exact le_refl _
  | succ m ih => exact le_trans ih ((Exact.exact_clock_monotone J tq hq hpos).2 (k + m)).1

/-- The exact clock stays between `0` and the sum of all bursts. -/
theorem exact_clock_bounds (J : List Exact.Job) (tq : Int) (hq : 0 < tq)
    (hpos : ∀ j ∈ J, 0 < j.bt) (k : Nat) :
    0 ≤ (Exact.rrRun J tq k (Exact.rrInit J)).time ∧
    (Exact.rrRun J tq k (Exact.rrInit J)).time ≤ (J.map (fun j => j.bt)).sum := by
  constructor
  · have h := exact_clock_le_later J tq hq hpos 0 k
    rw [Nat.zero_add] at h
    exact h
  · by_cases hne : J = []
    · subst hne
      rw [Exact.rrRun_nil _ _ _ _ rfl]
      exact le_refl _
    · obtain ⟨K, -, -, hK, -⟩ := Exact.exact_no_idle_gaps J tq hq hpos hne
      have h := exact_clock_le_later J tq hq hpos k K
      rw [(hK (k + K) (by omega)).2.2] at h
      exact h

/-- In exact arithmetic every waiting time is `≥ 0` and every turnaround time is
the burst plus the waiting time and at most the sum of all bursts. -/
theorem exact_output_bounds (J : List Exact.Job) (tq : Int) (hq : 0 < tq)
    (hpos : ∀ j ∈ J, 0 < j.bt) (fuel : Nat) (z : Exact.Output)
    (h : Exact.RoundRobin fuel J tq = some z) (i : Nat) (hi : i < J.length) :
    0 ≤ z.wt.getD i 0 ∧ z.tat.getD i 0 = (J.getD i default).bt + z.wt.getD i 0 ∧
      z.tat.getD i 0 ≤ (J.map (fun j => j.bt)).sum := by
  obtain ⟨s, hl, -, hw, ht⟩ := Exact.RoundRobin_some fuel J tq z h
  have hne : J ≠ [] := by
    rintro rfl
    simp at hi
  refine ⟨?_, ?_, ?_⟩
  · rw [hw]
    exact Exact.rrLoop_wt_nonneg J tq hq (fun j hj => le_of_lt (hpos j hj)) fuel s hl i hi
  · rw [ht, hw]
    exact Exact.turnaroundLoop_getD _ _ _ _ hi
  · obtain ⟨K, -, -, -, hK⟩ := Exact.exact_no_idle_gaps J tq hq hpos hne
    exact (hK fuel z h).1 i hi

/-- With a quantum `> 0`, positive bursts and a total burst within the range of
`int`, the numbers the program reports are those of the exact run. -/
theorem RoundRobin_values (jobs : List Job) (tq : CInt) (hq : 0 < tq.val)
    (hpos : ∀ j ∈ jobs, 0 < j.bt.val) (htot : totalBurst jobs ≤ 2147483647)
    (fuel : Nat) (o : Output) (h : RoundRobin fuel jobs tq = some o) :
    ∃ z, Exact.RoundRobin fuel (jobs.map toExact) tq.val = some z ∧
      ∀ i, i < jobs.length →
        (o.wt.getD i 0).val = z.wt.getD i 0 ∧ (o.tat.getD i 0).val = z.tat.getD i 0 := by
  obtain ⟨z, hz, rfl⟩ := (RoundRobin_sim fuel jobs tq hq o).1 h
  refine ⟨z, hz, fun i hi => ?_⟩
  obtain ⟨h1, h2, h3⟩ := exact_output_bounds _ _ hq (toExact_pos jobs hpos) fuel z hz i
    (by simpa using hi)
  rw [totalBurst_toExact] at h3
  rw [getD_toExact_bt] at h2
  have hb := hpos _ (getD_mem_of_lt32 jobs i hi)
  simp only
  rw [getD_map_ofInt, getD_map_ofInt, CInt.val_ofInt_of_range _ (by omega) (by omega),
    CInt.val_ofInt_of_range _ (by omega) (by omega)]
  exact ⟨rfl, rfl⟩

/-- With a quantum `> 0` the loop of `RoundRobin` terminates. -/
theorem RoundRobin_returns (jobs : List Job) (tq : CInt) (hq : 0 < tq.val) :
    ∃ fuel o, RoundRobin fuel jobs tq = some o := by
  have h := (Exact.RoundRobin_isSome_iff (jobs.map toExact) tq.val hq _).2 (le_refl _)
  rw [← RoundRobin_isSome_sim _ jobs tq hq] at h
  obtain ⟨o, ho⟩ := Option.isSome_iff_exists.1 h
  exact ⟨_, o, ho⟩

theorem totalAbsBurst_perm (l1 l2 : List Job) (h : l1.Perm l2) :
    totalAbsBurst l1 = totalAbsBurst l2 :=
  (h.map _).sum_eq

/-- The sum of the first `i` bursts lies between minus and plus the sum of the
absolute values of all bursts. -/
theorem burstBefore_abs_bounds (jobs : List Job) (i : Nat) :
    -totalAbsBurst jobs ≤ burstBefore jobs i ∧ burstBefore jobs i ≤ totalAbsBurst jobs := by
  induction jobs generalizing i with
  | nil => simp [burstBefore, totalAbsBurst]
  | cons a t ih =>
    have h1 := neg_abs_le a.bt.val
    have h2 := le_abs_self a.bt.val
    cases i with
    | zero =>
      have := (ih 0).1
      have := (ih 0).2
      simp only [burstBefore, totalAbsBurst, List.take_zero, List.map_nil, List.sum_nil,
        List.map_cons, List.sum_cons] at *
      omega
    | succ k =>
      have := (ih k).1
      have := (ih k).2
      simp only [burstBefore, totalAbsBurst, List.take_succ_cons, List.map_cons,
        List.sum_cons] at *
      omega

/-- No sum of leading bursts leaves the range of `int` when the absolute values
of the bursts total at most `2147483647`. -/
theorem burstBefore_range_of_abs (jobs : List Job) (h : totalAbsBurst jobs ≤ 2147483647)
    (i : Nat) : -2147483648 ≤ burstBefore jobs i ∧ burstBefore jobs i ≤ 2147483647 := by
  have := burstBefore_abs_bounds jobs i
  omega

/-- No sum of leading bursts leaves the range of `int` when no burst is negative
and the bursts total at most `2147483647`. -/
theorem burstBefore_range_of_nonneg (jobs : List Job) (hnn : ∀ j ∈ jobs, 0 ≤ j.bt.val)
    (htot : totalBurst jobs ≤ 2147483647) (i : Nat) :
    -2147483648 ≤ burstBefore jobs i ∧ burstBefore jobs i ≤ 2147483647 := by
  have := burstBefore_bounds jobs hnn i
  omega

/-- Where the sum of the bursts in front of `i` is within the range of `int`,
the waiting-time loop computes that sum. -/
theorem waitingLoop_val (jobs : List Job) (n i : Nat) (hi : i < n)
    (hr : -2147483648 ≤ burstBefore jobs i ∧ burstBefore jobs i ≤ 2147483647) :
    ((waitingLoop jobs n).getD i 0).val = burstBefore jobs i := by
  rw [waitingLoop_getD32 _ _ _ hi]
  exact CInt.val_ofInt_of_range _ hr.1 hr.2

theorem waitingLoop_map_val (jobs : List Job) (n : Nat)
    (hr : ∀ i, -2147483648 ≤ burstBefore jobs i ∧ burstBefore jobs i ≤ 2147483647) :
    (waitingLoop jobs n).map CInt.val = (List.range n).map (burstBefore jobs) := by
  apply eq_of_getD _ _ 0 n (by rw [List.length_map]; exact waitingLoop_length32 _ _) (by simp)
  intro i hi
  rw [getD_map_val, waitingLoop_val jobs n i hi (hr i), Exact.getD_map_range _ _ _ hi]

/-- Total of the waiting times of an order of the jobs, when nothing wraps. -/
theorem sum_waitingLoop_val (p : List Job)
    (hr : ∀ i, -2147483648 ≤ burstBefore p i ∧ burstBefore p i ≤ 2147483647) :
    ((waitingLoop p p.length).map CInt.val).sum = waitingCost (p.map (fun j => j.bt.val)) := by
  have h := Exact.sum_waitingLoop (p.map toExact)
  rw [List.length_map, List.map_map] at h
  have h' : waitingCost (p.map (fun j => j.bt.val))
      = (Exact.waitingLoop (p.map toExact) p.length).sum := h.symm
  rw [waitingLoop_map_val p _ hr, h']
  congr 1
  apply eq_of_getD _ _ 0 p.length (by simp) (Exact.waitingLoop_length _ _)
  intro i hi
  rw [Exact.getD_map_range _ _ _ hi, Exact.waitingLoop_getD _ _ _ hi, burstBefore_toExact]

/-! ## C1 – turnaround is burst plus waiting -/

/-- An `int` sum is the exact sum exactly when the exact sum is an `int`. -/
theorem CInt.val_add_eq_iff (a b : CInt) :
    (a + b).val = a.val + b.val ↔
      (-2147483648 ≤ a.val + b.val ∧ a.val + b.val ≤ 2147483647) := by
  constructor
  · intro h
    have h1 := (a + b).lo
    have h2 := (a + b).hi
    omega
  · intro h
    exact wrap32_of_range _ h.1 h.2

/-- C1, as the code has it.  For every job list and every policy (`FCFS`, `SJF`,
`PriorityScheduling`, and `RoundRobin` with any quantum and fuel for which the
loop finishes) the output has one waiting and one turnaround entry per job, and
the turnaround entry of row `i` is the burst of the job of row `i` plus its
waiting entry in `int` arithmetic: the sum reduced modulo `2^32` into the range
of `int`.  It is the sum of the two numbers exactly when that sum lies between
`-2147483648` and `2147483647`.  The same holds in every printed line. -/
theorem turnaround_eq_burst_add_waiting (S : StdSort) (jobs : List Job) (o : Output)
    (h : o = FCFS S jobs ∨ o = SJF S jobs ∨ o = PriorityScheduling S jobs ∨
      ∃ fuel tq, RoundRobin fuel jobs tq = some o) :
    o.jobs.length = jobs.length ∧ o.wt.length = jobs.length ∧ o.tat.length = jobs.length ∧
    (∀ i, i < jobs.length →
      o.tat.getD i 0 = (o.jobs.getD i default).bt + o.wt.getD i 0 ∧
      (o.tat.getD i 0).val
        = wrap32 ((o.jobs.getD i default).bt.val + (o.wt.getD i 0).val) ∧
      ((o.tat.getD i 0).val = (o.jobs.getD i default).bt.val + (o.wt.getD i 0).val ↔
        (-2147483648 ≤ (o.jobs.getD i default).bt.val + (o.wt.getD i 0).val ∧
          (o.jobs.getD i default).bt.val + (o.wt.getD i 0).val ≤ 2147483647))) ∧
    (o.table.length = jobs.length ∧
      ∀ row ∈ o.table, row.tat = row.bt + row.wt ∧
        row.tat.val = wrap32 (row.bt.val + row.wt.val) ∧
        (row.tat.val = row.bt.val + row.wt.val ↔
          (-2147483648 ≤ row.bt.val + row.wt.val ∧ row.bt.val + row.wt.val ≤ 2147483647))) := by
  obtain ⟨hj, hw, ht⟩ := output_shape S jobs o h
  have hget : ∀ i, i < jobs.length →
      o.tat.getD i 0 = (o.jobs.getD i default).bt + o.wt.getD i 0 := by
    intro i hi
    rw [ht]
    exact turnaroundLoop_getD32 _ _ _ _ hi
  refine ⟨hj, hw, by rw [ht]; exact turnaroundLoop_length32 _ _ _, ?_, ?_, ?_⟩
  · intro i hi
    refine ⟨hget i hi, ?_, ?_⟩
    · rw [hget i hi]
      rfl
    · rw [hget i hi]
      exact CInt.val_add_eq_iff _ _
  · rw [Output.table, printResultTable_length, hj]
  · intro row hrow
    obtain ⟨i, hi, hb, hwt, htat⟩ := mem_printResultTable _ _ _ row hrow
    rw [hb, hwt, htat, hget i (by omega)]
    exact ⟨rfl, rfl, CInt.val_add_eq_iff _ _⟩

/-- C1 as amended, at one job of burst 10 under Round Robin with quantum 4. -/
theorem turnaround_eq_burst_add_waiting_witness :
    RoundRobin 3 [⟨"P1", 10, 0, 0⟩] 4 = some ⟨[⟨"P1", 10, 0, 0⟩], [0], [10]⟩ ∧
    ∀ row ∈ (⟨[⟨"P1", 10, 0, 0⟩], [0], [10]⟩ : Output).table, row.tat = row.bt + row.wt ∧
      row.tat.val = wrap32 (row.bt.val + row.wt.val) ∧
      (row.tat.val = row.bt.val + row.wt.val ↔
        (-2147483648 ≤ row.bt.val + row.wt.val ∧ row.bt.val + row.wt.val ≤ 2147483647)) :=
  ⟨by decide,
   (turnaround_eq_burst_add_waiting stableStdSort [⟨"P1", 10, 0, 0⟩]
      ⟨[⟨"P1", 10, 0, 0⟩], [0], [10]⟩
      (Or.inr (Or.inr (Or.inr ⟨3, 4, by decide⟩)))).2.2.2.2.2⟩

/-- C1 fails as stated: with bursts `2147483647`, `1`, `1` in arrival order
`FCFS` prints for the second job burst `1`, waiting time `2147483647` and
turnaround time `-2147483648`, which is not `1 + 2147483647`; and Round Robin
with quantum `1000000000` on two jobs of burst `2147483647` prints burst
`2147483647`, waiting time `2000000000` and turnaround time `-147483649`. -/
theorem turnaround_overflow_counterexample :
    (FCFS stableStdSort [⟨"A", 2147483647, 0, 0⟩, ⟨"B", 1, 1, 0⟩, ⟨"C", 1, 2, 0⟩]).table
      = [⟨"A", 2147483647, 0, 2147483647⟩, ⟨"B", 1, 2147483647, -2147483648⟩,
         ⟨"C", 1, -2147483648, -2147483647⟩] ∧
    (∃ row ∈ (FCFS stableStdSort
        [⟨"A", 2147483647, 0, 0⟩, ⟨"B", 1, 1, 0⟩, ⟨"C", 1, 2, 0⟩]).table,
      row.tat.val ≠ row.bt.val + row.wt.val) ∧
    (RoundRobin 6 [⟨"A", 2147483647, 0, 0⟩, ⟨"B", 2147483647, 0, 0⟩] 1000000000).map Output.table
      = some [⟨"A", 2147483647, 2000000000, -147483649⟩, ⟨"B", 2147483647, 2147483647, -2⟩] :=
  ⟨by decide, ⟨⟨"B", 1, 2147483647, -2147483648⟩, by decide, by decide⟩, by decide⟩

/-! ## C2 – waiting time is the cumulative burst of the jobs scheduled before -/

/-- C2, as the code has it.  For `FCFS`, `SJF` and `PriorityScheduling` on any
job list, with the jobs taken in output order: `wt[0] = 0`,
`wt[i] = wt[i-1] + bt[i-1]` in `int` arithmetic for `i > 0`, so `wt[i]` is the
sum of the bursts of the jobs scheduled strictly before `i` reduced modulo
`2^32` into the range of `int`.  When the absolute values of the bursts total
at most `2147483647`, `wt[i]` is that sum itself and the sum of all waiting
times is the sum over `i` of that cumulative burst.  Bursts `[5, 3, 8]` in
output order give waiting `[0, 5, 8]` and turnaround `[5, 8, 16]`. -/
theorem waiting_is_cumulative_burst (S : StdSort) (jobs : List Job) (o : Output)
    (h : o = FCFS S jobs ∨ o = SJF S jobs ∨ o = PriorityScheduling S jobs) :
    o.wt.length = o.jobs.length ∧
    o.wt.getD 0 0 = 0 ∧
    (∀ i, 0 < i → i < o.jobs.length →
      o.wt.getD i 0 = o.wt.getD (i - 1) 0 + (o.jobs.getD (i - 1) default).bt) ∧
    (∀ i, i < o.jobs.length → o.wt.getD i 0 = CInt.ofInt (burstBefore o.jobs i)) ∧
    (totalAbsBurst jobs ≤ 2147483647 →
      (∀ i, i < o.jobs.length → (o.wt.getD i 0).val = burstBefore o.jobs i) ∧
      (o.wt.map CInt.val).sum = ((List.range o.jobs.length).map (burstBefore o.jobs)).sum) ∧
    (o.jobs.map (fun j => j.bt) = [5, 3, 8] → o.wt = [0, 5, 8] ∧ o.tat = [5, 8, 16]) := by
  obtain ⟨comp, hc, rfl⟩ := nonPreemptive_cases S jobs o h
  have hlen := nonPreemptive_length S comp jobs hc
  have hperm := nonPreemptive_perm S comp jobs hc
  have hwt := nonPreemptive_wt_loop S comp jobs hc
  have hget : ∀ i, i < (nonPreemptive S comp jobs).jobs.length →
      (nonPreemptive S comp jobs).wt.getD i 0
        = CInt.ofInt (burstBefore (nonPreemptive S comp jobs).jobs i) := by
    intro i hi
    exact nonPreemptive_wt_getD S comp jobs i (by omega)
  refine ⟨by rw [hlen]; exact waitingLoop_length32 _ _, ?_, ?_, hget, ?_, ?_⟩
  · by_cases h0 : 0 < (nonPreemptive S comp jobs).jobs.length
    · rw [hget 0 h0, burstBefore_zero32]
      rfl
    · rw [hwt, show (nonPreemptive S comp jobs).jobs.length = 0 by omega]
      rfl
  · intro i hi hin
    rw [hget i hin, hget (i - 1) (by omega), CInt.ofInt_add, ← burstBefore_succ32,
      show i - 1 + 1 = i by omega]
  · intro htot
    have htot' : totalAbsBurst (nonPreemptive S comp jobs).jobs ≤ 2147483647 := by
      rw [totalAbsBurst_perm _ _ hperm]
      exact htot
    have hr := burstBefore_range_of_abs _ htot'
    rw [hwt]
    exact ⟨fun i hi => waitingLoop_val _ _ i hi (hr i),
      by rw [waitingLoop_map_val _ _ hr]⟩
  · intro hb
    have hall := nonPreemptive_of_jobs S comp jobs _ hc rfl
    rw [hall]
    simp only
    rw [hall] at hb
    simp only at hb
    generalize (nonPreemptive S comp jobs).jobs = js at hb
    rcases js with _ | ⟨a, _ | ⟨b, _ | ⟨c, _ | ⟨d, r⟩⟩⟩⟩ <;>
      simp only [List.map_cons, List.map_nil, List.cons.injEq, and_true, reduceCtorEq,
        and_false] at hb
    obtain ⟨ha, hb', hc'⟩ := hb
    have hw : waitingLoop [a, b, c] 3 = [0, 0 + a.bt, 0 + a.bt + b.bt] := rfl
    have ht : ∀ w0 w1 w2 : CInt, turnaroundLoop [a, b, c] [w0, w1, w2] 3
        = [a.bt + w0, b.bt + w1, c.bt + w2] := fun _ _ _ => rfl
    simp only [List.length_cons, List.length_nil, Nat.reduceAdd]
    rw [hw, ht, ha, hb', hc']
    exact ⟨by decide, by decide⟩

/-- C2 as amended, at the spec's scenario: `P1` (burst 5), `P2` (burst 3), `P3`
(burst 8) arriving in that order, under `FCFS`. -/
theorem waiting_is_cumulative_burst_witness :
    (FCFS stableStdSort [⟨"P1", 5, 0, 0⟩, ⟨"P2", 3, 1, 0⟩, ⟨"P3", 8, 2, 0⟩]).wt = [0, 5, 8] ∧
    (FCFS stableStdSort [⟨"P1", 5, 0, 0⟩, ⟨"P2", 3, 1, 0⟩, ⟨"P3", 8, 2, 0⟩]).tat = [5, 8, 16] :=
  (waiting_is_cumulative_burst stableStdSort
    [⟨"P1", 5, 0, 0⟩, ⟨"P2", 3, 1, 0⟩, ⟨"P3", 8, 2, 0⟩] _ (Or.inl rfl)).2.2.2.2.2 (by decide)

/-- C2 fails as stated: with bursts `2147483647`, `1`, `1` in arrival order the
third job of `FCFS` has the bursts `2147483647 + 1 = 2147483648` before it, and
its waiting time is `-2147483648`. -/
theorem waiting_overflow_counterexample :
    (FCFS stableStdSort [⟨"A", 2147483647, 0, 0⟩, ⟨"B", 1, 1, 0⟩, ⟨"C", 1, 2, 0⟩]).wt
      = [0, 2147483647, -2147483648] ∧
    burstBefore (FCFS stableStdSort
      [⟨"A", 2147483647, 0, 0⟩, ⟨"B", 1, 1, 0⟩, ⟨"C", 1, 2, 0⟩]).jobs 2 = 2147483648 ∧
    ((FCFS stableStdSort
      [⟨"A", 2147483647, 0, 0⟩, ⟨"B", 1, 1, 0⟩, ⟨"C", 1, 2, 0⟩]).wt.getD 2 0).val
      ≠ burstBefore (FCFS stableStdSort
          [⟨"A", 2147483647, 0, 0⟩, ⟨"B", 1, 1, 0⟩, ⟨"C", 1, 2, 0⟩]).jobs 2 :=
  ⟨by decide, by decide, by decide⟩

/-! ## C5 – the quantum is not validated -/

/-- C5, as the code has it.  `RoundRobin` does not look at the sign of the
quantum and has no failure path.  Whatever the quantum, negative or zero
included, when no burst exceeds it every job completes at its first dequeue and
the table the two loops of `FCFS` make of the input order is returned after `n`
dequeue operations.  With quantum `0` and some job of positive burst the loop
never ends, whatever the fuel. -/
theorem unvalidated_quantum_behaviour (jobs : List Job) :
    (∀ tq : CInt, (∀ j ∈ jobs, j.bt ≤ tq) →
      RoundRobin jobs.length jobs tq = some
        { jobs := jobs
          wt := waitingLoop jobs jobs.length
          tat := turnaroundLoop jobs (waitingLoop jobs jobs.length) jobs.length }) ∧
    ((∃ j ∈ jobs, 0 < j.bt) → ∀ fuel, RoundRobin fuel jobs 0 = none) :=
  ⟨fun tq h => RoundRobin_large_quantum32 jobs tq h,
   fun h fuel => RoundRobin_none_of_zero jobs h fuel⟩

/-- C5 fails as stated: with quantum `0` and one job of burst `1` the loop never
ends (no fuel makes `RoundRobin` return); with quantum `0` and one job of burst
`0` the simulation is run and a table is returned; and with quantum
`-1000000000` and one job of burst `3` the simulation is run and the table
`(P1, 3, 0, 3)` is returned at the fourth dequeue. -/
theorem nonpositive_quantum_counterexample :
    (¬ ∃ fuel, (RoundRobin fuel [⟨"P1", 1, 0, 0⟩] 0).isSome) ∧
    RoundRobin 1 [⟨"P1", 0, 0, 0⟩] 0 = some ⟨[⟨"P1", 0, 0, 0⟩], [0], [0]⟩ ∧
    RoundRobin 3 [⟨"P1", 3, 0, 0⟩] (-1000000000) = none ∧
    (RoundRobin 4 [⟨"P1", 3, 0, 0⟩] (-1000000000)).map Output.table = some [⟨"P1", 3, 0, 3⟩] :=
  ⟨fun ⟨fuel, h⟩ => (by
      rw [RoundRobin_none_of_zero [⟨"P1", 1, 0, 0⟩]
        ⟨⟨"P1", 1, 0, 0⟩, by simp, by decide⟩ fuel] at h
      cases h),
   by decide, by decide, by decide⟩

/-! ## C6 – number of dequeue operations -/

/-- C6. For every quantum `q > 0` and every list of `n` jobs with positive bursts
of total `B`, the loop of `RoundRobin` terminates, and the number `k` of dequeue
operations it performs (the least fuel with which `RoundRobin` returns) is at
most `⌈B / q⌉ + n`. -/
theorem roundRobin_dequeue_bound (jobs : List Job) (tq : CInt) (hq : 0 < tq)
    (hpos : ∀ j ∈ jobs, 0 < j.bt) :
    ∃ k, k ≤ (ceilDiv (jobs.map (fun j => j.bt.val)).sum tq.val).toNat + jobs.length ∧
      (∀ fuel, (RoundRobin fuel jobs tq).isSome ↔ k ≤ fuel) ∧
      (RoundRobin ((ceilDiv (jobs.map (fun j => j.bt.val)).sum tq.val).toNat + jobs.length)
        jobs tq).isSome := by
  have hq' : 0 < tq.val := hq
  have hb := Exact.sum_turns_le (jobs.map toExact) tq.val hq' (toExact_pos jobs hpos)
  rw [totalBurst_toExact, List.length_map] at hb
  refine ⟨((jobs.map toExact).map (fun j => turns tq.val j.bt)).sum, hb, ?_, ?_⟩
  · intro fuel
    rw [RoundRobin_isSome_sim fuel jobs tq hq']
    exact Exact.RoundRobin_isSome_iff _ _ hq' fuel
  · rw [RoundRobin_isSome_sim _ jobs tq hq']
    exact (Exact.RoundRobin_isSome_iff _ _ hq' _).2 hb

/-- C6 at one job of burst 10 and quantum 4: the bound is `⌈10 / 4⌉ + 1 = 4`. -/
theorem roundRobin_dequeue_bound_witness :
    (ceilDiv ([(⟨"P1", 10, 0, 0⟩ : Job)].map (fun j => j.bt.val)).sum (4 : CInt).val).toNat
        + [(⟨"P1", 10, 0, 0⟩ : Job)].length = 4 ∧
    ∃ k, k ≤ (ceilDiv ([(⟨"P1", 10, 0, 0⟩ : Job)].map (fun j => j.bt.val)).sum
          (4 : CInt).val).toNat + [(⟨"P1", 10, 0, 0⟩ : Job)].length ∧
      (∀ fuel, (RoundRobin fuel [⟨"P1", 10, 0, 0⟩] 4).isSome ↔ k ≤ fuel) ∧
      (RoundRobin ((ceilDiv ([(⟨"P1", 10, 0, 0⟩ : Job)].map (fun j => j.bt.val)).sum
          (4 : CInt).val).toNat + [(⟨"P1", 10, 0, 0⟩ : Job)].length)
        [⟨"P1", 10, 0, 0⟩] 4).isSome :=
  ⟨by decide, roundRobin_dequeue_bound [⟨"P1", 10, 0, 0⟩] 4 (by decide) (by decide)⟩

/-! ## C8 – a quantum that covers every burst gives the first-come order -/

/-- C8, as the code has it.  When the quantum is at least every burst,
`RoundRobin` returns after `n` dequeue operations, and whatever fuel it returns
with, its waiting times are the vector the waiting-time loop of `FCFS` computes
on the input order: `wt[i]` is the sum of the bursts of the jobs before `i` in
the input, reduced modulo `2^32` into the range of `int`.  It is that sum itself
when no burst is negative and the bursts total at most `2147483647`. -/
theorem roundRobin_large_quantum_is_fcfs (jobs : List Job) (tq : CInt)
    (hq : ∀ j ∈ jobs, j.bt ≤ tq) :
    (∃ o, RoundRobin jobs.length jobs tq = some o) ∧
    ∀ fuel o, RoundRobin fuel jobs tq = some o →
      o.jobs = jobs ∧ o.wt.length = jobs.length ∧
      (∀ i, i < jobs.length → o.wt.getD i 0 = CInt.ofInt (burstBefore jobs i)) ∧
      o.wt = waitingLoop jobs jobs.length ∧
      ((∀ j ∈ jobs, 0 ≤ j.bt) → totalBurst jobs ≤ 2147483647 →
        ∀ i, i < jobs.length → (o.wt.getD i 0).val = burstBefore jobs i) := by
  have hrun := RoundRobin_large_quantum32 jobs tq hq
  refine ⟨⟨_, hrun⟩, ?_⟩
  intro fuel o ho
  have := RoundRobin_deterministic32 jobs tq _ _ _ _ ho hrun
  subst this
  exact ⟨rfl, waitingLoop_length32 _ _, fun i hi => waitingLoop_getD32 jobs _ i hi, rfl,
    fun hnn htot i hi =>
      waitingLoop_val jobs _ i hi (burstBefore_range_of_nonneg jobs hnn htot i)⟩

/-- C8 as amended, at the spec's scenario: bursts 5, 3, 2 with quantum 10 give
the waiting times 0, 5, 8. -/
theorem roundRobin_large_quantum_is_fcfs_witness :
    RoundRobin 3 [⟨"A", 5, 0, 0⟩, ⟨"B", 3, 0, 0⟩, ⟨"C", 2, 0, 0⟩] 10
      = some ⟨[⟨"A", 5, 0, 0⟩, ⟨"B", 3, 0, 0⟩, ⟨"C", 2, 0, 0⟩], [0, 5, 8], [5, 8, 10]⟩ ∧
    (⟨[⟨"A", 5, 0, 0⟩, ⟨"B", 3, 0, 0⟩, ⟨"C", 2, 0, 0⟩], [0, 5, 8], [5, 8, 10]⟩ : Output).wt
      = waitingLoop [⟨"A", 5, 0, 0⟩, ⟨"B", 3, 0, 0⟩, ⟨"C", 2, 0, 0⟩] 3 :=
  ⟨by decide,
   ((roundRobin_large_quantum_is_fcfs [⟨"A", 5, 0, 0⟩, ⟨"B", 3, 0, 0⟩, ⟨"C", 2, 0, 0⟩] 10
      (by decide)).2 3 _ (by decide)).2.2.2.1⟩

/-- C8 fails as stated: with three jobs of burst `2147483647` and quantum
`2147483647` the third job has the bursts `4294967294` before it, and its
waiting time is `-2`. -/
theorem large_quantum_overflow_counterexample :
    RoundRobin 3 [⟨"A", 2147483647, 0, 0⟩, ⟨"B", 2147483647, 0, 0⟩, ⟨"C", 2147483647, 0, 0⟩]
        2147483647
      = some ⟨[⟨"A", 2147483647, 0, 0⟩, ⟨"B", 2147483647, 0, 0⟩, ⟨"C", 2147483647, 0, 0⟩],
          [0, 2147483647, -2], [2147483647, -2, 2147483645]⟩ ∧
    burstBefore [⟨"A", 2147483647, 0, 0⟩, ⟨"B", 2147483647, 0, 0⟩, ⟨"C", 2147483647, 0, 0⟩] 2
      = 4294967294 ∧
    (∀ j ∈ ([⟨"A", 2147483647, 0, 0⟩, ⟨"B", 2147483647, 0, 0⟩, ⟨"C", 2147483647, 0, 0⟩] :
      List Job), j.bt ≤ (2147483647 : CInt)) :=
  ⟨by decide, by decide, by decide⟩

/-! ## C10 – bursts `≤ 0` -/

/-- C10, as the code has it.  No routine looks at the sign of a burst: whatever
the bursts are, `FCFS`, `SJF` and `PriorityScheduling` return one line per job,
the waiting time of a line being the sum of the bursts of the lines above it in
`int` arithmetic (reduced modulo `2^32` into the range of `int`), and
`RoundRobin` with a quantum `> 0` terminates and returns one line per job. -/
theorem nonpositive_burst_is_scheduled (S : StdSort) (jobs : List Job) :
    (∀ o, o = FCFS S jobs ∨ o = SJF S jobs ∨ o = PriorityScheduling S jobs →
      o.table.length = jobs.length ∧
      ∀ i, i < jobs.length → o.wt.getD i 0 = CInt.ofInt (burstBefore o.jobs i)) ∧
    (∀ tq : CInt, 0 < tq → ∃ fuel o, RoundRobin fuel jobs tq = some o ∧
      o.table.length = jobs.length) := by
  constructor
  · intro o ho
    refine ⟨output_table_length S jobs o (by tauto), ?_⟩
    obtain ⟨comp, hc, rfl⟩ := nonPreemptive_cases S jobs o ho
    intro i hi
    exact nonPreemptive_wt_getD S comp jobs i hi
  · intro tq hq
    obtain ⟨fuel, o, ho⟩ := RoundRobin_returns jobs tq hq
    exact ⟨fuel, o, ho,
      output_table_length S jobs o (Or.inr (Or.inr (Or.inr ⟨_, tq, ho⟩)))⟩

/-- C10 fails as stated: a list whose first job has burst `-3` is not rejected;
all four routines print a line for that job (with a negative turnaround time, and
a negative waiting time for the job after it). -/
theorem nonpositive_burst_counterexample :
    (FCFS stableStdSort [⟨"P1", -3, 0, 0⟩, ⟨"P2", 4, 1, 1⟩]).table
      = [⟨"P1", -3, 0, -3⟩, ⟨"P2", 4, -3, 1⟩] ∧
    (SJF stableStdSort [⟨"P1", -3, 0, 0⟩, ⟨"P2", 4, 1, 1⟩]).table
      = [⟨"P1", -3, 0, -3⟩, ⟨"P2", 4, -3, 1⟩] ∧
    (PriorityScheduling stableStdSort [⟨"P1", -3, 0, 0⟩, ⟨"P2", 4, 1, 1⟩]).table
      = [⟨"P1", -3, 0, -3⟩, ⟨"P2", 4, -3, 1⟩] ∧
    (RoundRobin 3 [⟨"P1", -3, 0, 0⟩, ⟨"P2", 4, 1, 1⟩] 2).map Output.table
      = some [⟨"P1", -3, 0, -3⟩, ⟨"P2", 4, -3, 1⟩] :=
  ⟨by decide, by decide, by decide, by decide⟩

/-! ## C7 – waiting times are not negative -/

/-- C7, as the code has it.  For every policy and every job list with positive
bursts that total at most `2147483647` (and, for `RoundRobin`, every quantum
`> 0`) the waiting time of every job is `≥ 0` and its turnaround time is at
least its burst, in the vectors and in every printed line; and `RoundRobin` does
return such a table for every quantum `> 0`. -/
theorem waiting_nonneg (S : StdSort) (jobs : List Job) (hpos : ∀ j ∈ jobs, 0 < j.bt)
    (htot : totalBurst jobs ≤ 2147483647) (o : Output)
    (h : o = FCFS S jobs ∨ o = SJF S jobs ∨ o = PriorityScheduling S jobs ∨
      ∃ fuel tq, 0 < tq ∧ RoundRobin fuel jobs tq = some o) :
    (∀ i, i < jobs.length →
      0 ≤ o.wt.getD i 0 ∧ (o.jobs.getD i default).bt ≤ o.tat.getD i 0) ∧
    (∀ row ∈ o.table, 0 ≤ row.wt ∧ row.bt ≤ row.tat) ∧
    (∀ tq : CInt, 0 < tq → ∃ fuel o', RoundRobin fuel jobs tq = some o') := by
  have hall : o = FCFS S jobs ∨ o = SJF S jobs ∨ o = PriorityScheduling S jobs ∨
      ∃ fuel tq, RoundRobin fuel jobs tq = some o := by
    rcases h with h | h | h | ⟨fuel, tq, -, h⟩
    · exact Or.inl h
    · exact Or.inr (Or.inl h)
    · exact Or.inr (Or.inr (Or.inl h))
    · exact Or.inr (Or.inr (Or.inr ⟨fuel, tq, h⟩))
  have hc1 := output_shape S jobs o hall
  have hboth : ∀ i, i < jobs.length →
      0 ≤ (o.wt.getD i 0).val ∧ (o.jobs.getD i default).bt.val ≤ (o.tat.getD i 0).val := by
    by_cases hnp : o = FCFS S jobs ∨ o = SJF S jobs ∨ o = PriorityScheduling S jobs
    · obtain ⟨comp, hc, rfl⟩ := nonPreemptive_cases S jobs o hnp
      have hperm := nonPreemptive_perm S comp jobs hc
      have hlen := nonPreemptive_length S comp jobs hc
      have hnn : ∀ j ∈ (nonPreemptive S comp jobs).jobs, 0 ≤ j.bt.val :=
        fun j hj => le_of_lt (hpos j (hperm.subset hj))
      have htot' : totalBurst (nonPreemptive S comp jobs).jobs ≤ 2147483647 := by
        rw [totalBurst_perm _ _ hperm]
        exact htot
      intro i hi
      have hw : ((nonPreemptive S comp jobs).wt.getD i 0).val
          = burstBefore (nonPreemptive S comp jobs).jobs i :=
        waitingLoop_val _ _ i hi (burstBefore_range_of_nonneg _ hnn htot' i)
      have hb1 := burstBefore_bounds _ hnn i
      have hb2 := burstBefore_bounds _ hnn (i + 1)
      have hs := burstBefore_succ32 (nonPreemptive S comp jobs).jobs i
      have ht := output_tat_getD S jobs _ hall i hi
      rw [ht, CInt.val_add, hw, wrap32_of_range _ (by omega) (by omega)]
      omega
    · have hrr : ∃ fuel tq, 0 < tq ∧ RoundRobin fuel jobs tq = some o := by tauto
      obtain ⟨fuel, tq, hq, hrr⟩ := hrr
      have hq' : 0 < tq.val := hq
      obtain ⟨z, hz, hval⟩ := RoundRobin_values jobs tq hq' hpos htot fuel o hrr
      obtain ⟨hj, -, -⟩ := hc1
      have hjobs : o.jobs = jobs := ((RoundRobin_eq_some_iff32 fuel jobs tq o).1 hrr).2 ▸ rfl
      intro i hi
      obtain ⟨h1, h2, -⟩ := exact_output_bounds _ _ hq' (toExact_pos jobs hpos) fuel z hz i
        (by simpa using hi)
      rw [getD_toExact_bt] at h2
      rw [(hval i hi).1, (hval i hi).2, hjobs]
      omega
  refine ⟨hboth, ?_, fun tq hq => RoundRobin_returns jobs tq hq⟩
  intro row hrow
  obtain ⟨i, hi, hb, hw, ht⟩ := mem_printResultTable _ _ _ row hrow
  rw [hc1.1] at hi
  rw [hb, hw, ht]
  exact hboth i hi

/-- C7 as amended, at bursts 10, 3, 7 under Round Robin with quantum 4: waiting
times 10, 4, 11 and turnaround times 20, 7, 18. -/
theorem waiting_nonneg_witness :
    RoundRobin 6 [⟨"A", 10, 0, 0⟩, ⟨"B", 3, 0, 0⟩, ⟨"C", 7, 0, 0⟩] 4
      = some ⟨[⟨"A", 10, 0, 0⟩, ⟨"B", 3, 0, 0⟩, ⟨"C", 7, 0, 0⟩], [10, 4, 11], [20, 7, 18]⟩ ∧
    ∀ row ∈ (⟨[⟨"A", 10, 0, 0⟩, ⟨"B", 3, 0, 0⟩, ⟨"C", 7, 0, 0⟩], [10, 4, 11], [20, 7, 18]⟩ :
        Output).table, 0 ≤ row.wt ∧ row.bt ≤ row.tat :=
  ⟨by decide,
   (waiting_nonneg stableStdSort [⟨"A", 10, 0, 0⟩, ⟨"B", 3, 0, 0⟩, ⟨"C", 7, 0, 0⟩]
      (by decide) (by decide) _
      (Or.inr (Or.inr (Or.inr ⟨6, 4, by decide, by decide⟩)))).2.1⟩

/-- C7 fails as stated: all bursts are positive, yet with bursts `2147483647`,
`1`, `1` in arrival order `FCFS` reports the waiting time `-2147483648` for the
third job and a turnaround time `-2147483648` below the burst `1` of the second;
and Round Robin with quantum `1000000000` on two jobs of burst `2147483647`
reports the turnaround times `-147483649` and `-2`. -/
theorem waiting_negative_counterexample :
    (∀ j ∈ ([⟨"A", 2147483647, 0, 0⟩, ⟨"B", 1, 1, 0⟩, ⟨"C", 1, 2, 0⟩] : List Job), 0 < j.bt) ∧
    (FCFS stableStdSort [⟨"A", 2147483647, 0, 0⟩, ⟨"B", 1, 1, 0⟩, ⟨"C", 1, 2, 0⟩])
      = ⟨[⟨"A", 2147483647, 0, 0⟩, ⟨"B", 1, 1, 0⟩, ⟨"C", 1, 2, 0⟩],
          [0, 2147483647, -2147483648], [2147483647, -2147483648, -2147483647]⟩ ∧
    ((FCFS stableStdSort [⟨"A", 2147483647, 0, 0⟩, ⟨"B", 1, 1, 0⟩, ⟨"C", 1, 2, 0⟩]).wt.getD 2 0
      < 0) ∧
    RoundRobin 6 [⟨"A", 2147483647, 0, 0⟩, ⟨"B", 2147483647, 0, 0⟩] 1000000000
      = some ⟨[⟨"A", 2147483647, 0, 0⟩, ⟨"B", 2147483647, 0, 0⟩],
          [2000000000, 2147483647], [-147483649, -2]⟩ :=
  ⟨by decide, by decide, by decide, by decide⟩

/-! ## C12 – Round Robin reports in input order -/

/-- C12. Whenever `RoundRobin` returns, the job list is the one passed in, line
`i` of the table carries the name and burst of the `i`-th input job, and its
waiting time is that job's own: whenever job `i` is dequeued with a remaining
burst within the quantum (its completion, at whatever pass `k` of the loop that
happens), `wt[i]` of the result is the clock after that pass minus the burst of
job `i`; the turnaround of the line is that burst plus that waiting time. -/
theorem roundRobin_reports_in_input_order (fuel : Nat) (jobs : List Job) (tq : CInt) (o : Output)
    (h : RoundRobin fuel jobs tq = some o) :
    o.jobs = jobs ∧ o.table.length = jobs.length ∧
    (∀ i, i < jobs.length → o.table[i]? = some
      ⟨(jobs.getD i default).pname, (jobs.getD i default).bt, o.wt.getD i 0,
        (jobs.getD i default).bt + o.wt.getD i 0⟩) ∧
    (∀ k i rest, (rrRun jobs tq k (rrInit jobs)).q = i :: rest →
      (rrRun jobs tq k (rrInit jobs)).rem_bt.getD i 0 ≤ tq →
      o.wt.getD i 0 = (rrRun jobs tq (k + 1) (rrInit jobs)).time - (jobs.getD i default).bt) := by
  obtain ⟨hq, rfl⟩ := (RoundRobin_eq_some_iff32 fuel jobs tq o).1 h
  refine ⟨rfl, printResultTable_length _ _ _, ?_, ?_⟩
  · intro i hi
    rw [Output.table, printResultTable_getElem? _ _ _ i hi]
    simp only
    rw [turnaroundLoop_getD32 _ _ _ _ hi]
  · intro k i rest hk hrem
    simp only
    have hwf := rrRun_wellFormed32 jobs tq k
    have hnd : (i :: rest).Nodup := by rw [← hk]; exact hwf.1.1
    have hi : i < jobs.length := by
      have := hwf.1.2 i (by rw [hk]; exact List.mem_cons_self _ _)
      omega
    have hfuel : k + 1 ≤ fuel := by
      by_contra hlt
      have := rrRun_stable32 jobs tq fuel k (rrInit jobs) (by omega) hq
      rw [this, hq] at hk
      cases hk
    have hstep := rrRun_succ_of_cons32 jobs tq k (rrInit jobs) i rest hk
    have hbody : rrBody jobs tq (rrRun jobs tq k (rrInit jobs)) i rest =
        { q := rest
          rem_bt := (rrRun jobs tq k (rrInit jobs)).rem_bt.set i 0
          wt := (rrRun jobs tq k (rrInit jobs)).wt.set i
            ((rrRun jobs tq k (rrInit jobs)).time
              + (rrRun jobs tq k (rrInit jobs)).rem_bt.getD i 0 - (jobs.getD i default).bt)
          time := (rrRun jobs tq k (rrInit jobs)).time
            + (rrRun jobs tq k (rrInit jobs)).rem_bt.getD i 0 } := by
      have hrem' : ¬ tq.val < ((rrRun jobs tq k (rrInit jobs)).rem_bt.getD i 0).val :=
        not_lt.2 hrem
      unfold rrBody
      exact if_neg hrem'
    rw [show fuel = (k + 1) + (fuel - (k + 1)) by omega, rrRun_add32]
    apply rrRun_wt_frozen32
    · rw [hstep, hbody]
      exact (List.nodup_cons.1 hnd).1
    · rw [hstep, hbody]
      simp only
      rw [Exact.getD_set_eq _ _ _ _ (by omega)]

/-- C12 at bursts 10, 3, 7 with quantum 4: the jobs complete in the order
`B`, `C`, `A`, the table lists them as `A`, `B`, `C`; its second line is the
line of `B`. -/
theorem roundRobin_reports_in_input_order_witness :
    RoundRobin 6 [⟨"A", 10, 0, 0⟩, ⟨"B", 3, 0, 0⟩, ⟨"C", 7, 0, 0⟩] 4
      = some ⟨[⟨"A", 10, 0, 0⟩, ⟨"B", 3, 0, 0⟩, ⟨"C", 7, 0, 0⟩], [10, 4, 11], [20, 7, 18]⟩ ∧
    (Output.table
      ⟨[⟨"A", 10, 0, 0⟩, ⟨"B", 3, 0, 0⟩, ⟨"C", 7, 0, 0⟩], [10, 4, 11], [20, 7, 18]⟩)[1]?
      = some ⟨"B", 3, 4, 7⟩ :=
  ⟨by decide,
   (roundRobin_reports_in_input_order 6 [⟨"A", 10, 0, 0⟩, ⟨"B", 3, 0, 0⟩, ⟨"C", 7, 0, 0⟩] 4
      ⟨[⟨"A", 10, 0, 0⟩, ⟨"B", 3, 0, 0⟩, ⟨"C", 7, 0, 0⟩], [10, 4, 11], [20, 7, 18]⟩
      (by decide)).2.2.1 1 (by decide)⟩

/-! ## C13 – a single job -/

/-- C13. For a single job with burst `b > 0` and a quantum `q > 0`, `RoundRobin`
returns (with `⌈b / q⌉` dequeue operations, and with any fuel it returns with)
waiting time `0` and turnaround time `b`, and the clock after the `k`-th pass
through the loop is `min (k * q) b`: it takes the values `q, 2q, ...` and
finally `b`. -/
theorem roundRobin_single_job (j : Job) (tq : CInt) (hb : 0 < j.bt) (hq : 0 < tq) :
    RoundRobin (turns tq.val j.bt.val) [j] tq = some ⟨[j], [0], [j.bt]⟩ ∧
    (∀ fuel o, RoundRobin fuel [j] tq = some o → o = ⟨[j], [0], [j.bt]⟩) ∧
    (∀ k : Nat, (rrRun [j] tq k (rrInit [j])).time.val = min (k * tq.val) j.bt.val) := by
  have hb' : 0 < j.bt.val := hb
  have hq' : 0 < tq.val := hq
  obtain ⟨e1, e2, e3⟩ := Exact.exact_single_job (toExact j) tq.val hb' hq'
  have hout : (⟨[j], List.map CInt.ofInt [0], List.map CInt.ofInt [(toExact j).bt]⟩ : Output)
      = ⟨[j], [0], [j.bt]⟩ := by
    simp only [List.map_cons, List.map_nil]
    rw [show (toExact j).bt = j.bt.val from rfl, CInt.ofInt_val]
    rfl
  refine ⟨?_, ?_, ?_⟩
  · rw [← hout]
    exact (RoundRobin_sim _ [j] tq hq' _).2 ⟨_, e1, rfl⟩
  · intro fuel o ho
    obtain ⟨z, hz, rfl⟩ := (RoundRobin_sim fuel [j] tq hq' o).1 ho
    have := e2 fuel z hz
    subst this
    exact hout
  · intro k
    have hs := (sim_rrRun [j] tq hq' k).2.2.2
    have hk := e3 k
    have hnn : 0 ≤ (k : Int) * tq.val := by positivity
    have hhi := j.bt.hi
    rw [hs]
    change (CInt.ofInt (Exact.rrRun [toExact j] tq.val k (Exact.rrInit [toExact j])).time).val = _
    rw [hk, show (toExact j).bt = j.bt.val from rfl]
    exact CInt.val_ofInt_of_range _ (by omega) (by omega)

/-- C13 at the spec's scenario, burst 10 and quantum 4: the clock goes 4, 8, 10,
the waiting time is 0 and the turnaround time 10. -/
theorem roundRobin_single_job_witness :
    RoundRobin 3 [⟨"P1", 10, 0, 0⟩] 4 = some ⟨[⟨"P1", 10, 0, 0⟩], [0], [10]⟩ ∧
    (List.range 4).map (fun k => (rrRun [⟨"P1", 10, 0, 0⟩] 4 k (rrInit [⟨"P1", 10, 0, 0⟩])).time)
      = [0, 4, 8, 10] :=
  ⟨(roundRobin_single_job ⟨"P1", 10, 0, 0⟩ 4 (by decide) (by decide)).1, by decide⟩

/-! ## C14 – shortest job first minimises the total waiting time -/

/-- Total waiting time of `SJF` against any arrangement of the jobs. -/
theorem sjf_total_le (S : StdSort) (jobs p : List Job)
    (htot : totalAbsBurst jobs ≤ 2147483647) (hp : p.Perm jobs) :
    ((SJF S jobs).wt.map CInt.val).sum ≤ ((waitingLoop p p.length).map CInt.val).sum := by
  have hperm : (SJF S jobs).jobs.Perm jobs := nonPreemptive_perm S byBurst jobs byBurst_swo
  have hwt : (SJF S jobs).wt = waitingLoop (SJF S jobs).jobs (SJF S jobs).jobs.length :=
    nonPreemptive_wt_loop S byBurst jobs byBurst_swo
  rw [hwt, sum_waitingLoop_val _ (burstBefore_range_of_abs _
      (by rw [totalAbsBurst_perm _ _ hperm]; exact htot)),
    sum_waitingLoop_val _ (burstBefore_range_of_abs _
      (by rw [totalAbsBurst_perm _ _ hp]; exact htot))]
  apply Exact.waitingCost_sorted_le
  · rw [List.pairwise_map]
    exact sort_pairwise_key S (fun j => j.bt.val) jobs
  · exact (hp.trans hperm.symm).map _

/-- C14, as the code has it.  For every job list in which the absolute values of
the bursts total at most `2147483647`, the sum of the waiting times reported by
`SJF` is at most the sum of the waiting times that the rule `wt[0] = 0`,
`wt[i] = wt[i-1] + bt[i-1]` gives on any other ordering of the same jobs; in
particular it is at most the totals reported by `FCFS` and by
`PriorityScheduling` on that list. -/
theorem sjf_minimises_total_waiting (S : StdSort) (jobs : List Job)
    (htot : totalAbsBurst jobs ≤ 2147483647) :
    (∀ p : List Job, p.Perm jobs →
      ((SJF S jobs).wt.map CInt.val).sum ≤ ((waitingLoop p p.length).map CInt.val).sum) ∧
    ((SJF S jobs).wt.map CInt.val).sum ≤ ((FCFS S jobs).wt.map CInt.val).sum ∧
    ((SJF S jobs).wt.map CInt.val).sum ≤ ((PriorityScheduling S jobs).wt.map CInt.val).sum := by
  refine ⟨fun p hp => sjf_total_le S jobs p htot hp, ?_, ?_⟩
  · have h := sjf_total_le S jobs (FCFS S jobs).jobs htot
      (nonPreemptive_perm S byArrival jobs byArrival_swo)
    have hw : (FCFS S jobs).wt = waitingLoop (FCFS S jobs).jobs (FCFS S jobs).jobs.length :=
      nonPreemptive_wt_loop S byArrival jobs byArrival_swo
    rw [hw]
    exact h
  · have h := sjf_total_le S jobs (PriorityScheduling S jobs).jobs htot
      (nonPreemptive_perm S byPriority jobs byPriority_swo)
    have hw : (PriorityScheduling S jobs).wt = waitingLoop (PriorityScheduling S jobs).jobs
        (PriorityScheduling S jobs).jobs.length :=
      nonPreemptive_wt_loop S byPriority jobs byPriority_swo
    rw [hw]
    exact h

/-- C14 as amended, at bursts 5, 3, 8 in arrival order: `SJF` totals 11 and
`FCFS` totals 13. -/
theorem sjf_minimises_total_waiting_witness :
    ((SJF stableStdSort [⟨"P1", 5, 0, 0⟩, ⟨"P2", 3, 1, 0⟩, ⟨"P3", 8, 2, 0⟩]).wt.map CInt.val).sum
      = 11 ∧
    ((FCFS stableStdSort [⟨"P1", 5, 0, 0⟩, ⟨"P2", 3, 1, 0⟩, ⟨"P3", 8, 2, 0⟩]).wt.map CInt.val).sum
      = 13 ∧
    ((SJF stableStdSort [⟨"P1", 5, 0, 0⟩, ⟨"P2", 3, 1, 0⟩, ⟨"P3", 8, 2, 0⟩]).wt.map CInt.val).sum
      ≤ ((FCFS stableStdSort
          [⟨"P1", 5, 0, 0⟩, ⟨"P2", 3, 1, 0⟩, ⟨"P3", 8, 2, 0⟩]).wt.map CInt.val).sum :=
  ⟨by decide, by decide,
   (sjf_minimises_total_waiting stableStdSort
      [⟨"P1", 5, 0, 0⟩, ⟨"P2", 3, 1, 0⟩, ⟨"P3", 8, 2, 0⟩] (by decide)).2.1⟩

/-- C14 fails as stated: with bursts `2147483647`, `1`, `1` in arrival order
`SJF` reports the waiting times `0, 1, 2`, total `3`, and `FCFS` reports
`0, 2147483647, -2147483648`, total `-1`. -/
theorem sjf_total_counterexample :
    (SJF stableStdSort [⟨"A", 2147483647, 0, 0⟩, ⟨"B", 1, 1, 0⟩, ⟨"C", 1, 2, 0⟩]).wt
      = [0, 1, 2] ∧
    (FCFS stableStdSort [⟨"A", 2147483647, 0, 0⟩, ⟨"B", 1, 1, 0⟩, ⟨"C", 1, 2, 0⟩]).wt
      = [0, 2147483647, -2147483648] ∧
    ¬ (((SJF stableStdSort
          [⟨"A", 2147483647, 0, 0⟩, ⟨"B", 1, 1, 0⟩, ⟨"C", 1, 2, 0⟩]).wt.map CInt.val).sum
        ≤ ((FCFS stableStdSort
          [⟨"A", 2147483647, 0, 0⟩, ⟨"B", 1, 1, 0⟩, ⟨"C", 1, 2, 0⟩]).wt.map CInt.val).sum) :=
  ⟨by decide, by decide, by decide⟩

/-! ## C16 – the clock never goes back -/

/-- With a quantum `> 0`, positive bursts and a total burst within the range of
`int`, the clock of the program reads what the exact clock reads. -/
theorem rrRun_time_val (jobs : List Job) (tq : CInt) (hq : 0 < tq.val)
    (hpos : ∀ j ∈ jobs, 0 < j.bt.val) (htot : totalBurst jobs ≤ 2147483647) (k : Nat) :
    (rrRun jobs tq k (rrInit jobs)).time.val
      = (Exact.rrRun (jobs.map toExact) tq.val k (Exact.rrInit (jobs.map toExact))).time := by
  have hs := (sim_rrRun jobs tq hq k).2.2.2
  have hb := exact_clock_bounds (jobs.map toExact) tq.val hq (toExact_pos jobs hpos) k
  rw [totalBurst_toExact] at hb
  rw [hs]
  exact CInt.val_ofInt_of_range _ (by omega) (by omega)

/-- C16, as the code has it.  In the `RoundRobin` loop with a quantum `> 0` and
positive bursts that total at most `2147483647` the clock starts at `0` and
never decreases from one pass to the next: every dequeue advances it by a
positive amount that is at most the quantum, and once the queue is empty it
stands still. -/
theorem clock_monotone (jobs : List Job) (tq : CInt) (hq : 0 < tq)
    (hpos : ∀ j ∈ jobs, 0 < j.bt) (htot : totalBurst jobs ≤ 2147483647) :
    (rrInit jobs).time = 0 ∧
    ∀ k, (rrRun jobs tq k (rrInit jobs)).time ≤ (rrRun jobs tq (k + 1) (rrInit jobs)).time ∧
      ((rrRun jobs tq k (rrInit jobs)).q ≠ [] →
        0 < (rrRun jobs tq (k + 1) (rrInit jobs)).time.val
              - (rrRun jobs tq k (rrInit jobs)).time.val ∧
        (rrRun jobs tq (k + 1) (rrInit jobs)).time.val
              - (rrRun jobs tq k (rrInit jobs)).time.val ≤ tq.val) ∧
      ((rrRun jobs tq k (rrInit jobs)).q = [] →
        (rrRun jobs tq (k + 1) (rrInit jobs)).time = (rrRun jobs tq k (rrInit jobs)).time) := by
  have hq' : 0 < tq.val := hq
  refine ⟨rfl, ?_⟩
  intro k
  obtain ⟨h1, h2, -⟩ :=
    (Exact.exact_clock_monotone (jobs.map toExact) tq.val hq' (toExact_pos jobs hpos)).2 k
  have e1 := rrRun_time_val jobs tq hq' hpos htot k
  have e2 := rrRun_time_val jobs tq hq' hpos htot (k + 1)
  have hqe := (sim_rrRun jobs tq hq' k).1
  refine ⟨?_, ?_, ?_⟩
  · show (rrRun jobs tq k (rrInit jobs)).time.val ≤ (rrRun jobs tq (k + 1) (rrInit jobs)).time.val
    rw [e1, e2]
    exact h1
  · intro hne
    rw [e1, e2]
    exact h2 (by rw [hqe]; exact hne)
  · intro hnil
    rw [rrRun_succ_of_nil32 _ _ _ _ hnil]

/-- C16 as amended, at bursts 10, 3, 7 with quantum 4: the clock reads 0, 4, 7,
11, 15, 18, 20 and stays at 20. -/
theorem clock_monotone_witness :
    (List.range 8).map (fun k =>
      (rrRun [⟨"A", 10, 0, 0⟩, ⟨"B", 3, 0, 0⟩, ⟨"C", 7, 0, 0⟩] 4 k
        (rrInit [⟨"A", 10, 0, 0⟩, ⟨"B", 3, 0, 0⟩, ⟨"C", 7, 0, 0⟩])).time)
      = [0, 4, 7, 11, 15, 18, 20, 20] ∧
    (rrRun [⟨"A", 10, 0, 0⟩, ⟨"B", 3, 0, 0⟩, ⟨"C", 7, 0, 0⟩] 4 2
        (rrInit [⟨"A", 10, 0, 0⟩, ⟨"B", 3, 0, 0⟩, ⟨"C", 7, 0, 0⟩])).time
      ≤ (rrRun [⟨"A", 10, 0, 0⟩, ⟨"B", 3, 0, 0⟩, ⟨"C", 7, 0, 0⟩] 4 (2 + 1)
        (rrInit [⟨"A", 10, 0, 0⟩, ⟨"B", 3, 0, 0⟩, ⟨"C", 7, 0, 0⟩])).time :=
  ⟨by decide,
   ((clock_monotone [⟨"A", 10, 0, 0⟩, ⟨"B", 3, 0, 0⟩, ⟨"C", 7, 0, 0⟩] 4 (by decide)
      (by decide) (by decide)).2 2).1⟩

/-- C16 fails as stated: with two jobs of burst `2147483647` and quantum
`1000000000` the clock reads `2000000000` after the second pass and
`-1294967296` after the third. -/
theorem clock_overflow_counterexample :
    (List.range 8).map (fun k =>
      (rrRun [⟨"A", 2147483647, 0, 0⟩, ⟨"B", 2147483647, 0, 0⟩] 1000000000 k
        (rrInit [⟨"A", 2147483647, 0, 0⟩, ⟨"B", 2147483647, 0, 0⟩])).time)
      = [0, 1000000000, 2000000000, -1294967296, -294967296, -147483649, -2, -2] ∧
    ¬ ((rrRun [⟨"A", 2147483647, 0, 0⟩, ⟨"B", 2147483647, 0, 0⟩] 1000000000 2
        (rrInit [⟨"A", 2147483647, 0, 0⟩, ⟨"B", 2147483647, 0, 0⟩])).time
      ≤ (rrRun [⟨"A", 2147483647, 0, 0⟩, ⟨"B", 2147483647, 0, 0⟩] 1000000000 (2 + 1)
        (rrInit [⟨"A", 2147483647, 0, 0⟩, ⟨"B", 2147483647, 0, 0⟩])).time) :=
  ⟨by decide, by decide⟩

/-! ## C17 – closed form of the Round Robin waiting times -/

/-- C17, as the code has it.  For every quantum `q > 0` and every job list with
positive bursts `b_0 .. b_{n-1}`, `RoundRobin` returns, and with
`r_i = ⌈b_i / q⌉` the round in which job `i` finishes every table it returns has
`wt[i] = Σ_{j < i} min b_j (r_i * q) + Σ_{j > i} min b_j ((r_i - 1) * q)`
reduced modulo `2^32` into the range of `int`; `wt[i]` is that number itself
when the bursts total at most `2147483647`. -/
theorem roundRobin_closed_form (jobs : List Job) (tq : CInt) (hq : 0 < tq)
    (hpos : ∀ j ∈ jobs, 0 < j.bt) :
    (∃ fuel o, RoundRobin fuel jobs tq = some o) ∧
    ∀ fuel o, RoundRobin fuel jobs tq = some o →
      o.wt.length = jobs.length ∧
      ∀ i, i < jobs.length →
        o.wt.getD i 0 = CInt.ofInt
          (((List.range i).map (fun j =>
              min (jobs.getD j default).bt.val
                (ceilDiv (jobs.getD i default).bt.val tq.val * tq.val))).sum
          + ((List.range' (i + 1) (jobs.length - (i + 1))).map (fun j =>
              min (jobs.getD j default).bt.val
                ((ceilDiv (jobs.getD i default).bt.val tq.val - 1) * tq.val))).sum) ∧
        (totalBurst jobs ≤ 2147483647 →
          (o.wt.getD i 0).val =
            ((List.range i).map (fun j =>
                min (jobs.getD j default).bt.val
                  (ceilDiv (jobs.getD i default).bt.val tq.val * tq.val))).sum
            + ((List.range' (i + 1) (jobs.length - (i + 1))).map (fun j =>
                min (jobs.getD j default).bt.val
                  ((ceilDiv (jobs.getD i default).bt.val tq.val - 1) * tq.val))).sum) := by
  have hq' : 0 < tq.val := hq
  refine ⟨RoundRobin_returns jobs tq hq, ?_⟩
  intro fuel o ho
  obtain ⟨z, hz, ho'⟩ := (RoundRobin_sim fuel jobs tq hq' o).1 ho
  have hcl := Exact.RoundRobin_wt_closed (jobs.map toExact) tq.val hq' (toExact_pos jobs hpos)
    fuel z hz
  have hcf : ∀ i, i < jobs.length → z.wt.getD i 0 =
      ((List.range i).map (fun j =>
          min (jobs.getD j default).bt.val
            (ceilDiv (jobs.getD i default).bt.val tq.val * tq.val))).sum
      + ((List.range' (i + 1) (jobs.length - (i + 1))).map (fun j =>
          min (jobs.getD j default).bt.val
            ((ceilDiv (jobs.getD i default).bt.val tq.val - 1) * tq.val))).sum := by
    intro i hi
    rw [hcl, Exact.getD_map_range _ _ _ (by simpa using hi)]
    simp only [Exact.rrClosedForm, getD_toExact_bt, List.length_map]
  have hwt : o.wt = z.wt.map CInt.ofInt := by rw [ho']
  refine ⟨?_, fun i hi => ⟨?_, ?_⟩⟩
  · rw [hwt, hcl]
    simp
  · rw [hwt, getD_map_ofInt, hcf i hi]
  · intro htot
    obtain ⟨z', hz', hval⟩ := RoundRobin_values jobs tq hq' hpos htot fuel o ho
    rw [hz] at hz'
    cases hz'
    rw [(hval i hi).1, hcf i hi]

/-- C17 as amended, at bursts 10, 3, 7 with quantum 4: the rounds are 3, 1, 2
and the waiting times `3 + 7`, `4 + 0`, `8 + 3`. -/
theorem roundRobin_closed_form_witness :
    RoundRobin 6 [⟨"A", 10, 0, 0⟩, ⟨"B", 3, 0, 0⟩, ⟨"C", 7, 0, 0⟩] 4
      = some ⟨[⟨"A", 10, 0, 0⟩, ⟨"B", 3, 0, 0⟩, ⟨"C", 7, 0, 0⟩], [10, 4, 11], [20, 7, 18]⟩ ∧
    (10 : CInt) = CInt.ofInt (((List.range 0).map (fun j =>
            min (([⟨"A", 10, 0, 0⟩, ⟨"B", 3, 0, 0⟩, ⟨"C", 7, 0, 0⟩] : List Job).getD j
                default).bt.val
              (ceilDiv (([⟨"A", 10, 0, 0⟩, ⟨"B", 3, 0, 0⟩, ⟨"C", 7, 0, 0⟩] : List Job).getD 0
                default).bt.val (4 : CInt).val * (4 : CInt).val))).sum
        + ((List.range' (0 + 1)
              (([⟨"A", 10, 0, 0⟩, ⟨"B", 3, 0, 0⟩, ⟨"C", 7, 0, 0⟩] : List Job).length
                - (0 + 1))).map (fun j =>
            min (([⟨"A", 10, 0, 0⟩, ⟨"B", 3, 0, 0⟩, ⟨"C", 7, 0, 0⟩] : List Job).getD j
                default).bt.val
              ((ceilDiv (([⟨"A", 10, 0, 0⟩, ⟨"B", 3, 0, 0⟩, ⟨"C", 7, 0, 0⟩] : List Job).getD 0
                default).bt.val (4 : CInt).val - 1) * (4 : CInt).val))).sum) :=
  ⟨by decide,
   (((roundRobin_closed_form [⟨"A", 10, 0, 0⟩, ⟨"B", 3, 0, 0⟩, ⟨"C", 7, 0, 0⟩] 4 (by decide)
      (by decide)).2 6
      ⟨[⟨"A", 10, 0, 0⟩, ⟨"B", 3, 0, 0⟩, ⟨"C", 7, 0, 0⟩], [10, 4, 11], [20, 7, 18]⟩
      (by decide)).2 0 (by decide)).1⟩

/-- C17 fails as stated: with three jobs of burst `2147483647` and quantum
`2147483647` the closed form gives `4294967294` for the third job, and the
waiting time reported for it is `-2`. -/
theorem closed_form_overflow_counterexample :
    RoundRobin 3 [⟨"A", 2147483647, 0, 0⟩, ⟨"B", 2147483647, 0, 0⟩, ⟨"C", 2147483647, 0, 0⟩]
        2147483647
      = some ⟨[⟨"A", 2147483647, 0, 0⟩, ⟨"B", 2147483647, 0, 0⟩, ⟨"C", 2147483647, 0, 0⟩],
          [0, 2147483647, -2], [2147483647, -2, 2147483645]⟩ ∧
    ((List.range 2).map (fun j =>
        min (([⟨"A", 2147483647, 0, 0⟩, ⟨"B", 2147483647, 0, 0⟩, ⟨"C", 2147483647, 0, 0⟩] :
            List Job).getD j default).bt.val
          (ceilDiv (2147483647 : CInt).val (2147483647 : CInt).val
            * (2147483647 : CInt).val))).sum
      + ((List.range' (2 + 1) (3 - (2 + 1))).map (fun j =>
        min (([⟨"A", 2147483647, 0, 0⟩, ⟨"B", 2147483647, 0, 0⟩, ⟨"C", 2147483647, 0, 0⟩] :
            List Job).getD j default).bt.val
          ((ceilDiv (2147483647 : CInt).val (2147483647 : CInt).val - 1)
            * (2147483647 : CInt).val))).sum
      = 4294967294 ∧
    (RoundRobin 3 [⟨"A", 2147483647, 0, 0⟩, ⟨"B", 2147483647, 0, 0⟩, ⟨"C", 2147483647, 0, 0⟩]
        2147483647).map (fun o => (o.wt.getD 2 0).val) = some (-2) :=
  ⟨by decide, by decide, by decide⟩

/-! ## C18 – no idle gaps, every job completes -/

/-- C18, as the code has it.  For every quantum `q > 0` and every non-empty job
list with positive bursts that total at most `2147483647`: the loop performs
some number `K > 0` of dequeue operations; when it has ended every
remaining-burst counter is `0` and the clock is the sum of all bursts; every
turnaround time is at most that sum; and the job dequeued in the last pass, the
one that finishes last, has exactly that sum as turnaround time. -/
theorem roundRobin_no_idle_gaps (jobs : List Job) (tq : CInt) (hq : 0 < tq)
    (hpos : ∀ j ∈ jobs, 0 < j.bt) (hne : jobs ≠ []) (htot : totalBurst jobs ≤ 2147483647) :
    ∃ K, 0 < K ∧ (∀ fuel, (RoundRobin fuel jobs tq).isSome ↔ K ≤ fuel) ∧
      (∀ fuel, K ≤ fuel →
        (rrRun jobs tq fuel (rrInit jobs)).q = [] ∧
        (∀ j, j < jobs.length → (rrRun jobs tq fuel (rrInit jobs)).rem_bt.getD j 0 = 0) ∧
        (rrRun jobs tq fuel (rrInit jobs)).time.val = totalBurst jobs) ∧
      (∀ fuel o, RoundRobin fuel jobs tq = some o →
        (∀ i, i < jobs.length → (o.tat.getD i 0).val ≤ totalBurst jobs) ∧
        ∃ i, (rrRun jobs tq (K - 1) (rrInit jobs)).q = [i] ∧ i < jobs.length ∧
          (o.tat.getD i 0).val = totalBurst jobs) := by
  have hq' : 0 < tq.val := hq
  have hne' : jobs.map toExact ≠ [] := by
    intro h
    exact hne (List.map_eq_nil_iff.1 h)
  obtain ⟨K, hK0, hKiff, hKend, hKout⟩ :=
    Exact.exact_no_idle_gaps (jobs.map toExact) tq.val hq' (toExact_pos jobs hpos) hne'
  rw [totalBurst_toExact] at hKend hKout
  simp only [List.length_map] at hKend hKout
  refine ⟨K, hK0, ?_, ?_, ?_⟩
  · intro fuel
    rw [RoundRobin_isSome_sim fuel jobs tq hq']
    exact hKiff fuel
  · intro fuel hf
    obtain ⟨h1, h2, h3⟩ := hKend fuel hf
    obtain ⟨s1, s2, -, -⟩ := sim_rrRun jobs tq hq' fuel
    refine ⟨s1.symm.trans h1, ?_, ?_⟩
    · intro j hj
      have := h2 j hj
      rw [s2, getD_map_val] at this
      exact CInt.eq_of_val _ _ this
    · rw [rrRun_time_val jobs tq hq' hpos htot fuel]
      exact h3
  · intro fuel o ho
    obtain ⟨z, hz, hval⟩ := RoundRobin_values jobs tq hq' hpos htot fuel o ho
    obtain ⟨h1, i, h2, h3, h4⟩ := hKout fuel z hz
    refine ⟨?_, i, ?_, h3, ?_⟩
    · intro i hi
      rw [(hval i hi).2]
      exact h1 i hi
    · rw [← (sim_rrRun jobs tq hq' (K - 1)).1]
      exact h2
    · rw [(hval i h3).2]
      exact h4

/-- C18 as amended, at bursts 10, 3, 7 with quantum 4: six dequeue operations,
the clock ends at 20, and `A`, dequeued last, has turnaround time 20. -/
theorem roundRobin_no_idle_gaps_witness :
    (rrRun [⟨"A", 10, 0, 0⟩, ⟨"B", 3, 0, 0⟩, ⟨"C", 7, 0, 0⟩] 4 6
        (rrInit [⟨"A", 10, 0, 0⟩, ⟨"B", 3, 0, 0⟩, ⟨"C", 7, 0, 0⟩]))
      = ⟨[], [0, 0, 0], [10, 4, 11], 20⟩ ∧
    (rrRun [⟨"A", 10, 0, 0⟩, ⟨"B", 3, 0, 0⟩, ⟨"C", 7, 0, 0⟩] 4 5
        (rrInit [⟨"A", 10, 0, 0⟩, ⟨"B", 3, 0, 0⟩, ⟨"C", 7, 0, 0⟩])).q = [0] ∧
    ∃ K, 0 < K ∧
      (∀ fuel, (RoundRobin fuel [⟨"A", 10, 0, 0⟩, ⟨"B", 3, 0, 0⟩, ⟨"C", 7, 0, 0⟩] 4).isSome
        ↔ K ≤ fuel) :=
  ⟨by decide, by decide,
   (roundRobin_no_idle_gaps [⟨"A", 10, 0, 0⟩, ⟨"B", 3, 0, 0⟩, ⟨"C", 7, 0, 0⟩] 4 (by decide)
      (by decide) (by decide) (by decide)).imp (fun _ h => ⟨h.1, h.2.1⟩)⟩

/-- C18 fails as stated: with two jobs of burst `2147483647` and quantum
`1000000000` the loop ends after six dequeue operations with the clock at `-2`,
the bursts totalling `4294967294`; the turnaround times reported are
`-147483649` and `-2`. -/
theorem no_idle_gaps_overflow_counterexample :
    (rrRun [⟨"A", 2147483647, 0, 0⟩, ⟨"B", 2147483647, 0, 0⟩] 1000000000 6
        (rrInit [⟨"A", 2147483647, 0, 0⟩, ⟨"B", 2147483647, 0, 0⟩]))
      = ⟨[], [0, 0], [2000000000, 2147483647], -2⟩ ∧
    totalBurst [⟨"A", 2147483647, 0, 0⟩, ⟨"B", 2147483647, 0, 0⟩] = 4294967294 ∧
    RoundRobin 6 [⟨"A", 2147483647, 0, 0⟩, ⟨"B", 2147483647, 0, 0⟩] 1000000000
      = some ⟨[⟨"A", 2147483647, 0, 0⟩, ⟨"B", 2147483647, 0, 0⟩],
          [2000000000, 2147483647], [-147483649, -2]⟩ ∧
    (rrRun [⟨"A", 2147483647, 0, 0⟩, ⟨"B", 2147483647, 0, 0⟩] 1000000000 6
        (rrInit [⟨"A", 2147483647, 0, 0⟩, ⟨"B", 2147483647, 0, 0⟩])).time.val
      ≠ totalBurst [⟨"A", 2147483647, 0, 0⟩, ⟨"B", 2147483647, 0, 0⟩] :=
  ⟨by decide, by decide, by decide, by decide⟩

/-! ## C19 – a longer, later job never overtakes a shorter, earlier one -/

/-- C19, as the code has it.  For every quantum `q > 0` and every job list with
positive bursts that total at most `2147483647`, if job `i` comes before job `j`
in the input and `bt[i] ≤ bt[j]`, then in every table `RoundRobin` returns (and
it does return one) job `i` has the strictly smaller turnaround time: it
completes strictly before job `j`. -/
theorem roundRobin_no_overtaking (jobs : List Job) (tq : CInt) (hq : 0 < tq)
    (hpos : ∀ j ∈ jobs, 0 < j.bt) (htot : totalBurst jobs ≤ 2147483647)
    (i j : Nat) (hij : i < j) (hj : j < jobs.length)
    (hb : (jobs.getD i default).bt ≤ (jobs.getD j default).bt) :
    (∃ fuel o, RoundRobin fuel jobs tq = some o) ∧
    ∀ fuel o, RoundRobin fuel jobs tq = some o → o.tat.getD i 0 < o.tat.getD j 0 := by
  have hq' : 0 < tq.val := hq
  refine ⟨RoundRobin_returns jobs tq hq, ?_⟩
  intro fuel o ho
  obtain ⟨z, hz, hval⟩ := RoundRobin_values jobs tq hq' hpos htot fuel o ho
  have hb' : ((jobs.map toExact).getD i default).bt ≤ ((jobs.map toExact).getD j default).bt := by
    rw [getD_toExact_bt, getD_toExact_bt]
    exact hb
  have h := (Exact.exact_no_overtaking (jobs.map toExact) tq.val hq' (toExact_pos jobs hpos)
    i j hij (by simpa using hj) hb').2 fuel z hz
  show (o.tat.getD i 0).val < (o.tat.getD j 0).val
  rw [(hval i (by omega)).2, (hval j hj).2]
  exact h

/-- C19 as amended, at bursts 3, 10, 7 with quantum 4: the first job (burst 3)
comes before the third (burst 7) and has the smaller turnaround time, 3 against
18. -/
theorem roundRobin_no_overtaking_witness :
    RoundRobin 6 [⟨"A", 3, 0, 0⟩, ⟨"B", 10, 0, 0⟩, ⟨"C", 7, 0, 0⟩] 4
      = some ⟨[⟨"A", 3, 0, 0⟩, ⟨"B", 10, 0, 0⟩, ⟨"C", 7, 0, 0⟩], [0, 10, 11], [3, 20, 18]⟩ ∧
    (⟨[⟨"A", 3, 0, 0⟩, ⟨"B", 10, 0, 0⟩, ⟨"C", 7, 0, 0⟩], [0, 10, 11], [3, 20, 18]⟩ : Output).tat.getD
        0 0
      < (⟨[⟨"A", 3, 0, 0⟩, ⟨"B", 10, 0, 0⟩, ⟨"C", 7, 0, 0⟩], [0, 10, 11], [3, 20, 18]⟩ :
          Output).tat.getD 2 0 :=
  ⟨by decide,
   (roundRobin_no_overtaking [⟨"A", 3, 0, 0⟩, ⟨"B", 10, 0, 0⟩, ⟨"C", 7, 0, 0⟩] 4 (by decide)
      (by decide) (by decide) 0 2 (by decide) (by decide) (by decide)).2 6 _ (by decide)⟩

/-- C19 fails as stated: with three jobs of burst `2147483647` and quantum
`2147483647` the turnaround times reported are `2147483647`, `-2`,
`2147483645`: the first job, of the same burst as the second and before it in
the input, has the larger turnaround time. -/
theorem overtaking_overflow_counterexample :
    RoundRobin 3 [⟨"A", 2147483647, 0, 0⟩, ⟨"B", 2147483647, 0, 0⟩, ⟨"C", 2147483647, 0, 0⟩]
        2147483647
      = some ⟨[⟨"A", 2147483647, 0, 0⟩, ⟨"B", 2147483647, 0, 0⟩, ⟨"C", 2147483647, 0, 0⟩],
          [0, 2147483647, -2], [2147483647, -2, 2147483645]⟩ ∧
    ¬ ((⟨[⟨"A", 2147483647, 0, 0⟩, ⟨"B", 2147483647, 0, 0⟩, ⟨"C", 2147483647, 0, 0⟩],
          [0, 2147483647, -2], [2147483647, -2, 2147483645]⟩ : Output).tat.getD 0 0
        < (⟨[⟨"A", 2147483647, 0, 0⟩, ⟨"B", 2147483647, 0, 0⟩, ⟨"C", 2147483647, 0, 0⟩],
          [0, 2147483647, -2], [2147483647, -2, 2147483645]⟩ : Output).tat.getD 1 0) :=
  ⟨by decide, by decide⟩

/-! ## C4 – jobs with equal key -/

theorem gnu_linearInsert_perm (comp : Job → Job → Bool) (val : Job) (l : List Job) :
    (Gnu.unguardedLinearInsert comp val l).Perm (val :: l) := by
  induction l with
  | nil => exact List.Perm.refl _
  | cons x rest ih =>
    unfold Gnu.unguardedLinearInsert
    split
    · exact (List.Perm.cons x ih).trans (List.Perm.swap val x rest)
    · exact List.Perm.refl _

/-- Inserting into a range that is sorted, seen back to front, leaves it so. -/
theorem gnu_linearInsert_sorted (key : Job → Int) (val : Job) (l : List Job)
    (h : l.Pairwise (fun a b => key b ≤ key a)) :
    (Gnu.unguardedLinearInsert (fun a b => decide (key a < key b)) val l).Pairwise
      (fun a b => key b ≤ key a) := by
  induction l with
  | nil => simp [Gnu.unguardedLinearInsert]
  | cons x rest ih =>
    rw [List.pairwise_cons] at h
    unfold Gnu.unguardedLinearInsert
    by_cases hc : key val < key x
    · simp only [hc, decide_True, if_true]
      rw [List.pairwise_cons]
      refine ⟨?_, ih h.2⟩
      intro y hy
      have hy' := (gnu_linearInsert_perm _ val rest).subset hy
      rcases List.mem_cons.1 hy' with e | e
      · rw [e]
        omega
      · exact h.1 y e
    · simp only [hc, decide_False, Bool.false_eq_true, if_false]
      rw [List.pairwise_cons, List.pairwise_cons]
      refine ⟨?_, h.1, h.2⟩
      intro y hy
      rcases List.mem_cons.1 hy with e | e
      · rw [e]
        omega
      · have := h.1 y e
        omega

/-- The element inserted passes elements of other keys only. -/
theorem gnu_linearInsert_filter (key : Job → Int) (k : Int) (val : Job) (l : List Job) :
    (Gnu.unguardedLinearInsert (fun a b => decide (key a < key b)) val l).filter
        (fun j => decide (key j = k))
      = (val :: l).filter (fun j => decide (key j = k)) := by
  induction l with
  | nil => rfl
  | cons x rest ih =>
    unfold Gnu.unguardedLinearInsert
    by_cases hc : key val < key x
    · simp only [hc, decide_True, if_true]
      rw [List.filter_cons, ih]
      by_cases hx : key x = k
      · have hv : key val ≠ k := by omega
        simp [List.filter_cons, hx, hv]
      · simp [List.filter_cons, hx]
    · simp only [hc, decide_False, Bool.false_eq_true, if_false]

theorem gnu_insertionStep_perm (comp : Job → Job → Bool) (s : List Job) (val : Job) :
    (Gnu.insertionStep comp s val).Perm (s ++ [val]) := by
  cases s with
  | nil => exact List.Perm.refl _
  | cons f t =>
    show (if comp val f = true then val :: f :: t
      else (Gnu.unguardedLinearInsert comp val (f :: t).reverse).reverse).Perm _
    split
    · exact (List.perm_append_singleton val (f :: t)).symm
    · refine (List.reverse_perm _).trans ((gnu_linearInsert_perm comp val _).trans ?_)
      exact ((List.Perm.cons val (List.reverse_perm (f :: t))).trans
        (List.perm_append_singleton val (f :: t)).symm)

theorem gnu_insertionStep_sorted (key : Job → Int) (s : List Job) (val : Job)
    (h : s.Pairwise (fun a b => key a ≤ key b)) :
    (Gnu.insertionStep (fun a b => decide (key a < key b)) s val).Pairwise
      (fun a b => key a ≤ key b) := by
  cases s with
  | nil => simp [Gnu.insertionStep]
  | cons f t =>
    unfold Gnu.insertionStep
    by_cases hc : key val < key f
    · simp only [hc, decide_True, if_true]
      rw [List.pairwise_cons]
      refine ⟨?_, h⟩
      intro y hy
      rw [List.pairwise_cons] at h
      rcases List.mem_cons.1 hy with e | e
      · rw [e]
        omega
      · have := h.1 y e
        omega
    · simp only [hc, decide_False, Bool.false_eq_true, if_false]
      rw [List.pairwise_reverse]
      apply gnu_linearInsert_sorted
      rw [List.pairwise_reverse]
      exact h

theorem gnu_insertionStep_filter (key : Job → Int) (k : Int) (s : List Job) (val : Job)
    (h : s.Pairwise (fun a b => key a ≤ key b)) :
    (Gnu.insertionStep (fun a b => decide (key a < key b)) s val).filter
        (fun j => decide (key j = k))
      = (s ++ [val]).filter (fun j => decide (key j = k)) := by
  cases s with
  | nil => rfl
  | cons f t =>
    unfold Gnu.insertionStep
    by_cases hc : key val < key f
    · simp only [hc, decide_True, if_true]
      rw [List.pairwise_cons] at h
      by_cases hv : key val = k
      · have hnil : (f :: t).filter (fun j => decide (key j = k)) = [] := by
          rw [List.filter_eq_nil_iff]
          intro y hy
          simp only [decide_eq_true_eq]
          rcases List.mem_cons.1 hy with e | e
          · rw [e]
            omega
          · have := h.1 y e
            omega
        rw [List.filter_append, hnil, List.filter_cons, hnil]
        simp [hv]
      · rw [List.filter_append, List.filter_cons]
        simp [hv]
    · simp only [hc, decide_False, Bool.false_eq_true, if_false]
      rw [List.filter_reverse, gnu_linearInsert_filter, ← List.filter_reverse,
        List.reverse_cons, List.reverse_reverse]

/-- The insertion sort of the library from a sorted range `s` on: a sorted
rearrangement in which the jobs of every key value keep their order. -/
theorem gnu_foldl_insertionStep (key : Job → Int) (l s : List Job)
    (h : s.Pairwise (fun a b => key a ≤ key b)) :
    (l.foldl (Gnu.insertionStep (fun a b => decide (key a < key b))) s).Perm (s ++ l) ∧
    (l.foldl (Gnu.insertionStep (fun a b => decide (key a < key b))) s).Pairwise
      (fun a b => key a ≤ key b) ∧
    ∀ k, (l.foldl (Gnu.insertionStep (fun a b => decide (key a < key b))) s).filter
        (fun j => decide (key j = k))
      = (s ++ l).filter (fun j => decide (key j = k)) := by
  induction l generalizing s with
  | nil => simp [h]
  | cons a t ih =>
    obtain ⟨h1, h2, h3⟩ := ih _ (gnu_insertionStep_sorted key s a h)
    rw [List.foldl_cons]
    refine ⟨?_, h2, ?_⟩
    · refine h1.trans ?_
      have := (gnu_insertionStep_perm (fun a b => decide (key a < key b)) s a).append_right t
      simpa using this
    · intro k
      rw [h3 k, List.filter_append, gnu_insertionStep_filter key k s a h, ← List.filter_append]
      simp

theorem gnu_introsortLoop_small (comp : Job → Job → Bool) (depth : Nat) (v : List Job)
    (first last : Nat) (h : last - first ≤ 16) :
    Gnu.introsortLoop comp depth v first last = v := by
  cases depth with
  | zero =>
    unfold Gnu.introsortLoop
    rw [if_neg (by omega)]
  | succ d =>
    unfold Gnu.introsortLoop
    rw [if_neg (by omega)]

/-- On at most 16 elements `std::sort` is the insertion sort. -/
theorem gnu_sort_small (comp : Job → Job → Bool) (l : List Job) (h : l.length ≤ 16) :
    Gnu.sort comp l = Gnu.insertionSort comp l := by
  cases l with
  | nil => rfl
  | cons a t =>
    unfold Gnu.sort
    simp only
    rw [gnu_introsortLoop_small _ _ _ _ _ (by omega)]
    unfold Gnu.finalInsertionSort
    rw [if_neg (by omega)]

/-- On at most 16 jobs the library sort passes the contract check, is the
insertion sort, and keeps the jobs of every key value in input order. -/
theorem gnuStdSort_small (key : Job → Int) (l : List Job) (h : l.length ≤ 16) :
    gnuStdSort.sort (fun a b => decide (key a < key b)) l
      = Gnu.sort (fun a b => decide (key a < key b)) l ∧
    Gnu.sort (fun a b => decide (key a < key b)) l
      = Gnu.insertionSort (fun a b => decide (key a < key b)) l ∧
    KeepsTies key l (gnuStdSort.sort (fun a b => decide (key a < key b)) l) := by
  have hs := gnu_sort_small (fun a b => decide (key a < key b)) l h
  obtain ⟨h1, h2, h3⟩ := gnu_foldl_insertionStep key l [] List.Pairwise.nil
  have hc : (Gnu.sort (fun a b => decide (key a < key b)) l).Perm l ∧
      (Gnu.sort (fun a b => decide (key a < key b)) l).Pairwise
        (fun a b => (fun a b => decide (key a < key b)) b a = false) := by
    rw [hs]
    refine ⟨by simpa using h1, ?_⟩
    exact h2.imp (fun hab => by simpa using hab)
  have he : gnuStdSort.sort (fun a b => decide (key a < key b)) l
      = Gnu.sort (fun a b => decide (key a < key b)) l := if_pos hc
  refine ⟨he, hs, ?_⟩
  intro k
  rw [he, hs]
  simpa using h3 k

/-- C4, as the code has it.  For `FCFS`, `SJF` and `PriorityScheduling` on a job
list of at most 16 jobs, with `std::sort` as the GNU C++ library implements it
(an insertion sort on so short a vector): of two jobs with equal sort key (equal
arrival time, burst time, or priority respectively) the one appearing earlier in
the input appears earlier in the output; for every key value the jobs having it
come out in input order. -/
theorem equal_key_order_kept_upto_16 (jobs : List Job) (h : jobs.length ≤ 16) :
    ((FCFS gnuStdSort jobs).jobs = Gnu.insertionSort byArrival jobs ∧
      (SJF gnuStdSort jobs).jobs = Gnu.insertionSort byBurst jobs ∧
      (PriorityScheduling gnuStdSort jobs).jobs = Gnu.insertionSort byPriority jobs) ∧
    KeepsTies (fun j => j.at_.val) jobs (FCFS gnuStdSort jobs).jobs ∧
    KeepsTies (fun j => j.bt.val) jobs (SJF gnuStdSort jobs).jobs ∧
    KeepsTies (fun j => j.pr.val) jobs (PriorityScheduling gnuStdSort jobs).jobs := by
  obtain ⟨a1, a2, a3⟩ := gnuStdSort_small (fun j => j.at_.val) jobs h
  obtain ⟨b1, b2, b3⟩ := gnuStdSort_small (fun j => j.bt.val) jobs h
  obtain ⟨c1, c2, c3⟩ := gnuStdSort_small (fun j => j.pr.val) jobs h
  exact ⟨⟨a1.trans a2, b1.trans b2, c1.trans c2⟩, a3, b3, c3⟩

/-- C4 as amended, at two jobs `A`, `B` equal in every key: all three policies
report `A` before `B`. -/
theorem equal_key_order_kept_upto_16_witness :
    (FCFS gnuStdSort [⟨"A", 1, 0, 0⟩, ⟨"B", 1, 0, 0⟩]).jobs
      = [⟨"A", 1, 0, 0⟩, ⟨"B", 1, 0, 0⟩] ∧
    KeepsTies (fun j => j.at_.val) [⟨"A", 1, 0, 0⟩, ⟨"B", 1, 0, 0⟩]
      (FCFS gnuStdSort [⟨"A", 1, 0, 0⟩, ⟨"B", 1, 0, 0⟩]).jobs :=
  ⟨by decide,
   (equal_key_order_kept_upto_16 [⟨"A", 1, 0, 0⟩, ⟨"B", 1, 0, 0⟩] (by decide)).2.1⟩

/-- C4 fails as stated: on the seventeen jobs `J0 .. J16`, equal in every key,
`std::sort` of the GNU C++ library partitions the vector once and all three
policies report the order `J8, J16, J15, .., J9, J0, J7, .., J1`: `J0` is first
in the input and tenth in the output, behind `J8`. -/
theorem equal_key_order_counterexample :
    (Gnu.sort byArrival seventeenTies).map (fun j => j.pname)
      = ["J8", "J16", "J15", "J14", "J13", "J12", "J11", "J10", "J9", "J0", "J7", "J6", "J5",
         "J4", "J3", "J2", "J1"] ∧
    (FCFS gnuStdSort seventeenTies).jobs.map (fun j => j.pname)
      = ["J8", "J16", "J15", "J14", "J13", "J12", "J11", "J10", "J9", "J0", "J7", "J6", "J5",
         "J4", "J3", "J2", "J1"] ∧
    (SJF gnuStdSort seventeenTies).jobs.map (fun j => j.pname)
      = ["J8", "J16", "J15", "J14", "J13", "J12", "J11", "J10", "J9", "J0", "J7", "J6", "J5",
         "J4", "J3", "J2", "J1"] ∧
    (PriorityScheduling gnuStdSort seventeenTies).jobs.map (fun j => j.pname)
      = ["J8", "J16", "J15", "J14", "J13", "J12", "J11", "J10", "J9", "J0", "J7", "J6", "J5",
         "J4", "J3", "J2", "J1"] ∧
    (FCFS gnuStdSort seventeenTies).jobs = Gnu.sort byArrival seventeenTies ∧
    ¬ KeepsTies (fun j => j.at_.val) seventeenTies (FCFS gnuStdSort seventeenTies).jobs :=
  ⟨by decide, by decide, by decide, by decide, by decide, fun h => absurd (h 0) (by decide)⟩

end JobScheduling
